import Mathlib

/-!
automata-utils: NFA / DFA data model and conversions

A shallow embedding of `src/automata/nfa.go` and `src/automata/cdfa.go`.

Conventions of the embedding
* A Go `string` is a sequence of bytes: `List Nat`, every byte below 256.
  `len(s)` is the number of bytes, `s[0]` the first byte, `range s` decodes
  UTF-8 (`rangeString`), `string(c)` of an integer encodes a code point
  (`runeToString`).
* `State` is a natural number (Go: `int`; a negative index fails exactly as
  an index past the end does).
* A Go slice is a `List`, a `map[uint8]State` a function to `Option`.
* A run-time panic is an `Except.error` carrying a `Panic`.
* A method is a function of the value behind its receiver; a method that
  assigns returns the receiver as the call leaves it. The variants named
  `...Call` of the reading methods and of the conversions return the receiver
  or argument as the call leaves it as well, the variants named `...InPlace`
  also when the call ends in a panic.
* Go leaves the iteration order of a map unspecified; where a loop ranges
  over a map the embedding takes the keys in order of first insertion.
-/

namespace Automata

/-! ## Definitions -/

abbrev State := Nat

/-- The ways a call can stop without returning. -/
inductive Panic where
  /-- Go runtime error: index out of range. -/
  | indexOutOfRange
  /-- The explicit panic "word length must be 1" of the DFA. -/
  | wordLength
  /-- Go runtime error: makeslice: cap out of range. -/
  | makeSliceCap
  /-- The recursion bound of the embedding was used up (no Go behaviour). -/
  | outOfFuel
deriving DecidableEq, Repr

structure Edge where
  From : State
  To : State
  Word : List Nat
deriving DecidableEq, Repr

deriving instance DecidableEq for Except

/-! ### Go strings -/

/-- The replacement rune U+FFFD that Go yields for a malformed encoding. -/
def RuneError : Nat := 0xFFFD

/-- Conversion `string(r)` of an integer code point: its UTF-8 encoding, the
encoding of U+FFFD for a surrogate or a value past U+10FFFF. -/
def runeToString (r : Nat) : List Nat :=
  if r < 0x80 then [r]
  else if r < 0x800 then [0xC0 + r / 64, 0x80 + r % 64]
  else if (0xD800 ≤ r ∧ r ≤ 0xDFFF) ∨ 0x10FFFF < r then [0xEF, 0xBF, 0xBD]
  else if r < 0x10000 then [0xE0 + r / 4096, 0x80 + r / 64 % 64, 0x80 + r % 64]
  else [0xF0 + r / 262144, 0x80 + r / 4096 % 64, 0x80 + r / 64 % 64, 0x80 + r % 64]

/-- Whether `b` is a UTF-8 continuation byte 0x80..0xBF. -/
def isCont (b : Nat) : Bool := decide (0x80 ≤ b) && decide (b ≤ 0xBF)

/-- Decoding of the first rune of a byte string, as `range` does it: the rune
and the number of bytes it takes; a malformed or truncated encoding gives
`RuneError` of width 1. -/
def decodeRune : List Nat → Nat × Nat
  | [] => (RuneError, 0)
  | b0 :: rest =>
    if b0 < 0x80 then (b0, 1)
    else if b0 < 0xC2 then (RuneError, 1)
    else if b0 < 0xE0 then
      match rest with
      | b1 :: _ => if isCont b1 then (b0 % 32 * 64 + b1 % 64, 2) else (RuneError, 1)
      | _ => (RuneError, 1)
    else if b0 < 0xF0 then
      match rest with
      | b1 :: b2 :: _ =>
        if decide ((if b0 = 0xE0 then 0xA0 else 0x80) ≤ b1)
            && decide (b1 ≤ (if b0 = 0xED then 0x9F else 0xBF)) && isCont b2 then
          (b0 % 16 * 4096 + b1 % 64 * 64 + b2 % 64, 3)
        else (RuneError, 1)
      | _ => (RuneError, 1)
    else if b0 < 0xF5 then
      match rest with
      | b1 :: b2 :: b3 :: _ =>
        if decide ((if b0 = 0xF0 then 0x90 else 0x80) ≤ b1)
            && decide (b1 ≤ (if b0 = 0xF4 then 0x8F else 0xBF)) && isCont b2 && isCont b3 then
          (b0 % 8 * 262144 + b1 % 64 * 4096 + b2 % 64 * 64 + b3 % 64, 4)
        else (RuneError, 1)
      | _ => (RuneError, 1)
    else (RuneError, 1)

/-- Loop `for i, char := range s` from byte offset `i`: the pairs (byte
offset, rune) in order. `fuel` bounds the number of runes. -/
def rangeStringFrom : Nat → Nat → List Nat → List (Nat × Nat)
  | 0, _, _ => []
  | _, _, [] => []
  | fuel + 1, i, b :: rest =>
    let d := decodeRune (b :: rest)
    (i, d.1) :: rangeStringFrom fuel (i + d.2) ((b :: rest).drop d.2)

/-- The pairs (byte offset, rune) that `for i, char := range s` visits. -/
def rangeString (s : List Nat) : List (Nat × Nat) :=
  rangeStringFrom s.length 0 s

/-! ### The NFA variant (`nfa.go`) -/

structure NondeterministicFiniteAutomaton where
  start : State
  terminals : List Bool
  edges : List (List Edge)
deriving DecidableEq, Repr

/-- The value `new(NondeterministicFiniteAutomaton)`. -/
def NewNondeterministicFiniteAutomaton : NondeterministicFiniteAutomaton :=
  { start := 0, terminals := [], edges := [] }

namespace NondeterministicFiniteAutomaton

def StateCount (nfa : NondeterministicFiniteAutomaton) : Nat :=
  nfa.edges.length

/-- Appends one state; the automaton after the call and the new index. -/
def AddState (nfa : NondeterministicFiniteAutomaton) :
    NondeterministicFiniteAutomaton × State :=
  let nfa1 := { nfa with terminals := nfa.terminals ++ [false], edges := nfa.edges ++ [[]] }
  (nfa1, nfa1.StateCount - 1)

def Start (nfa : NondeterministicFiniteAutomaton) : State :=
  nfa.start

def SetStart (nfa : NondeterministicFiniteAutomaton) (state : State) :
    NondeterministicFiniteAutomaton :=
  { nfa with start := state }

def IsTerminal (nfa : NondeterministicFiniteAutomaton) (state : State) : Except Panic Bool :=
  match nfa.terminals[state]? with
  | some b => .ok b
  | none => .error .indexOutOfRange

def SetTerminal (nfa : NondeterministicFiniteAutomaton) (state : State) (isTerminal : Bool) :
    Except Panic NondeterministicFiniteAutomaton :=
  if state < nfa.terminals.length then
    .ok { nfa with terminals := nfa.terminals.set state isTerminal }
  else .error .indexOutOfRange

def Edges (nfa : NondeterministicFiniteAutomaton) (state : State) : Except Panic (List Edge) :=
  match nfa.edges[state]? with
  | some es => .ok es
  | none => .error .indexOutOfRange

def AddEdge (nfa : NondeterministicFiniteAutomaton) (edge : Edge) :
    Except Panic NondeterministicFiniteAutomaton :=
  match nfa.edges[edge.From]? with
  | some es => .ok { nfa with edges := nfa.edges.set edge.From (es ++ [edge]) }
  | none => .error .indexOutOfRange

/-- The loop of `DeleteEdge` from position `index` on: `rest` are the edges
not yet compared. At the first edge equal to `edge` the last edge of `edges`
is written over it and the slice is cut by one. -/
def deleteScan (edges : List Edge) (edge : Edge) : Nat → List Edge → Option (List Edge)
  | _, [] => none
  | index, currentEdge :: rest =>
    if currentEdge = edge then
      some ((edges.set index (edges.getLastD edge)).take (edges.length - 1))
    else deleteScan edges edge (index + 1) rest

def DeleteEdge (nfa : NondeterministicFiniteAutomaton) (edge : Edge) :
    Except Panic (NondeterministicFiniteAutomaton × Bool) :=
  match nfa.edges[edge.From]? with
  | none => .error .indexOutOfRange
  | some edges =>
    match deleteScan edges edge 0 edges with
    | some edges1 => .ok ({ nfa with edges := nfa.edges.set edge.From edges1 }, true)
    | none => .ok (nfa, false)

end NondeterministicFiniteAutomaton

/-! ### The DFA variant (`cdfa.go`) -/

structure DeterministicFiniteAutomaton where
  start : State
  terminals : List Bool
  edges : List (Nat → Option State)

/-- The value `new(DeterministicFiniteAutomaton)`. -/
def NewDeterministicFiniteAutomaton : DeterministicFiniteAutomaton :=
  { start := 0, terminals := [], edges := [] }

/-- The map `make(map[uint8]State)`. -/
def emptyMap : Nat → Option State := fun _ => none

/-- Assignment `m[key] = value`. -/
def mapSet (m : Nat → Option State) (key : Nat) (value : State) : Nat → Option State :=
  fun c => if c = key then some value else m c

/-- Statement `delete(m, key)`. -/
def mapDelete (m : Nat → Option State) (key : Nat) : Nat → Option State :=
  fun c => if c = key then none else m c

namespace DeterministicFiniteAutomaton

def StateCount (dfa : DeterministicFiniteAutomaton) : Nat :=
  dfa.edges.length

def AddState (dfa : DeterministicFiniteAutomaton) : DeterministicFiniteAutomaton × State :=
  let dfa1 := { dfa with terminals := dfa.terminals ++ [false], edges := dfa.edges ++ [emptyMap] }
  (dfa1, dfa1.StateCount - 1)

def Start (dfa : DeterministicFiniteAutomaton) : State :=
  dfa.start

def SetStart (dfa : DeterministicFiniteAutomaton) (state : State) :
    DeterministicFiniteAutomaton :=
  { dfa with start := state }

def IsTerminal (dfa : DeterministicFiniteAutomaton) (state : State) : Except Panic Bool :=
  match dfa.terminals[state]? with
  | some b => .ok b
  | none => .error .indexOutOfRange

def SetTerminal (dfa : DeterministicFiniteAutomaton) (state : State) (isTerminal : Bool) :
    Except Panic DeterministicFiniteAutomaton :=
  if state < dfa.terminals.length then
    .ok { dfa with terminals := dfa.terminals.set state isTerminal }
  else .error .indexOutOfRange

/-- The comparison `edges[i].Word[0] < edges[j].Word[0]` handed to
`sort.Slice`; every word it is applied to is a `string(char)`, never empty. -/
def lessByFirstByte (a b : Edge) : Bool :=
  decide (a.Word.headD 0 < b.Word.headD 0)

/-- One edge per key of the map, the keys taken ascending, then sorted by
the first byte of the word (`sort.Slice` is not stable: of the orders it may
leave equal first bytes in, this is the one of an insertion sort). -/
def Edges (dfa : DeterministicFiniteAutomaton) (state : State) : Except Panic (List Edge) :=
  match dfa.edges[state]? with
  | none => .error .indexOutOfRange
  | some m =>
    .ok (List.insertionSort (fun a b => lessByFirstByte b a = false)
      ((List.range 256).filterMap fun char =>
        (m char).map fun dest => { From := state, To := dest, Word := runeToString char }))

def AddEdge (dfa : DeterministicFiniteAutomaton) (edge : Edge) :
    Except Panic DeterministicFiniteAutomaton :=
  match edge.Word with
  | [c] =>
    match dfa.edges[edge.From]? with
    | some m => .ok { dfa with edges := dfa.edges.set edge.From (mapSet m c edge.To) }
    | none => .error .indexOutOfRange
  | _ => .error .wordLength

def DeleteEdge (dfa : DeterministicFiniteAutomaton) (edge : Edge) :
    Except Panic (DeterministicFiniteAutomaton × Bool) :=
  match edge.Word with
  | [c] =>
    match dfa.edges[edge.From]? with
    | some m =>
      .ok ({ dfa with edges := dfa.edges.set edge.From (mapDelete m c) }, (m c).isSome)
    | none => .error .indexOutOfRange
  | _ => .error .wordLength

end DeterministicFiniteAutomaton

/-- The inner loop of `MakeComplete` over `alphabet` for one state's map. -/
def completeMap (dumpState : State) (alphabet : List Nat) (edges : Nat → Option State) :
    Nat → Option State :=
  alphabet.foldl
    (fun m char => match m char with
      | some _ => m
      | none => mapSet m char dumpState)
    edges

def MakeComplete (dfa : DeterministicFiniteAutomaton) (alphabet : List Nat) :
    DeterministicFiniteAutomaton :=
  let (dfa1, dumpState) := dfa.AddState
  { dfa1 with edges := dfa1.edges.map (completeMap dumpState alphabet) }

/-- A loop `for _, x := range xs { ... }` whose body may panic: the state
after the last iteration, or the first panic. -/
def forEach {α σ : Type} (body : α → σ → Except Panic σ) : List α → σ → Except Panic σ
  | [], s => .ok s
  | x :: xs, s =>
    match body x s with
    | .error p => .error p
    | .ok s1 => forEach body xs s1

/-- The body of the loop of `CdfaComplementInplace`. -/
def complementStep (state : State) (cdfa : DeterministicFiniteAutomaton) :
    Except Panic DeterministicFiniteAutomaton :=
  match cdfa.IsTerminal state with
  | .error p => .error p
  | .ok b => cdfa.SetTerminal state (!b)

def CdfaComplementInplace (cdfa : DeterministicFiniteAutomaton) :
    Except Panic DeterministicFiniteAutomaton :=
  forEach complementStep (List.range cdfa.StateCount) cdfa

/-! ### Length splitting and epsilon folding (`nfa.go`) -/

/-- The body of the first loop of `SplitLongWordsInNfa`: a new state that
takes the terminal flag of `state`. -/
def copyState (nfa : NondeterministicFiniteAutomaton) (state : State)
    (newNfa : NondeterministicFiniteAutomaton) : Except Panic NondeterministicFiniteAutomaton :=
  let (newNfa1, added) := newNfa.AddState
  match nfa.IsTerminal state with
  | .error p => .error p
  | .ok b => newNfa1.SetTerminal added b

/-- The loop over the runes of a word longer than one byte: `runes` are the
pairs (byte offset, rune) still to visit, `wordLen` is `len(edge.Word)`,
`dest` is `edge.To`. -/
def splitChain (dest : State) (wordLen : Nat) :
    List (Nat × Nat) → State → NondeterministicFiniteAutomaton →
      Except Panic NondeterministicFiniteAutomaton
  | [], _, newNfa => .ok newNfa
  | (i, char) :: runes, prevState, newNfa =>
    let (newNfa1, nextState) := if i + 1 < wordLen then newNfa.AddState else (newNfa, dest)
    match newNfa1.AddEdge { From := prevState, To := nextState, Word := runeToString char } with
    | .error p => .error p
    | .ok newNfa2 => splitChain dest wordLen runes nextState newNfa2

/-- The body of the loop of `SplitLongWordsInNfa` over the edges. -/
def splitEdge (edge : Edge) (newNfa : NondeterministicFiniteAutomaton) :
    Except Panic NondeterministicFiniteAutomaton :=
  if edge.Word.length ≤ 1 then newNfa.AddEdge edge
  else splitChain edge.To edge.Word.length (rangeString edge.Word) edge.From newNfa

/-- The body of the loop over the states: the edges of one state. -/
def splitState (nfa : NondeterministicFiniteAutomaton) (state : State)
    (newNfa : NondeterministicFiniteAutomaton) : Except Panic NondeterministicFiniteAutomaton :=
  match nfa.Edges state with
  | .error p => .error p
  | .ok edges => forEach splitEdge edges newNfa

def SplitLongWordsInNfa (nfa : NondeterministicFiniteAutomaton) :
    Except Panic NondeterministicFiniteAutomaton :=
  match forEach (copyState nfa) (List.range nfa.StateCount) NewNondeterministicFiniteAutomaton with
  | .error p => .error p
  | .ok newNfa =>
    forEach (splitState nfa) (List.range nfa.StateCount) (newNfa.SetStart nfa.Start)

/-- The body of the loop of `dfs` over the edges of a state: an edge with
the empty word to a state not yet visited is followed by `recurse`, the
closure `dfs` itself. -/
def visitEdge {σ : Type} (recurse : State → List Bool × σ → Except Panic (List Bool × σ))
    (edge : Edge) (va : List Bool × σ) : Except Panic (List Bool × σ) :=
  if edge.Word = [] then
    match va.1[edge.To]? with
    | none => .error .indexOutOfRange
    | some true => .ok va
    | some false => recurse edge.To va
  else .ok va

/-- The closure `dfs` of `iterateOverReachableByEmptyWords`, with the slice
`visited` and the state `acc` that `functor` works on passed along. `fuel`
bounds the depth of the recursion. -/
def dfsEmptyWords {σ : Type} (nfa : NondeterministicFiniteAutomaton)
    (functor : State → σ → Except Panic σ) :
    Nat → State → List Bool × σ → Except Panic (List Bool × σ)
  | 0, _, _ => .error .outOfFuel
  | fuel + 1, state, (visited, acc) =>
    match functor state acc with
    | .error p => .error p
    | .ok acc1 =>
      if state < visited.length then
        match nfa.Edges state with
        | .error p => .error p
        | .ok edges =>
          forEach (visitEdge (dfsEmptyWords nfa functor fuel)) edges
            (visited.set state true, acc1)
      else .error .indexOutOfRange

/-- `functor` is called once for every state that epsilon edges reach from
`start`; the recursion is at most as deep as there are states. -/
def iterateOverReachableByEmptyWords {σ : Type} (nfa : NondeterministicFiniteAutomaton)
    (start : State) (functor : State → σ → Except Panic σ) (acc : σ) : Except Panic σ :=
  match dfsEmptyWords nfa functor (nfa.StateCount + 1) start
      (List.replicate nfa.StateCount false, acc) with
  | .error p => .error p
  | .ok va => .ok va.2

/-- The loop of the functor over the edges of `dest`: every edge with a word
is added to `nfa3` with `source` as its source. -/
def foldEdge (source : State) (edge : Edge) (nfa3 : NondeterministicFiniteAutomaton) :
    Except Panic NondeterministicFiniteAutomaton :=
  if edge.Word ≠ [] then nfa3.AddEdge { From := source, To := edge.To, Word := edge.Word }
  else .ok nfa3

/-- The functor that `ConvertNfaToNfaWithWordsOfLen1` hands to the traversal
started at `source`. -/
def foldState (nfa2 : NondeterministicFiniteAutomaton) (source : State) (dest : State)
    (nfa3 : NondeterministicFiniteAutomaton) : Except Panic NondeterministicFiniteAutomaton :=
  match nfa2.IsTerminal dest with
  | .error p => .error p
  | .ok b =>
    match (if b then nfa3.SetTerminal source true else .ok nfa3) with
    | .error p => .error p
    | .ok nfa3a =>
      match nfa2.Edges dest with
      | .error p => .error p
      | .ok edges => forEach (foldEdge source) edges nfa3a

def ConvertNfaToNfaWithWordsOfLen1 (nfa1 : NondeterministicFiniteAutomaton) :
    Except Panic NondeterministicFiniteAutomaton :=
  match SplitLongWordsInNfa nfa1 with
  | .error p => .error p
  | .ok nfa2 =>
    let nfa3 := (List.range nfa2.StateCount).foldl (fun n _ => n.AddState.1)
      NewNondeterministicFiniteAutomaton
    forEach (fun source nfa3 => iterateOverReachableByEmptyWords nfa2 source (foldState nfa2 source) nfa3)
      (List.range nfa2.StateCount) (nfa3.SetStart nfa2.Start)

/-! ### Regex synthesis (`nfa.go`) -/

/-- The body of the loop of `ConvertNfaToNfaWithSingleTerminal`. -/
def singleTerminalStep (terminal : State) (state : State)
    (nfa : NondeterministicFiniteAutomaton) : Except Panic NondeterministicFiniteAutomaton :=
  match nfa.IsTerminal state with
  | .error p => .error p
  | .ok false => .ok nfa
  | .ok true =>
    match nfa.SetTerminal state false with
    | .error p => .error p
    | .ok nfa1 => nfa1.AddEdge { From := state, To := terminal, Word := [] }

/-- The automaton after the call and the fresh state that is returned. The
loop runs over `nfa.StateCount()` as it is after `AddState`, so over the
fresh state too. -/
def ConvertNfaToNfaWithSingleTerminal (nfa : NondeterministicFiniteAutomaton) :
    Except Panic (NondeterministicFiniteAutomaton × State) :=
  let (nfa1, terminal) := nfa.AddState
  match nfa1.SetTerminal terminal true with
  | .error p => .error p
  | .ok nfa2 =>
    match forEach (singleTerminalStep terminal) (List.range nfa2.StateCount) nfa2 with
    | .error p => .error p
    | .ok nfa3 => .ok (nfa3, terminal)

/-- The text that `reduceEdgesToRegexp` writes for the edge at position `i`. -/
def edgeText (i : Nat) (edge : Edge) : List Nat :=
  (if i > 0 then [43] else []) ++ (if edge.Word = [] then [49] else edge.Word)

/-- The loop of `reduceEdgesToRegexp`: `i` is the position of the next edge,
the state is the text written so far and the automaton. -/
def reduceLoop : Nat → List Edge → List Nat × NondeterministicFiniteAutomaton →
    Except Panic (List Nat × NondeterministicFiniteAutomaton)
  | _, [], acc => .ok acc
  | i, edge :: edges, (regexp, nfa) =>
    match nfa.DeleteEdge edge with
    | .error p => .error p
    | .ok (nfa1, _) => reduceLoop (i + 1) edges (regexp ++ edgeText i edge, nfa1)

/-- The alternation of the words of `edges` in parentheses, "1" for no edge;
every edge is deleted from the automaton. -/
def reduceEdgesToRegexp (nfa : NondeterministicFiniteAutomaton) (edges : List Edge) :
    Except Panic (List Nat × NondeterministicFiniteAutomaton) :=
  if edges.length = 0 then .ok ([49], nfa)
  else
    match reduceLoop 0 edges ([40], nfa) with
    | .error p => .error p
    | .ok (regexp, nfa1) => .ok (regexp ++ [41], nfa1)

/-- Statement `edgesMap[key] = append(edgesMap[key], edge)` on a map kept as
a list of entries in order of first insertion. -/
def mapAppend : List (State × List Edge) → State → Edge → List (State × List Edge)
  | [], key, edge => [(key, [edge])]
  | (k, es) :: rest, key, edge =>
    if k = key then (k, es ++ [edge]) :: rest else (k, es) :: mapAppend rest key edge

/-- The loop of `reduceManyEdgesToRegexp` over the entries of the map. -/
def reduceManyEdgesToRegexp (nfa : NondeterministicFiniteAutomaton) :
    List (State × List Edge) → Except Panic (List (State × List Nat) × NondeterministicFiniteAutomaton)
  | [] => .ok ([], nfa)
  | (state, edges) :: rest =>
    match reduceEdgesToRegexp nfa edges with
    | .error p => .error p
    | .ok (regexp, nfa1) =>
      match reduceManyEdgesToRegexp nfa1 rest with
      | .error p => .error p
      | .ok (regexps, nfa2) => .ok ((state, regexp) :: regexps, nfa2)

/-- The three groups the edges touching `curState` are sorted into. -/
structure Partition where
  loops : List Edge
  prevEdges : List (State × List Edge)
  nextEdges : List (State × List Edge)

/-- The body of the loop that sorts the edges for `curState`. -/
def classifyEdge (curState : State) (acc : Partition) (edge : Edge) : Partition :=
  if edge.From = curState ∧ edge.To = curState then { acc with loops := acc.loops ++ [edge] }
  else if edge.To = curState then
    { acc with prevEdges := mapAppend acc.prevEdges edge.From edge }
  else if edge.From = curState then
    { acc with nextEdges := mapAppend acc.nextEdges edge.To edge }
  else acc

/-- The body of the loop over `ordinaryStates`: the elimination of `curState`.
The two nested loops over the states and their edges visit the stored edge
lists in order. -/
def eliminateState (curState : State) (nfa : NondeterministicFiniteAutomaton) :
    Except Panic NondeterministicFiniteAutomaton :=
  let parts := nfa.edges.flatten.foldl (classifyEdge curState) { loops := [], prevEdges := [], nextEdges := [] }
  match reduceEdgesToRegexp nfa parts.loops with
  | .error p => .error p
  | .ok (loop, nfa1) =>
    match reduceManyEdgesToRegexp nfa1 parts.prevEdges with
    | .error p => .error p
    | .ok (prevEdgesReduced, nfa2) =>
      match reduceManyEdgesToRegexp nfa2 parts.nextEdges with
      | .error p => .error p
      | .ok (nextEdgesReduced, nfa3) =>
        forEach
          (fun (pn : (State × List Nat) × (State × List Nat)) n =>
            n.AddEdge { From := pn.1.1, To := pn.2.1,
                        Word := [40] ++ pn.1.2 ++ loop ++ [42] ++ pn.2.2 ++ [41] })
          (prevEdgesReduced.flatMap fun p => nextEdgesReduced.map fun q => (p, q))
          nfa3

/-- The regular expression and the automaton as the call leaves it: the
function works on the automaton it is given. -/
def ConvertNfaToRegexp (nfa : NondeterministicFiniteAutomaton) :
    Except Panic (List Nat × NondeterministicFiniteAutomaton) :=
  match ConvertNfaToNfaWithSingleTerminal nfa with
  | .error p => .error p
  | .ok (nfa1, terminal) =>
    if nfa1.StateCount < 2 then .error .makeSliceCap
    else
      let ordinaryStates := (List.range nfa1.StateCount).filter
        fun state => decide (state ≠ nfa1.Start) && decide (state ≠ terminal)
      match forEach eliminateState ordinaryStates nfa1 with
      | .error p => .error p
      | .ok nfa2 =>
        match nfa2.Edges nfa2.Start with
        | .error p => .error p
        | .ok startEdges =>
          match nfa2.Edges terminal with
          | .error p => .error p
          | .ok terminalEdges =>
            let loopsStart := startEdges.filter fun e => decide (e.To = nfa2.Start)
            let edgesFromStartToTerminal := startEdges.filter fun e => !decide (e.To = nfa2.Start)
            let loopsTerminal := terminalEdges.filter fun e => decide (e.To = terminal)
            let edgesFromTerminalToStart := terminalEdges.filter fun e => !decide (e.To = terminal)
            match reduceEdgesToRegexp nfa2 loopsStart with
            | .error p => .error p
            | .ok (loopStart, nfa3) =>
              match reduceEdgesToRegexp nfa3 loopsTerminal with
              | .error p => .error p
              | .ok (loopTerminal, nfa4) =>
                match reduceEdgesToRegexp nfa4 edgesFromStartToTerminal with
                | .error p => .error p
                | .ok (edgeFromStartToTerminal, nfa5) =>
                  match reduceEdgesToRegexp nfa5 edgesFromTerminalToStart with
                  | .error p => .error p
                  | .ok (edgeFromTerminalToStart, nfa6) =>
                    .ok ([40] ++ loopStart ++ [42] ++ edgeFromStartToTerminal ++ loopTerminal
                          ++ [42] ++ edgeFromTerminalToStart ++ [41, 42] ++ loopStart ++ [42]
                          ++ edgeFromStartToTerminal ++ loopTerminal ++ [42], nfa6)

/-! ### Subset construction (`cdfa.go`) -/

structure MetaState where
  states : List Bool
  id : State
deriving DecidableEq, Repr

/-- The 64-bit FNV-1a hash of the membership vector: byte 0 for a member,
byte 1 for a non-member. -/
def MetaState.calcHash (metaState : MetaState) : Nat :=
  metaState.states.foldl
    (fun hash isInSet => (Nat.xor hash (if isInSet then 0 else 1)) * 1099511628211 % 2 ^ 64)
    14695981039346656037

/-- Lookup `m[key]` in a map kept as a list of entries. -/
def mapGet {β : Type} : List (Nat × β) → Nat → Option β
  | [], _ => none
  | (k, v) :: rest, key => if k = key then some v else mapGet rest key

/-- Statement `metaEdges[char][dest] = true`, after `metaEdges[char]` was
made a vector of `n` times false if the key was new. The map is a list of
entries in order of first insertion. -/
def metaEdgesMark (n : Nat) : List (Nat × List Bool) → Nat → State →
    Except Panic (List (Nat × List Bool))
  | [], char, dest =>
    if dest < n then .ok [(char, (List.replicate n false).set dest true)]
    else .error .indexOutOfRange
  | (k, v) :: rest, char, dest =>
    if k = char then
      if dest < v.length then .ok ((k, v.set dest true) :: rest) else .error .indexOutOfRange
    else
      match metaEdgesMark n rest char dest with
      | .error p => .error p
      | .ok rest1 => .ok ((k, v) :: rest1)

/-- The body of the loop over the edges of one member state. -/
def metaEdgeStep (n : Nat) (edge : Edge) (metaEdges : List (Nat × List Bool)) :
    Except Panic (List (Nat × List Bool)) :=
  match edge.Word with
  | [] => .error .indexOutOfRange
  | char :: _ => metaEdgesMark n metaEdges char edge.To

/-- The body of the loop over `metaFrom.states`: `entry` is the pair of the
index `stateFrom` and the flag `isInSet`. -/
def metaStateStep (nfa2 : NondeterministicFiniteAutomaton) (id : State) (entry : Nat × Bool)
    (acc : DeterministicFiniteAutomaton × List (Nat × List Bool)) :
    Except Panic (DeterministicFiniteAutomaton × List (Nat × List Bool)) :=
  if !entry.2 then .ok acc
  else
    match nfa2.IsTerminal entry.1 with
    | .error p => .error p
    | .ok b =>
      match (if b then acc.1.SetTerminal id true else .ok acc.1) with
      | .error p => .error p
      | .ok dfa1 =>
        match nfa2.Edges entry.1 with
        | .error p => .error p
        | .ok edges =>
          match forEach (metaEdgeStep nfa2.StateCount) edges acc.2 with
          | .error p => .error p
          | .ok metaEdges => .ok (dfa1, metaEdges)

/-- What the closure `dfs` of `ConvertNfaToDfa` works on. -/
structure Exploration where
  dfa : DeterministicFiniteAutomaton
  metaStates : List (Nat × MetaState)

/-- The body of the loop of `dfs` over `metaEdges`: `recurse` is the closure
`dfs` itself, `id` the DFA state of the set the edges leave, `entry` a symbol
with the set it leads to. -/
def exploreEdge (recurse : List Bool → Exploration → Except Panic (Exploration × State))
    (id : State) (entry : Nat × List Bool) (ex : Exploration) : Except Panic Exploration :=
  match recurse entry.2 ex with
  | .error p => .error p
  | .ok (ex1, idTo) =>
    match ex1.dfa.AddEdge { From := id, To := idTo, Word := runeToString entry.1 } with
    | .error p => .error p
    | .ok dfa1 => .ok { ex1 with dfa := dfa1 }

/-- The closure `dfs` of `ConvertNfaToDfa`; `fuel` bounds the depth of the
recursion. -/
def dfsMeta (nfa2 : NondeterministicFiniteAutomaton) :
    Nat → List Bool → Exploration → Except Panic (Exploration × State)
  | 0, _, _ => .error .outOfFuel
  | fuel + 1, states, ex =>
    let hash := MetaState.calcHash { states := states, id := 0 }
    match mapGet ex.metaStates hash with
    | some metaState => .ok (ex, metaState.id)
    | none =>
      let (dfa1, id) := ex.dfa.AddState
      let metaStates1 := (hash, { states := states, id := id }) :: ex.metaStates
      match forEach (metaStateStep nfa2 id) states.enum (dfa1, []) with
      | .error p => .error p
      | .ok (dfa2, metaEdges) =>
        match forEach (exploreEdge (dfsMeta nfa2 fuel) id) metaEdges
            { dfa := dfa2, metaStates := metaStates1 } with
        | .error p => .error p
        | .ok ex3 => .ok (ex3, id)

/-- The exploration never nests deeper than there are membership vectors. -/
def ConvertNfaToDfa (nfa1 : NondeterministicFiniteAutomaton) :
    Except Panic DeterministicFiniteAutomaton :=
  match ConvertNfaToNfaWithWordsOfLen1 nfa1 with
  | .error p => .error p
  | .ok nfa2 =>
    if nfa2.Start < nfa2.StateCount then
      match dfsMeta nfa2 (2 ^ nfa2.StateCount + 1)
          ((List.replicate nfa2.StateCount false).set nfa2.Start true)
          { dfa := NewDeterministicFiniteAutomaton, metaStates := [] } with
      | .error p => .error p
      | .ok (ex, _) => .ok ex.dfa
    else .error .indexOutOfRange

/-! ### Acceptance (spec, sections 3 and 8 and the glossary) -/

namespace DeterministicFiniteAutomaton

/-- The destination of the edge leaving `s` on symbol `c`, if there is one. -/
def step (dfa : DeterministicFiniteAutomaton) (s : State) (c : Nat) : Option State :=
  match dfa.edges[s]? with
  | some m => m c
  | none => none

/-- Deterministic single-path simulation: the state reached from `s` by
reading `w`, if no symbol on the way lacks an edge. -/
def run (dfa : DeterministicFiniteAutomaton) : State → List Nat → Option State
  | s, [] => some s
  | s, c :: w =>
    match dfa.step s c with
    | some t => run dfa t w
    | none => none

/-- The DFA accepts `w`: its path from the start state exists and ends in a
terminal state. -/
def accepts (dfa : DeterministicFiniteAutomaton) (w : List Nat) : Bool :=
  match dfa.run dfa.start w with
  | some s => dfa.terminals.getD s false
  | none => false

/-- The invariant of the data model (spec, section 3): one terminal flag per
state, the start state and every edge destination are valid indices. -/
def WellFormed (dfa : DeterministicFiniteAutomaton) : Prop :=
  dfa.terminals.length = dfa.edges.length ∧ dfa.start < dfa.StateCount ∧
    ∀ s c t, dfa.step s c = some t → t < dfa.StateCount

/-- The DFA is total over `alphabet`: every state has an edge on every symbol. -/
def Total (dfa : DeterministicFiniteAutomaton) (alphabet : List Nat) : Prop :=
  ∀ s, s < dfa.StateCount → ∀ c ∈ alphabet, (dfa.step s c).isSome = true

end DeterministicFiniteAutomaton

namespace NondeterministicFiniteAutomaton

/-- The edges stored for `s`, none for an index that is no state. -/
def edgesOf (nfa : NondeterministicFiniteAutomaton) (s : State) : List Edge :=
  nfa.edges.getD s []

/-- A path of the automaton from `s` to `t` whose edge words, concatenated,
spell `w`. -/
inductive Path (nfa : NondeterministicFiniteAutomaton) : State → List Nat → State → Prop
  | nil (s : State) : Path nfa s [] s
  | cons (s : State) (e : Edge) (w : List Nat) (t : State) :
      e ∈ nfa.edgesOf s → Path nfa e.To w t → Path nfa s (e.Word ++ w) t

/-- The NFA accepts `w`: some path from the start state spelling `w` ends in
a terminal state. -/
def accepts (nfa : NondeterministicFiniteAutomaton) (w : List Nat) : Prop :=
  ∃ t, Path nfa nfa.start w t ∧ nfa.terminals[t]? = some true

/-- The invariant of the data model (spec, section 3): one terminal flag per
state, at least one state, the start state is a valid index, every edge is
stored with its source and has a valid destination. -/
def WellFormed (nfa : NondeterministicFiniteAutomaton) : Prop :=
  nfa.terminals.length = nfa.edges.length ∧ nfa.start < nfa.StateCount ∧
    ∀ s, ∀ e ∈ nfa.edgesOf s, e.From = s ∧ e.To < nfa.StateCount

end NondeterministicFiniteAutomaton

/-- A two-state DFA over the symbol `a`: 0 -a-> 1, 1 -a-> 1, state 1 terminal. -/
def dfaTwo : DeterministicFiniteAutomaton :=
  { start := 0, terminals := [false, true], edges := [mapSet emptyMap 97 1, mapSet emptyMap 97 1] }

/-- A DFA with the single edge 0 -a-> 1. -/
def dfaOneEdge : DeterministicFiniteAutomaton :=
  { start := 0, terminals := [false, true], edges := [mapSet emptyMap 97 1, emptyMap] }

/-- The NFA of the repository's test: q0 -a-> q1, q1 -b-> q0, q0 start and terminal. -/
def nfaAB : NondeterministicFiniteAutomaton :=
  { start := 0, terminals := [true, false],
    edges := [[{ From := 0, To := 1, Word := [97] }], [{ From := 1, To := 0, Word := [98] }]] }

/-- The stars behind an atom. -/
def parseStars (r : RegularExpression Nat) : List Nat → RegularExpression Nat × List Nat
  | 42 :: rest => parseStars (RegularExpression.star r) rest
  | rest => (r, rest)

mutual
/-- An alternation: terms separated by `+`. -/
def parseAlt : Nat → List Nat → Option (RegularExpression Nat × List Nat)
  | 0, _ => none
  | fuel + 1, text =>
    match parseCat fuel text with
    | none => none
    | some (r, 43 :: rest) =>
      match parseAlt fuel rest with
      | none => none
      | some (r2, rest2) => some (r + r2, rest2)
    | some (r, rest) => some (r, rest)
/-- A concatenation: one or more starred atoms side by side. -/
def parseCat : Nat → List Nat → Option (RegularExpression Nat × List Nat)
  | 0, _ => none
  | fuel + 1, text =>
    match parseAtom fuel text with
    | none => none
    | some (r, []) => some (r, [])
    | some (r, 43 :: rest) => some (r, 43 :: rest)
    | some (r, 41 :: rest) => some (r, 41 :: rest)
    | some (r, rest) =>
      match parseCat fuel rest with
      | none => none
      | some (r2, rest2) => some (r * r2, rest2)
/-- An atom, `1`, a parenthesised alternation or a symbol, with the stars behind it. -/
def parseAtom : Nat → List Nat → Option (RegularExpression Nat × List Nat)
  | 0, _ => none
  | _ + 1, [] => none
  | fuel + 1, c :: rest =>
    if c = 49 then some (parseStars 1 rest)
    else if c = 40 then
      match parseAlt fuel rest with
      | some (r, 41 :: rest2) => some (parseStars r rest2)
      | _ => none
    else if c = 41 ∨ c = 42 ∨ c = 43 then none
    else some (parseStars (RegularExpression.char c) rest)
end

/-- The regular expression a text denotes under the grammar of spec section
4.4, if the text is well formed. -/
def parseRegexp (text : List Nat) : Option (RegularExpression Nat) :=
  match parseAlt (3 * text.length + 3) text with
  | some (r, []) => some r
  | _ => none

/-- The text, read as a regular expression, recognizes `w`. -/
def recognizes (text : List Nat) (w : List Nat) : Prop :=
  ∃ r, parseRegexp text = some r ∧ w ∈ r.matches'

/-- The NFA 0 -a-> 1 with state 0 the start and state 1 terminal: it
accepts the string "a" and nothing else. -/
def nfaA : NondeterministicFiniteAutomaton :=
  { start := 0, terminals := [false, true], edges := [[{ From := 0, To := 1, Word := [97] }], []] }

/-- The text "(1*(((a)1*(1)))(1)*1)*1*(((a)1*(1)))(1)*". -/
def textA : List Nat :=
  [40, 49, 42, 40, 40, 40, 97, 41, 49, 42, 40, 49, 41, 41, 41, 40, 49, 41, 42, 49, 41, 42,
   49, 42, 40, 40, 40, 97, 41, 49, 42, 40, 49, 41, 41, 41, 40, 49, 41, 42]

/-- The representation invariant with the state count `n` named: `n` flags,
`n` edge lists, every edge stored with its source and with a destination
below `n`. -/
def Stored (nfa : NondeterministicFiniteAutomaton) (n : Nat) : Prop :=
  nfa.terminals.length = n ∧ nfa.edges.length = n ∧
    ∀ s, ∀ e ∈ nfa.edgesOf s, e.From = s ∧ e.To < n

/-- The entries of an edge map name states and hold edges that leave states. -/
def EntriesOk (n : Nat) (m : List (State × List Edge)) : Prop :=
  ∀ p ∈ m, p.1 < n ∧ ∀ e ∈ p.2, e.From < n

/-- The three groups hold edges that leave states, under keys that are states. -/
def PartitionOk (n : Nat) (parts : Partition) : Prop :=
  (∀ e ∈ parts.loops, e.From < n) ∧ EntriesOk n parts.prevEdges ∧ EntriesOk n parts.nextEdges

/-- The NFA 0 -é-> 1 with state 0 the start and state 1 terminal; the word
is the two bytes 0xC3 0xA9 of the one character U+00E9. -/
def nfaEacute : NondeterministicFiniteAutomaton :=
  { start := 0, terminals := [false, true],
    edges := [[{ From := 0, To := 1, Word := [195, 169] }], []] }

/-- What `SplitLongWordsInNfa` makes of `nfaEacute`: the edge ends in the
fresh state 2, state 1 is no longer reached. -/
def nfaEacuteSplit : NondeterministicFiniteAutomaton :=
  { start := 0, terminals := [false, true, false],
    edges := [[{ From := 0, To := 2, Word := [195, 169] }], [], []] }

/-- A path over a list of edges, each read with the source it names. -/
inductive EPath (E : List Edge) : State → List Nat → State → Prop
  | nil (s : State) : EPath E s [] s
  | cons (e : Edge) (w : List Nat) (t : State) :
      e ∈ E → EPath E e.To w t → EPath E e.From (e.Word ++ w) t

/-- Every edge word of the automaton is made of bytes below 0x80. -/
def AsciiWords (nfa : NondeterministicFiniteAutomaton) : Prop :=
  ∀ s, ∀ e ∈ nfa.edgesOf s, ∀ b ∈ e.Word, b < 128

/-- An edge with the empty word leads from `a` to `b`. -/
def EpsStep (nfa : NondeterministicFiniteAutomaton) (a b : State) : Prop :=
  ∃ e ∈ nfa.edgesOf a, e.Word = [] ∧ e.To = b

/-- State `b` is in the epsilon closure of `a`. -/
def EpsReach (nfa : NondeterministicFiniteAutomaton) (a b : State) : Prop :=
  Relation.ReflTransGen (EpsStep nfa) a b

/-- The edges that the functor adds at `source` for the edges `es` of a
state of the closure. -/
def foldedEdges (source : State) (es : List Edge) : List Edge :=
  (es.filter fun e => decide (e.Word ≠ [])).map
    fun e => { From := source, To := e.To, Word := e.Word }

/-- The automaton under construction after the rounds for the sources below
`k`: those states have their final flags and edges, the others none yet. -/
def Folded (nfa2 : NondeterministicFiniteAutomaton) (n k : Nat)
    (nfa3 : NondeterministicFiniteAutomaton) : Prop :=
  Stored nfa3 n ∧ nfa3.start = nfa2.start ∧
  (∀ s, s < k →
    (nfa3.terminals[s]? = some true ↔
      ∃ t, EpsReach nfa2 s t ∧ nfa2.terminals[t]? = some true) ∧
    ∃ L : List State, L.Nodup ∧ (∀ x, x ∈ L ↔ EpsReach nfa2 s x) ∧
      nfa3.edgesOf s = L.flatMap fun t => foldedEdges s (nfa2.edgesOf t)) ∧
  (∀ s, k ≤ s → nfa3.terminals[s]? ≠ some true ∧ nfa3.edgesOf s = [])

/-- Every edge word of the automaton is one byte below 0x80. -/
def OneByte (nfa2 : NondeterministicFiniteAutomaton) : Prop :=
  ∀ s, ∀ e ∈ nfa2.edgesOf s, ∃ c, c < 128 ∧ e.Word = [c]

/-- What the map `metaEdges` holds when the pairs (symbol, destination) to
mark are those of `D`: one entry per symbol that occurs, whose vector has
exactly the destinations of that symbol set. -/
def MarksOf (n : Nat) (D : Nat → State → Prop) (metaEdges : List (Nat × List Bool)) : Prop :=
  (metaEdges.map Prod.fst).Nodup ∧
  (∀ p ∈ metaEdges, p.2.length = n ∧ (∃ u, D p.1 u) ∧ ∀ u : Nat, p.2[u]? = some true ↔ D p.1 u) ∧
  ∀ c u, D c u → ∃ v, (c, v) ∈ metaEdges

/-- The content hash of a membership vector. -/
def hashOf (M : List Bool) : Nat :=
  MetaState.calcHash { states := M, id := 0 }

/-- State `u` is reached from a member of the set `M` by an edge on `c`. -/
def SuccOn (nfa2 : NondeterministicFiniteAutomaton) (M : List Bool) (c : Nat) (u : State) : Prop :=
  ∃ s e, M[s]? = some true ∧ e ∈ nfa2.edgesOf s ∧ e.Word = [c] ∧ e.To = u

/-- The vector `M1` is the set that `M` leads to on `c`, which is not empty. -/
def IsSucc (nfa2 : NondeterministicFiniteAutomaton) (n : Nat) (M : List Bool) (c : Nat)
    (M1 : List Bool) : Prop :=
  M1.length = n ∧ (∃ u, SuccOn nfa2 M c u) ∧ ∀ u : Nat, M1[u]? = some true ↔ SuccOn nfa2 M c u

/-- The sets of states that the exploration can reach: the singleton of the
start state and the successors of reached sets. -/
inductive MetaReach (nfa2 : NondeterministicFiniteAutomaton) (n : Nat) : List Bool → Prop
  | start : MetaReach nfa2 n ((List.replicate n false).set nfa2.start true)
  | step (M : List Bool) (c : Nat) (M1 : List Bool) :
      MetaReach nfa2 n M → IsSucc nfa2 n M c M1 → MetaReach nfa2 n M1

/-- No two different reached sets have the same content hash. -/
def NoCollision (nfa2 : NondeterministicFiniteAutomaton) (n : Nat) : Prop :=
  ∀ M1 M2, MetaReach nfa2 n M1 → MetaReach nfa2 n M2 → hashOf M1 = hashOf M2 → M1 = M2

/-- What holds of the exploration between two steps: the DFA has a flag per
state, every stored set is a reached set stored under its hash with a DFA
state of its own, and no set is stored twice. -/
def ExInv (nfa2 : NondeterministicFiniteAutomaton) (n : Nat) (ex : Exploration) : Prop :=
  ex.dfa.terminals.length = ex.dfa.edges.length ∧
  (∀ p ∈ ex.metaStates, p.1 = hashOf p.2.states ∧ MetaReach nfa2 n p.2.states ∧
    p.2.id < ex.dfa.edges.length) ∧
  (ex.metaStates.map fun p => p.2.states).Nodup

/-- The DFA state of the stored set `ms` is finished: its flag says whether
the set holds a terminal state, and it has an edge on exactly the symbols on
which the set has a successor, to the DFA state of that successor. -/
def Complete (nfa2 : NondeterministicFiniteAutomaton) (n : Nat) (ex : Exploration)
    (ms : MetaState) : Prop :=
  (ex.dfa.terminals[ms.id]? = some true ↔
    ∃ s : Nat, ms.states[s]? = some true ∧ nfa2.terminals[s]? = some true) ∧
  ∀ c, ((∃ u, SuccOn nfa2 ms.states c u) →
      ∃ p ∈ ex.metaStates, IsSucc nfa2 n ms.states c p.2.states ∧
        ex.dfa.step ms.id c = some p.2.id) ∧
    ((¬ ∃ u, SuccOn nfa2 ms.states c u) → ex.dfa.step ms.id c = none)

/-- DFA state `j` is the same in both explorations. -/
def Same (j : Nat) (ex ex1 : Exploration) : Prop :=
  ex1.dfa.terminals[j]? = ex.dfa.terminals[j]? ∧ ex1.dfa.edges[j]? = ex.dfa.edges[j]?

/-- What a call of the closure `dfs` for the set `M` leaves: the invariant,
everything stored before still stored, the DFA states that existed untouched,
an entry for `M` with the returned DFA state, and every new entry finished. -/
def DfsPost (nfa2 : NondeterministicFiniteAutomaton) (n : Nat) (M : List Bool)
    (ex ex1 : Exploration) (id : State) : Prop :=
  ExInv nfa2 n ex1 ∧
  (∀ p ∈ ex.metaStates, p ∈ ex1.metaStates) ∧
  ex.metaStates.length ≤ ex1.metaStates.length ∧
  ex.dfa.edges.length ≤ ex1.dfa.edges.length ∧
  ex1.dfa.start = ex.dfa.start ∧
  (∀ j, j < ex.dfa.edges.length → Same j ex ex1) ∧
  (∃ p ∈ ex1.metaStates, p.2.states = M ∧ p.2.id = id) ∧
  (mapGet ex.metaStates (hashOf M) = none → id = ex.dfa.edges.length) ∧
  ∀ p ∈ ex1.metaStates,
    p ∈ ex.metaStates ∨ (ex.dfa.edges.length ≤ p.2.id ∧ Complete nfa2 n ex1 p.2)

/-- Some member of the set `M` has a path spelling `w` to a terminal state. -/
def AccFrom (nfa2 : NondeterministicFiniteAutomaton) (M : List Bool) (w : List Nat) : Prop :=
  ∃ s t, M[s]? = some true ∧ nfa2.Path s w t ∧ nfa2.terminals[t]? = some true

/-- The DFA with one state and the edge 0 -> 0 on the byte 200 (0xC8). -/
def dfaByte200 : DeterministicFiniteAutomaton :=
  { start := 0, terminals := [false], edges := [mapSet emptyMap 200 0] }

/-- The NFA 0 -> 1 whose word is the one byte 200 (0xC8); state 0 is the
start, state 1 terminal. -/
def nfaByte200 : NondeterministicFiniteAutomaton :=
  { start := 0, terminals := [false, true], edges := [[{ From := 0, To := 1, Word := [200] }], []] }

/-- The text "((((a)1*(b)))*(1)(1)*1)*(((a)1*(b)))*(1)(1)*" that the
repository's test expects. -/
def textAB : List Nat :=
  [40, 40, 40, 40, 97, 41, 49, 42, 40, 98, 41, 41, 41, 42, 40, 49, 41, 40, 49, 41, 42, 49, 41, 42,
   40, 40, 40, 97, 41, 49, 42, 40, 98, 41, 41, 41, 42, 40, 49, 41, 40, 49, 41, 42]

/-- The text "(ab)*". -/
def textABStar : List Nat := [40, 97, 98, 41, 42]

/-- An NFA with an epsilon cycle: 0 -eps-> 1, 1 -eps-> 0 and 1 -a-> 1, state
0 the start, state 1 terminal. -/
def nfaEpsCycle : NondeterministicFiniteAutomaton :=
  { start := 0, terminals := [false, true],
    edges := [[{ From := 0, To := 1, Word := [] }],
              [{ From := 1, To := 0, Word := [] }, { From := 1, To := 1, Word := [97] }]] }

/-- A byte that is none of the characters `1 ( ) * +` of the syntax. -/
def isSymbol (c : Nat) : Prop := c ≠ 49 ∧ c ≠ 40 ∧ c ≠ 41 ∧ c ≠ 42 ∧ c ≠ 43

/-- The levels of the grammar of spec section 4.4. -/
inductive Level where
  /-- `1`, a symbol or a group in parentheses. -/
  | base
  /-- A base, with a star behind it or without. -/
  | atom
  /-- One or more atoms side by side. -/
  | cat
  /-- One or more concatenations separated by `+`. -/
  | alt

/-- The texts of the grammar with the regular expression each denotes. -/
inductive Gram : Level → List Nat → RegularExpression Nat → Prop
  | one : Gram .base [49] 1
  | sym (c : Nat) : isSymbol c → Gram .base [c] (RegularExpression.char c)
  | paren (t : List Nat) (r : RegularExpression Nat) :
      Gram .alt t r → Gram .base (40 :: (t ++ [41])) r
  | plain (t : List Nat) (r : RegularExpression Nat) : Gram .base t r → Gram .atom t r
  | starred (t : List Nat) (r : RegularExpression Nat) :
      Gram .base t r → Gram .atom (t ++ [42]) (RegularExpression.star r)
  | single (t : List Nat) (r : RegularExpression Nat) : Gram .atom t r → Gram .cat t r
  | seq (t t2 : List Nat) (r r2 : RegularExpression Nat) :
      Gram .atom t r → Gram .cat t2 r2 → Gram .cat (t ++ t2) (r * r2)
  | only (t : List Nat) (r : RegularExpression Nat) : Gram .cat t r → Gram .alt t r
  | choice (t t2 : List Nat) (r r2 : RegularExpression Nat) :
      Gram .cat t r → Gram .alt t2 r2 → Gram .alt (t ++ 43 :: t2) (r + r2)

/-- What the functions of the reader do on a text of a level that some
`rest` follows, given fuel for the length of the text. -/
def ParsesAs : Level → List Nat → RegularExpression Nat → Prop
  | .base, t, r => ∀ fuel rest, 3 * t.length ≤ fuel + 2 →
      parseAtom fuel (t ++ rest) = some (parseStars r rest)
  | .atom, t, r => ∀ fuel rest, 3 * t.length ≤ fuel + 2 → (∀ tl, rest ≠ 42 :: tl) →
      parseAtom fuel (t ++ rest) = some (r, rest)
  | .cat, t, r => ∀ fuel rest, 3 * t.length ≤ fuel + 1 →
      (rest = [] ∨ (∃ tl, rest = 43 :: tl) ∨ ∃ tl, rest = 41 :: tl) →
      parseCat fuel (t ++ rest) = some (r, rest)
  | .alt, t, r => ∀ fuel rest, 3 * t.length ≤ fuel → (rest = [] ∨ ∃ tl, rest = 41 :: tl) →
      parseAlt fuel (t ++ rest) = some (r, rest)

/-- What `reduceEdgesToRegexp` writes for one edge: its word, `1` for the
empty word. -/
def wordText (edge : Edge) : List Nat :=
  if edge.Word = [] then [49] else edge.Word

/-- What `reduceEdgesToRegexp` writes for the edges behind the first: `+`
and the word, for each. -/
def tailText (edges : List Edge) : List Nat :=
  edges.flatMap fun e => 43 :: wordText e

/-- The text `reduceEdgesToRegexp` returns for a list of edges. -/
def fragmentText : List Edge → List Nat
  | [] => [49]
  | e :: rest => 40 :: (wordText e ++ tailText rest ++ [41])

/-- An edge word that the grammar can read: empty, or a text of the
concatenation level. -/
def WordOk (w : List Nat) : Prop :=
  w = [] ∨ ∃ r, Gram .cat w r

/-- The text `loopStart* startToT loopT*` of the final assembly. -/
def roundText (loopStart startToT loopT : List Nat) : List Nat :=
  loopStart ++ [42] ++ startToT ++ loopT ++ [42]

/-- Every entry of an edge map holds at least one edge, and its edges stand
in the relation `P` to its key. -/
def Grouped (P : State → Edge → Prop) (m : List (State × List Edge)) : Prop :=
  ∀ p ∈ m, p.2 ≠ [] ∧ ∀ e ∈ p.2, P p.1 e

/-- The property `Q` of edges is kept when state `c` is eliminated: the edge
synthesized from edges with `Q` that arrive at `c` from `p`, loop at `c` and
leave `c` for `r` has `Q`. -/
def SynthClosed (c : State) (Q : Edge → Prop) : Prop :=
  ∀ (ps loops ns : List Edge) (p r : State), ps ≠ [] → ns ≠ [] →
    (∀ e ∈ ps, Q e ∧ e.From = p ∧ e.To = c) → (∀ e ∈ loops, Q e) →
    (∀ e ∈ ns, Q e ∧ e.From = c ∧ e.To = r) →
    Q { From := p, To := r,
        Word := [40] ++ fragmentText ps ++ fragmentText loops ++ [42] ++ fragmentText ns ++ [41] }

/-- No edge word of the automaton uses one of the characters `1 ( ) * +`. -/
def PlainWords (nfa : NondeterministicFiniteAutomaton) : Prop :=
  ∀ s, ∀ e ∈ nfa.edgesOf s, ∀ c ∈ e.Word, isSymbol c

/-- The chain of one-byte edges that spec section 4.2 asks for in place of
an edge `src -word-> dest`: one edge per byte, in order, through the fresh
states `fresh`, `fresh + 1`, ... -/
def chainEdges : State → State → State → List Nat → List Edge
  | _, _, _, [] => []
  | src, dest, _, [c] => [{ From := src, To := dest, Word := [c] }]
  | src, dest, fresh, c :: c2 :: rest =>
    { From := src, To := fresh, Word := [c] } :: chainEdges fresh dest (fresh + 1) (c2 :: rest)

/-- The edges spec section 4.2 asks for when `edges` are split and `fresh` is
the first unused state: an edge with a word of at most one byte as it is, a
longer one as its chain. -/
def splitEdges : State → List Edge → List Edge
  | _, [] => []
  | fresh, e :: es =>
    (if e.Word.length ≤ 1 then [e] else chainEdges e.From e.To fresh e.Word) ++
      splitEdges (fresh + (e.Word.length - 1)) es

/-- The number of states that splitting `edges` adds: the sum of L - 1 over
the edges with a word of L > 1 bytes. -/
def extraStates (edges : List Edge) : Nat :=
  (edges.map fun e => e.Word.length - 1).sum

/-- What holds of the exploration between two steps whether hashes collide
or not: the DFA has a flag per state and a state per stored set, no hash is
stored twice, every stored hash is the hash of a vector over the `n` states,
and every stored DFA state exists. -/
def TotInv (n : Nat) (ex : Exploration) : Prop :=
  ex.dfa.terminals.length = ex.dfa.edges.length ∧
  ex.dfa.edges.length = ex.metaStates.length ∧
  (ex.metaStates.map Prod.fst).Nodup ∧
  ∀ p ∈ ex.metaStates,
    (∃ V : List Bool, V.length = n ∧ p.1 = hashOf V) ∧ p.2.id < ex.dfa.edges.length

/-- The call `dfa.AddEdge(edge)` with the receiver kept in view: the DFA
behind the pointer when the call ends, and whether the call returned or which
panic ended it. The length check and the indexing of `dfa.edges[edge.From]`
come before the one assignment of the method. -/
def DeterministicFiniteAutomaton.AddEdgeInPlace (dfa : DeterministicFiniteAutomaton)
    (edge : Edge) : DeterministicFiniteAutomaton × Except Panic Unit :=
  if edge.Word.length ≠ 1 then (dfa, .error .wordLength)
  else
    match dfa.edges[edge.From]? with
    | none => (dfa, .error .indexOutOfRange)
    | some m =>
      ({ dfa with edges := dfa.edges.set edge.From (mapSet m (edge.Word.headD 0) edge.To) },
        .ok ())

/-- The call `dfa.DeleteEdge(edge)` with the receiver kept in view: the DFA
behind the pointer when the call ends, and the value returned or the panic
that ended the call. -/
def DeterministicFiniteAutomaton.DeleteEdgeInPlace (dfa : DeterministicFiniteAutomaton)
    (edge : Edge) : DeterministicFiniteAutomaton × Except Panic Bool :=
  if edge.Word.length ≠ 1 then (dfa, .error .wordLength)
  else
    match dfa.edges[edge.From]? with
    | none => (dfa, .error .indexOutOfRange)
    | some m =>
      ({ dfa with edges := dfa.edges.set edge.From (mapDelete m (edge.Word.headD 0)) },
        .ok (m (edge.Word.headD 0)).isSome)

/-- A DFA with one state and no edge. -/
def dfaOneState : DeterministicFiniteAutomaton :=
  { start := 0, terminals := [false], edges := [emptyMap] }

/-- The call `nfa.StateCount()` with the receiver kept in view: the automaton
behind the pointer when the call returns, and the value returned. -/
def NondeterministicFiniteAutomaton.StateCountCall (nfa : NondeterministicFiniteAutomaton) :
    NondeterministicFiniteAutomaton × Nat :=
  (nfa, nfa.edges.length)

/-- The call `nfa.Start()` with the receiver kept in view. -/
def NondeterministicFiniteAutomaton.StartCall (nfa : NondeterministicFiniteAutomaton) :
    NondeterministicFiniteAutomaton × State :=
  (nfa, nfa.start)

/-- The call `nfa.IsTerminal(state)` with the receiver kept in view. -/
def NondeterministicFiniteAutomaton.IsTerminalCall (nfa : NondeterministicFiniteAutomaton)
    (state : State) : Except Panic (NondeterministicFiniteAutomaton × Bool) :=
  match nfa.terminals[state]? with
  | some b => .ok (nfa, b)
  | none => .error .indexOutOfRange

/-- The call `nfa.Edges(state)` with the receiver kept in view. -/
def NondeterministicFiniteAutomaton.EdgesCall (nfa : NondeterministicFiniteAutomaton)
    (state : State) : Except Panic (NondeterministicFiniteAutomaton × List Edge) :=
  match nfa.edges[state]? with
  | some es => .ok (nfa, es)
  | none => .error .indexOutOfRange

/-- The body of the first loop of `SplitLongWordsInNfa` on the pair of the
automaton behind the argument `nfa` and the automaton `newNfa`. -/
def copyStateCall (state : State)
    (pair : NondeterministicFiniteAutomaton × NondeterministicFiniteAutomaton) :
    Except Panic (NondeterministicFiniteAutomaton × NondeterministicFiniteAutomaton) :=
  let (newNfa1, added) := pair.2.AddState
  match pair.1.IsTerminalCall state with
  | .error p => .error p
  | .ok (nfa1, b) =>
    match newNfa1.SetTerminal added b with
    | .error p => .error p
    | .ok newNfa2 => .ok (nfa1, newNfa2)

/-- The body of the second loop of `SplitLongWordsInNfa` over the states, on
the pair of the automaton behind the argument `nfa` and the automaton
`newNfa`. -/
def splitStateCall (state : State)
    (pair : NondeterministicFiniteAutomaton × NondeterministicFiniteAutomaton) :
    Except Panic (NondeterministicFiniteAutomaton × NondeterministicFiniteAutomaton) :=
  match pair.1.EdgesCall state with
  | .error p => .error p
  | .ok (nfa1, edges) =>
    match forEach splitEdge edges pair.2 with
    | .error p => .error p
    | .ok newNfa1 => .ok (nfa1, newNfa1)

/-- The call `SplitLongWordsInNfa(nfa)` with the argument kept in view: the
automaton behind the pointer `nfa` when the call returns, and the automaton
returned. Every method called on `nfa` is passed the automaton that the call
before it left. -/
def SplitLongWordsInNfaCall (nfa : NondeterministicFiniteAutomaton) :
    Except Panic (NondeterministicFiniteAutomaton × NondeterministicFiniteAutomaton) :=
  let (nfa1, count) := nfa.StateCountCall
  match forEach copyStateCall (List.range count) (nfa1, NewNondeterministicFiniteAutomaton) with
  | .error p => .error p
  | .ok (nfa2, newNfa) =>
    let (nfa3, start) := nfa2.StartCall
    let (nfa4, count2) := nfa3.StateCountCall
    forEach splitStateCall (List.range count2) (nfa4, newNfa.SetStart start)

/-- The call `ConvertNfaToNfaWithWordsOfLen1(nfa1)` with the argument kept in
view: the automaton behind the pointer `nfa1` when the call returns, and the
automaton returned. The argument is handed to `SplitLongWordsInNfa` and not
used again. -/
def ConvertNfaToNfaWithWordsOfLen1Call (nfa1 : NondeterministicFiniteAutomaton) :
    Except Panic (NondeterministicFiniteAutomaton × NondeterministicFiniteAutomaton) :=
  match SplitLongWordsInNfaCall nfa1 with
  | .error p => .error p
  | .ok (nfa1a, nfa2) =>
    let nfa3 := (List.range nfa2.StateCount).foldl (fun n _ => n.AddState.1)
      NewNondeterministicFiniteAutomaton
    match forEach
        (fun source nfa3 =>
          iterateOverReachableByEmptyWords nfa2 source (foldState nfa2 source) nfa3)
        (List.range nfa2.StateCount) (nfa3.SetStart nfa2.Start) with
    | .error p => .error p
    | .ok nfa3a => .ok (nfa1a, nfa3a)

/-- The call `ConvertNfaToDfa(nfa1)` with the argument kept in view: the
automaton behind the pointer `nfa1` when the call returns, and the DFA
returned. The argument is handed to `ConvertNfaToNfaWithWordsOfLen1` and not
used again. -/
def ConvertNfaToDfaCall (nfa1 : NondeterministicFiniteAutomaton) :
    Except Panic (NondeterministicFiniteAutomaton × DeterministicFiniteAutomaton) :=
  match ConvertNfaToNfaWithWordsOfLen1Call nfa1 with
  | .error p => .error p
  | .ok (nfa1a, nfa2) =>
    if nfa2.Start < nfa2.StateCount then
      match dfsMeta nfa2 (2 ^ nfa2.StateCount + 1)
          ((List.replicate nfa2.StateCount false).set nfa2.Start true)
          { dfa := NewDeterministicFiniteAutomaton, metaStates := [] } with
      | .error p => .error p
      | .ok (ex, _) => .ok (nfa1a, ex.dfa)
    else .error .indexOutOfRange

/-- The edges stored for `s` that lead back to `s`: what `ConvertNfaToRegexp`
collects as `loopsStart` and `loopsTerminal`. -/
def loopsAt (nfa : NondeterministicFiniteAutomaton) (s : State) : List Edge :=
  (nfa.edgesOf s).filter fun e => decide (e.To = s)

/-- The edges stored for `s` that lead elsewhere: what `ConvertNfaToRegexp`
collects as `edgesFromStartToTerminal` and `edgesFromTerminalToStart`. -/
def leavingAt (nfa : NondeterministicFiniteAutomaton) (s : State) : List Edge :=
  (nfa.edgesOf s).filter fun e => !decide (e.To = s)

/-- The text `(` X `1)*` X that `ConvertNfaToRegexp` assembles when the
fragment for the edges from the terminal state to the start state is `1`. -/
def closureText (x : List Nat) : List Nat :=
  [40] ++ x ++ [49, 41, 42] ++ x

/-! ## Theorems -/

section

open DeterministicFiniteAutomaton

theorem forEach_append {α σ : Type} (body : α → σ → Except Panic σ) (xs ys : List α) (s : σ) :
    forEach body (xs ++ ys) s =
      match forEach body xs s with
      | .error p => .error p
      | .ok s1 => forEach body ys s1 := by
  induction xs generalizing s with
  | nil => simp [forEach]
  | cons x xs ih =>
    simp only [List.cons_append, forEach]
    cases body x s with
    | error p => rfl
    | ok s1 => exact ih s1

/-- The terminal flags after the first `k` iterations of the complement loop. -/
theorem complement_upto (cdfa : DeterministicFiniteAutomaton) (k : Nat)
    (hk : k ≤ cdfa.terminals.length) :
    forEach complementStep (List.range k) cdfa =
      .ok { cdfa with terminals := (cdfa.terminals.take k).map (!·) ++ cdfa.terminals.drop k } := by
  induction k with
  | zero => simp [forEach]
  | succ k ih =>
    rw [List.range_succ, forEach_append, ih (by omega)]
    have hlt : k < cdfa.terminals.length := by omega
    simp only [forEach, complementStep, IsTerminal, SetTerminal]
    have h1 : ((cdfa.terminals.take k).map (!·) ++ cdfa.terminals.drop k)[k]? =
        some cdfa.terminals[k] := by
      rw [List.getElem?_append_right (by simp)]
      simp [List.getElem?_drop, Nat.min_eq_left (Nat.le_of_lt hlt), List.getElem?_eq_getElem hlt]
    simp only [h1]
    have h2 : k < ((cdfa.terminals.take k).map (!·) ++ cdfa.terminals.drop k).length := by
      simp; omega
    simp only [h2, if_true]
    congr 2
    apply List.ext_getElem?
    intro i
    simp only [List.getElem?_set, List.length_append, List.length_map, List.length_take,
      List.length_drop, List.getElem?_append, List.getElem?_map, List.getElem?_take,
      List.getElem?_drop]
    by_cases hik : i = k
    · subst hik
      simp [Nat.min_eq_left (Nat.le_of_lt hlt), hlt, List.getElem?_eq_getElem hlt]
    · by_cases hi : i < k
      · simp [Nat.min_eq_left (Nat.le_of_lt hlt), Nat.min_eq_left (Nat.succ_le_of_lt hlt), hi,
          Nat.lt_succ_of_lt hi, Ne.symm hik]
      · have hki : k < i := by omega
        simp [Nat.min_eq_left (Nat.le_of_lt hlt), Nat.min_eq_left (Nat.succ_le_of_lt hlt), hi,
          Ne.symm hik, show ¬ i < k + 1 by omega]
        congr 1; omega

/-- What `CdfaComplementInplace` returns when there are as many flags as states. -/
theorem complement_eq (cdfa : DeterministicFiniteAutomaton)
    (h : cdfa.terminals.length = cdfa.edges.length) :
    CdfaComplementInplace cdfa = .ok { cdfa with terminals := cdfa.terminals.map (!·) } := by
  unfold CdfaComplementInplace
  rw [complement_upto cdfa cdfa.StateCount (by simp [StateCount, h])]
  simp [StateCount, ← h]

theorem run_terminals_irrelevant (dfa : DeterministicFiniteAutomaton) (ts : List Bool)
    (s : State) (w : List Nat) :
    run { dfa with terminals := ts } s w = run dfa s w := by
  induction w generalizing s with
  | nil => rfl
  | cons c w ih =>
    have hstep : step { dfa with terminals := ts } s c = dfa.step s c := rfl
    simp only [run, hstep]
    cases dfa.step s c with
    | none => rfl
    | some t => exact ih t

/-- A total well-formed DFA has a path for every string over the alphabet,
and the path stays among the states. -/
theorem run_total (dfa : DeterministicFiniteAutomaton) (A : List Nat)
    (hwf : dfa.WellFormed) (htot : dfa.Total A) (w : List Nat) (hw : ∀ c ∈ w, c ∈ A)
    (s : State) (hs : s < dfa.StateCount) :
    ∃ t, t < dfa.StateCount ∧ dfa.run s w = some t := by
  induction w generalizing s with
  | nil => exact ⟨s, hs, rfl⟩
  | cons c w ih =>
    have hc := htot s hs c (hw c (List.mem_cons_self _ _))
    obtain ⟨t, ht⟩ := Option.isSome_iff_exists.mp hc
    obtain ⟨u, hu, hrun⟩ := ih (fun d hd => hw d (List.mem_cons_of_mem _ hd)) t (hwf.2.2 s c t ht)
    exact ⟨u, hu, by simp [run, ht, hrun]⟩

/-- C5: for a well-formed DFA that is total over an alphabet and a string
over that alphabet, `CdfaComplementInplace` returns and the DFA then accepts
the string exactly when it rejected it before the call. -/
theorem CdfaComplementInplace_accepts (dfa : DeterministicFiniteAutomaton) (A w : List Nat)
    (hwf : dfa.WellFormed) (htot : dfa.Total A) (hw : ∀ c ∈ w, c ∈ A) :
    ∃ dfa1, CdfaComplementInplace dfa = .ok dfa1 ∧ dfa1.accepts w = !dfa.accepts w := by
  refine ⟨_, complement_eq dfa hwf.1, ?_⟩
  obtain ⟨t, ht, hrun⟩ := run_total dfa A hwf htot w hw dfa.start hwf.2.1
  have hlen : t < dfa.terminals.length := by rw [hwf.1]; exact ht
  simp only [accepts, run_terminals_irrelevant, hrun]
  simp [List.getD_eq_getElem?_getD, List.getElem?_eq_getElem hlen]

theorem dfaTwo_wellFormed : dfaTwo.WellFormed := by
  refine ⟨rfl, by decide, ?_⟩
  intro s c t h
  match s with
  | 0 => simp [dfaTwo, step, mapSet, emptyMap] at h; simp [dfaTwo, StateCount, ← h.2]
  | 1 => simp [dfaTwo, step, mapSet, emptyMap] at h; simp [dfaTwo, StateCount, ← h.2]
  | s + 2 => simp [dfaTwo, step] at h

theorem dfaTwo_total : dfaTwo.Total [97] := by
  intro s hs c hc
  simp only [List.mem_singleton] at hc
  subst hc
  match s with
  | 0 => rfl
  | 1 => rfl
  | s + 2 => simp [dfaTwo, StateCount] at hs

theorem CdfaComplementInplace_accepts_witness :
    ∃ dfa1, CdfaComplementInplace dfaTwo = .ok dfa1 ∧ dfa1.accepts [97, 97] = !dfaTwo.accepts [97, 97] :=
  CdfaComplementInplace_accepts dfaTwo [97] [97, 97] dfaTwo_wellFormed dfaTwo_total (by decide)

end

section

open DeterministicFiniteAutomaton

theorem completeMap_apply (dumpState : State) (alphabet : List Nat) (m : Nat → Option State)
    (c : Nat) :
    completeMap dumpState alphabet m c =
      match m c with
      | some t => some t
      | none => if c ∈ alphabet then some dumpState else none := by
  unfold completeMap
  induction alphabet generalizing m with
  | nil => cases h : m c <;> simp [h]
  | cons a as ih =>
    rw [List.foldl_cons, ih]
    cases hma : m a with
    | some t => 
      simp only
      cases hmc : m c with
      | some u => rfl
      | none =>
        have : c ≠ a := by rintro rfl; simp [hma] at hmc
        simp [this]
    | none =>
      simp only [mapSet]
      by_cases hca : c = a
      · subst hca; simp [hma]
      · simp only [hca, if_false]
        cases hmc : m c with
        | some u => rfl
        | none => simp [hca]

/-- C6: after `MakeComplete` the DFA has one state more, the sink; every
state, the sink included, has an edge (the one its map holds) on every symbol
of the alphabet; and the edges of the sink are exactly those on the symbols of
the alphabet, each leading back to the sink. -/
theorem MakeComplete_total (dfa : DeterministicFiniteAutomaton) (alphabet : List Nat) :
    (MakeComplete dfa alphabet).StateCount = dfa.StateCount + 1 ∧
    (∀ s, s < (MakeComplete dfa alphabet).StateCount → ∀ c ∈ alphabet,
      ∃ t, (MakeComplete dfa alphabet).step s c = some t) ∧
    (∀ c ∈ alphabet, (MakeComplete dfa alphabet).step dfa.StateCount c = some dfa.StateCount) ∧
    (∀ c t, (MakeComplete dfa alphabet).step dfa.StateCount c = some t →
      t = dfa.StateCount ∧ c ∈ alphabet) := by
  have hstep : ∀ s c, (MakeComplete dfa alphabet).step s c =
      match (dfa.edges ++ [emptyMap])[s]? with
      | some m => completeMap dfa.StateCount alphabet m c
      | none => none := by
    intro s c
    simp only [MakeComplete, AddState, step, StateCount, List.getElem?_map, List.length_append,
      List.length_singleton, Nat.add_sub_cancel]
    cases (dfa.edges ++ [emptyMap])[s]? <;> rfl
  have hsink : (dfa.edges ++ [emptyMap])[dfa.StateCount]? = some emptyMap := by
    simp [StateCount]
  refine ⟨by simp [MakeComplete, AddState, StateCount], ?_, ?_, ?_⟩
  · intro s hs c hc
    have hlt : s < (dfa.edges ++ [emptyMap]).length := by
      simpa [MakeComplete, AddState, StateCount] using hs
    rw [hstep, List.getElem?_eq_getElem hlt]
    simp only [completeMap_apply]
    cases (dfa.edges ++ [emptyMap])[s] c with
    | some t => exact ⟨t, rfl⟩
    | none => exact ⟨dfa.StateCount, by simp [hc]⟩
  · intro c hc
    rw [hstep, hsink]
    simp [completeMap_apply, emptyMap, hc]
  · intro c t h
    rw [hstep, hsink] at h
    simp only [completeMap_apply, emptyMap] at h
    by_cases hc : c ∈ alphabet
    · simp [hc] at h; exact ⟨h.symm, hc⟩
    · simp [hc] at h

/-- C7, at the failing input: the DFA has the edge 0 -a-> 1 and no edge
0 -a-> 0, yet `DeleteEdge` of the edge 0 -a-> 0 returns true and removes the
edge 0 -a-> 1. -/
theorem DeleteEdge_ignores_destination :
    dfaOneEdge.step 0 97 = some 1 ∧
    ∃ dfa1, dfaOneEdge.DeleteEdge { From := 0, To := 0, Word := [97] } = .ok (dfa1, true) ∧
      dfa1.step 0 97 = none :=
  ⟨rfl, _, rfl, rfl⟩

end

section

open NondeterministicFiniteAutomaton

/-- The scan of `DeleteEdge` over `pre ++ rest`, started behind a prefix
`pre` that does not hold the edge. -/
theorem deleteScan_spec (edge : Edge) (pre rest : List Edge) (hpre : edge ∉ pre) :
    (edge ∉ rest → deleteScan (pre ++ rest) edge pre.length rest = none) ∧
    (edge ∈ rest → ∃ l, deleteScan (pre ++ rest) edge pre.length rest = some l ∧
      l.Perm ((pre ++ rest).erase edge)) := by
  induction rest generalizing pre with
  | nil => simp [deleteScan]
  | cons x rest ih =>
    by_cases hx : x = edge
    · subst hx
      refine ⟨fun h => absurd (List.mem_cons_self _ _) h, fun _ => ?_⟩
      refine ⟨_, by rw [deleteScan, if_pos rfl], ?_⟩
      rw [List.erase_append_right _ hpre, List.erase_cons_head]
      rcases List.eq_nil_or_concat rest with hr | ⟨post, last, hr⟩
      · subst hr
        simp [List.take_append_eq_append_take]
      · subst hr
        simp only [List.concat_eq_append]
        have hlast : (pre ++ x :: (post ++ [last])).getLastD x = last := by
          rw [show pre ++ x :: (post ++ [last]) = (pre ++ x :: post) ++ [last] by simp]
          exact List.getLastD_concat _ _ _
        rw [hlast]
        have hset : (pre ++ x :: (post ++ [last])).set pre.length last =
            (pre ++ last :: post) ++ [last] := by
          simp [List.set_append]
        rw [hset]
        have hlen : (pre ++ x :: (post ++ [last])).length - 1 = (pre ++ last :: post).length := by
          simp
        rw [hlen, List.take_left']
        · exact List.Perm.append_left pre (List.perm_append_singleton last post).symm
        · rfl
    · have hpre2 : edge ∉ pre ++ [x] := by
        simp [hpre, Ne.symm hx]
      have := ih (pre ++ [x]) hpre2
      simp only [List.append_assoc, List.singleton_append, List.length_append,
        List.length_singleton] at this
      constructor
      · intro h
        have h2 : edge ∉ rest := fun hm => h (List.mem_cons_of_mem _ hm)
        simp only [deleteScan, hx, if_false]
        exact this.1 h2
      · intro h
        have h2 : edge ∈ rest := by
          rcases List.mem_cons.mp h with h | h
          · exact absurd h.symm hx
          · exact h
        simp only [deleteScan, hx, if_false]
        exact this.2 h2

end

section

open DeterministicFiniteAutomaton

/-- The conversion `string(char)` of a byte tells the bytes apart. -/
theorem runeToString_byte_injective (a b : Nat) (ha : a < 256) (hb : b < 256)
    (h : runeToString a = runeToString b) : a = b := by
  unfold runeToString at h
  have ha2 : a < 0x800 := by omega
  have hb2 : b < 0x800 := by omega
  by_cases h1 : a < 0x80 <;> by_cases h2 : b < 0x80 <;>
    simp only [h1, h2, ha2, hb2, if_true, if_false, List.cons.injEq, and_true] at h
  · exact h
  · simp at h
  · simp at h
  · omega

/-- No two edges that `Edges` lists for a state carry the same word. -/
theorem DFA_Edges_words_nodup (dfa : DeterministicFiniteAutomaton) (s : State)
    (es : List Edge) (h : dfa.Edges s = .ok es) : (es.map (·.Word)).Nodup := by
  unfold Edges at h
  cases hm : dfa.edges[s]? with
  | none => simp [hm] at h
  | some m =>
    simp only [hm, Except.ok.injEq] at h
    subst h
    refine (List.Perm.nodup_iff ((List.perm_insertionSort _ _).map _)).mpr ?_
    rw [List.map_filterMap]
    have hcongr : ∀ c ∈ List.range 256,
        (Option.map (fun e : Edge => e.Word)
          ((m c).map fun dest => ({ From := s, To := dest, Word := runeToString c } : Edge))) =
        (fun c => if c < 256 then (m c).map (fun _ => runeToString c) else none) c := by
      intro c hc
      have hc2 : c < 256 := List.mem_range.mp hc
      cases hmc : m c <;> simp [hc2, hmc]
    rw [List.filterMap_congr hcongr]
    refine List.Nodup.filterMap ?_ (List.nodup_range 256)
    intro a b w ha hb
    by_cases ha2 : a < 256 <;> by_cases hb2 : b < 256 <;>
      simp only [ha2, hb2, if_true, if_false, Option.mem_def] at ha hb
    · cases hma : m a <;> cases hmb : m b <;> simp [hma, hmb] at ha hb
      exact runeToString_byte_injective a b ha2 hb2 (ha.trans hb.symm)
    all_goals simp at ha hb

/-- C10: `AddEdge` on a DFA, for an edge with a one-byte word whose source is
a state: the call returns, the edge leaving the source on that symbol then
leads to the edge's destination, the edges on every other symbol and of every
other state, the start state, the flags and the state count are unchanged;
and in any DFA no two edges listed for a state carry the same symbol. -/
theorem DFA_AddEdge_spec (dfa : DeterministicFiniteAutomaton) (edge : Edge) (c : Nat)
    (hw : edge.Word = [c]) (hf : edge.From < dfa.StateCount) :
    (∃ dfa1, dfa.AddEdge edge = .ok dfa1 ∧
      dfa1.step edge.From c = some edge.To ∧
      (∀ s c1, s ≠ edge.From ∨ c1 ≠ c → dfa1.step s c1 = dfa.step s c1) ∧
      dfa1.start = dfa.start ∧ dfa1.terminals = dfa.terminals ∧
      dfa1.StateCount = dfa.StateCount) ∧
    (∀ (d : DeterministicFiniteAutomaton) s es, d.Edges s = .ok es → (es.map (·.Word)).Nodup) := by
  have hlt : edge.From < dfa.edges.length := hf
  have hget : dfa.edges[edge.From]? = some dfa.edges[edge.From] := List.getElem?_eq_getElem hlt
  refine ⟨⟨{ dfa with edges := dfa.edges.set edge.From (mapSet dfa.edges[edge.From] c edge.To) },
    by simp [AddEdge, hw, hget], ?_, ?_, rfl, rfl, by simp [StateCount]⟩,
    DFA_Edges_words_nodup⟩
  · simp [step, List.getElem?_set, hlt, mapSet]
  · intro s c1 hne
    simp only [step, List.getElem?_set]
    by_cases hs : edge.From = s
    · subst hs
      have hc : c1 ≠ c := by
        rcases hne with h | h
        · exact absurd rfl h
        · exact h
      simp [hlt, mapSet, hc]
    · simp [hs]

theorem DFA_AddEdge_spec_witness :
    (∃ dfa1, dfaOneEdge.AddEdge { From := 0, To := 0, Word := [97] } = .ok dfa1 ∧
      dfa1.step 0 97 = some 0 ∧
      (∀ s c1, s ≠ 0 ∨ c1 ≠ 97 → dfa1.step s c1 = dfaOneEdge.step s c1) ∧
      dfa1.start = dfaOneEdge.start ∧ dfa1.terminals = dfaOneEdge.terminals ∧
      dfa1.StateCount = dfaOneEdge.StateCount) ∧
    (∀ (d : DeterministicFiniteAutomaton) s es, d.Edges s = .ok es → (es.map (·.Word)).Nodup) :=
  DFA_AddEdge_spec dfaOneEdge { From := 0, To := 0, Word := [97] } 97 rfl (by decide)

end

section

open NondeterministicFiniteAutomaton

theorem Path_inv {nfa : NondeterministicFiniteAutomaton} {s t : State} {w : List Nat}
    (h : Path nfa s w t) :
    (w = [] ∧ s = t) ∨ ∃ e w1, e ∈ nfa.edgesOf s ∧ w = e.Word ++ w1 ∧ Path nfa e.To w1 t := by
  cases h with
  | nil => exact Or.inl ⟨rfl, rfl⟩
  | cons _ e w1 _ he hp => exact Or.inr ⟨e, w1, he, rfl, hp⟩

theorem nfaA_rejects_aa : ¬ nfaA.accepts [97, 97] := by
  rintro ⟨t, hp, ht⟩
  rcases Path_inv hp with ⟨h, _⟩ | ⟨e, w1, he, hw, hp1⟩
  · simp at h
  · simp only [nfaA, edgesOf, List.getD_cons_zero, List.mem_singleton] at he
    subst he
    simp only [List.singleton_append, List.cons.injEq, true_and] at hw
    subst hw
    rcases Path_inv hp1 with ⟨h, _⟩ | ⟨e, w1, he, hw, hp2⟩
    · simp at h
    · simp [nfaA, edgesOf] at he

/-- C1, at the failing input: for the NFA 0 -a-> 1 (state 1 terminal)
`ConvertNfaToRegexp` returns "(1*(((a)1*(1)))(1)*1)*1*(((a)1*(1)))(1)*", and
this text recognizes "aa", which the NFA does not accept. -/
theorem ConvertNfaToRegexp_nfaA :
    (∃ nfa1, ConvertNfaToRegexp nfaA = .ok (textA, nfa1)) ∧
    recognizes textA [97, 97] ∧ ¬ nfaA.accepts [97, 97] := by
  refine ⟨⟨_, rfl⟩, ⟨_, rfl, ?_⟩, nfaA_rejects_aa⟩
  rw [← RegularExpression.rmatch_iff_matches']
  decide

end

section

open NondeterministicFiniteAutomaton

theorem wellFormed_stored {nfa : NondeterministicFiniteAutomaton} (h : nfa.WellFormed) :
    Stored nfa nfa.StateCount :=
  ⟨h.1, rfl, h.2.2⟩

theorem edgesOf_eq_nil {nfa : NondeterministicFiniteAutomaton} {s : State}
    (h : nfa.edges.length ≤ s) : nfa.edgesOf s = [] := by
  simp [edgesOf, List.getD_eq_getElem?_getD, List.getElem?_eq_none h]

theorem edgesOf_of_lt {nfa : NondeterministicFiniteAutomaton} {s : State}
    (h : s < nfa.edges.length) : nfa.edges[s]? = some (nfa.edgesOf s) := by
  simp [edgesOf, List.getD_eq_getElem?_getD, List.getElem?_eq_getElem h]

theorem mem_edgesOf_lt {nfa : NondeterministicFiniteAutomaton} {s : State} {e : Edge}
    (h : e ∈ nfa.edgesOf s) : s < nfa.edges.length := by
  by_contra hn
  rw [edgesOf_eq_nil (Nat.le_of_not_lt hn)] at h
  exact List.not_mem_nil _ h

theorem edgesOf_set (nfa : NondeterministicFiniteAutomaton) (i : State) (l : List Edge)
    (hi : i < nfa.edges.length) (s : State) :
    edgesOf { nfa with edges := nfa.edges.set i l } s = if s = i then l else nfa.edgesOf s := by
  simp only [edgesOf, List.getD_eq_getElem?_getD, List.getElem?_set]
  by_cases h : s = i
  · subst h; simp [hi]
  · simp [h, Ne.symm h]

theorem mem_flatten_iff (nfa : NondeterministicFiniteAutomaton) (e : Edge) :
    e ∈ nfa.edges.flatten ↔ ∃ s, e ∈ nfa.edgesOf s := by
  constructor
  · intro h
    obtain ⟨l, hl, he⟩ := List.mem_flatten.mp h
    obtain ⟨s, hs, rfl⟩ := List.getElem_of_mem hl
    exact ⟨s, by simpa [edgesOf, List.getD_eq_getElem?_getD, List.getElem?_eq_getElem hs] using he⟩
  · rintro ⟨s, hs⟩
    have hlt := mem_edgesOf_lt hs
    refine List.mem_flatten.mpr ⟨nfa.edges[s], List.getElem_mem _, ?_⟩
    simpa [edgesOf, List.getD_eq_getElem?_getD, List.getElem?_eq_getElem hlt] using hs

/-- Adding an edge between two states keeps the invariant. -/
theorem AddEdge_stored {nfa : NondeterministicFiniteAutomaton} {n : Nat} (h : Stored nfa n)
    (edge : Edge) (hf : edge.From < n) (ht : edge.To < n) :
    ∃ nfa1, nfa.AddEdge edge = .ok nfa1 ∧ Stored nfa1 n ∧ nfa1.start = nfa.start ∧
      nfa1.terminals = nfa.terminals ∧
      ∀ s, nfa1.edgesOf s = if s = edge.From then nfa.edgesOf s ++ [edge] else nfa.edgesOf s := by
  have hlt : edge.From < nfa.edges.length := by rw [h.2.1]; exact hf
  have hedges : ∀ s, edgesOf { nfa with edges := nfa.edges.set edge.From (nfa.edgesOf edge.From ++ [edge]) } s
      = if s = edge.From then nfa.edgesOf s ++ [edge] else nfa.edgesOf s := by
    intro s
    rw [edgesOf_set nfa _ _ hlt]
    by_cases hs : s = edge.From
    · simp [hs]
    · simp [hs]
  refine ⟨{ nfa with edges := nfa.edges.set edge.From (nfa.edgesOf edge.From ++ [edge]) },
    by simp [AddEdge, edgesOf_of_lt hlt], ⟨h.1, by simpa using h.2.1, ?_⟩, rfl, rfl, hedges⟩
  intro s e he
  rw [hedges] at he
  by_cases hs : s = edge.From
  · simp only [hs, if_true, List.mem_append, List.mem_singleton] at he
    rcases he with he | he
    · exact hs ▸ h.2.2 _ e he
    · subst he; exact ⟨hs.symm, ht⟩
  · simp only [hs, if_false] at he
    exact h.2.2 s e he

/-- What `DeleteEdge` does for an edge whose source is a state. -/
theorem DeleteEdge_result (nfa : NondeterministicFiniteAutomaton) (edge : Edge)
    (h : edge.From < nfa.StateCount) :
    ∃ nfa1 b, nfa.DeleteEdge edge = .ok (nfa1, b) ∧
      (b = true ↔ edge ∈ nfa.edgesOf edge.From) ∧
      (b = true →
        (nfa1.edgesOf edge.From).Perm ((nfa.edgesOf edge.From).erase edge) ∧
        (∀ s, s ≠ edge.From → nfa1.edgesOf s = nfa.edgesOf s) ∧
        nfa1.start = nfa.start ∧ nfa1.terminals = nfa.terminals ∧
        nfa1.StateCount = nfa.StateCount) ∧
      (b = false → nfa1 = nfa) := by
  have hlt : edge.From < nfa.edges.length := h
  have hget : nfa.edges[edge.From]? = some nfa.edges[edge.From] := List.getElem?_eq_getElem hlt
  have hof : nfa.edgesOf edge.From = nfa.edges[edge.From] := by
    simp [edgesOf, List.getD_eq_getElem?_getD, hget]
  have hscan := deleteScan_spec edge [] nfa.edges[edge.From] (List.not_mem_nil _)
  simp only [List.nil_append, List.length_nil] at hscan
  by_cases hmem : edge ∈ nfa.edges[edge.From]
  · obtain ⟨l, hl, hperm⟩ := hscan.2 hmem
    refine ⟨{ nfa with edges := nfa.edges.set edge.From l }, true, by simp [DeleteEdge, hget, hl],
      by simp [hof, hmem], ?_, by simp⟩
    intro _
    refine ⟨?_, ?_, rfl, rfl, by simp [StateCount]⟩
    · simpa [edgesOf, List.getD_eq_getElem?_getD, hlt, hof] using hperm
    · intro s hs
      simp [edgesOf, List.getD_eq_getElem?_getD, List.getElem?_set, Ne.symm hs]
  · refine ⟨nfa, false, by simp [DeleteEdge, hget, hscan.1 hmem], by simp [hof, hmem], by simp,
      fun _ => rfl⟩

/-- C9: `DeleteEdge` on an NFA, for an edge whose source is a state: it
returns true exactly when the edge occurs among the edges of its source; then
one occurrence is gone and every other edge, the flags and the start state are
kept; when it returns false the automaton is unchanged. -/
theorem NFA_DeleteEdge_spec (nfa : NondeterministicFiniteAutomaton) (edge : Edge)
    (h : edge.From < nfa.StateCount) :
    ∃ nfa1 b, nfa.DeleteEdge edge = .ok (nfa1, b) ∧
      (b = true ↔ edge ∈ nfa.edgesOf edge.From) ∧
      (b = true →
        (nfa1.edgesOf edge.From).Perm ((nfa.edgesOf edge.From).erase edge) ∧
        (∀ s, s ≠ edge.From → nfa1.edgesOf s = nfa.edgesOf s) ∧
        nfa1.start = nfa.start ∧ nfa1.terminals = nfa.terminals ∧
        nfa1.StateCount = nfa.StateCount) ∧
      (b = false → nfa1 = nfa) :=
  DeleteEdge_result nfa edge h

theorem NFA_DeleteEdge_spec_witness :
    ∃ nfa1 b, nfaAB.DeleteEdge { From := 0, To := 1, Word := [97] } = .ok (nfa1, b) ∧
      (b = true ↔ { From := 0, To := 1, Word := [97] } ∈ nfaAB.edgesOf 0) ∧
      (b = true →
        (nfa1.edgesOf 0).Perm ((nfaAB.edgesOf 0).erase { From := 0, To := 1, Word := [97] }) ∧
        (∀ s, s ≠ 0 → nfa1.edgesOf s = nfaAB.edgesOf s) ∧
        nfa1.start = nfaAB.start ∧ nfa1.terminals = nfaAB.terminals ∧
        nfa1.StateCount = nfaAB.StateCount) ∧
      (b = false → nfa1 = nfaAB) :=
  NFA_DeleteEdge_spec nfaAB { From := 0, To := 1, Word := [97] } (by decide)

/-- Deleting an edge keeps the invariant, the start state and the flags, and
leaves only edges that were there. -/
theorem DeleteEdge_stored {nfa : NondeterministicFiniteAutomaton} {n : Nat} (h : Stored nfa n)
    (edge : Edge) (hf : edge.From < n) :
    ∃ nfa1 b, nfa.DeleteEdge edge = .ok (nfa1, b) ∧ Stored nfa1 n ∧ nfa1.start = nfa.start ∧
      nfa1.terminals = nfa.terminals ∧ ∀ s, ∀ e ∈ nfa1.edgesOf s, e ∈ nfa.edgesOf s := by
  have hlt : edge.From < nfa.StateCount := by simpa [StateCount, h.2.1] using hf
  obtain ⟨nfa1, b, hrun, _, htrue, hfalse⟩ := DeleteEdge_result nfa edge hlt
  cases b with
  | false =>
    have := hfalse rfl
    subst this
    exact ⟨nfa1, false, hrun, h, rfl, rfl, fun _ _ he => he⟩
  | true =>
    obtain ⟨hperm, hother, hstart, hterm, hcount⟩ := htrue rfl
    have hsub : ∀ s, ∀ e ∈ nfa1.edgesOf s, e ∈ nfa.edgesOf s := by
      intro s e he
      by_cases hs : s = edge.From
      · subst hs
        exact List.mem_of_mem_erase (hperm.subset he)
      · rw [hother s hs] at he; exact he
    refine ⟨nfa1, true, hrun, ⟨by rw [hterm]; exact h.1, ?_, ?_⟩, hstart, hterm, hsub⟩
    · have : nfa1.edges.length = nfa.edges.length := hcount
      rw [this]; exact h.2.1
    · intro s e he
      exact h.2.2 s e (hsub s e he)

end

section

open NondeterministicFiniteAutomaton

theorem reduceLoop_stored {n : Nat} (edges : List Edge) (hedges : ∀ e ∈ edges, e.From < n)
    (i : Nat) (regexp : List Nat) (nfa : NondeterministicFiniteAutomaton) (h : Stored nfa n) :
    ∃ text nfa1, reduceLoop i edges (regexp, nfa) = .ok (text, nfa1) ∧ Stored nfa1 n ∧
      nfa1.start = nfa.start ∧ nfa1.terminals = nfa.terminals := by
  induction edges generalizing i regexp nfa with
  | nil => exact ⟨regexp, nfa, rfl, h, rfl, rfl⟩
  | cons e edges ih =>
    obtain ⟨nfa1, b, hdel, hst, hstart, hterm, _⟩ :=
      DeleteEdge_stored h e (hedges e (List.mem_cons_self _ _))
    obtain ⟨text, nfa2, hrun, hst2, hstart2, hterm2⟩ :=
      ih (fun e he => hedges e (List.mem_cons_of_mem _ he)) (i + 1) (regexp ++ edgeText i e) nfa1 hst
    exact ⟨text, nfa2, by simp [reduceLoop, hdel, hrun], hst2, hstart2.trans hstart,
      hterm2.trans hterm⟩

theorem reduceEdgesToRegexp_stored {n : Nat} (edges : List Edge)
    (hedges : ∀ e ∈ edges, e.From < n) (nfa : NondeterministicFiniteAutomaton)
    (h : Stored nfa n) :
    ∃ text nfa1, reduceEdgesToRegexp nfa edges = .ok (text, nfa1) ∧ Stored nfa1 n ∧
      nfa1.start = nfa.start ∧ nfa1.terminals = nfa.terminals := by
  unfold reduceEdgesToRegexp
  by_cases h0 : edges.length = 0
  · exact ⟨[49], nfa, by simp [h0], h, rfl, rfl⟩
  · obtain ⟨text, nfa1, hrun, hst, hstart, hterm⟩ := reduceLoop_stored edges hedges 0 [40] nfa h
    exact ⟨text ++ [41], nfa1, by simp [h0, hrun], hst, hstart, hterm⟩

theorem reduceManyEdgesToRegexp_stored {n : Nat} (m : List (State × List Edge))
    (hm : EntriesOk n m) (nfa : NondeterministicFiniteAutomaton) (h : Stored nfa n) :
    ∃ regexps nfa1, reduceManyEdgesToRegexp nfa m = .ok (regexps, nfa1) ∧ Stored nfa1 n ∧
      nfa1.start = nfa.start ∧ nfa1.terminals = nfa.terminals ∧ ∀ p ∈ regexps, p.1 < n := by
  induction m generalizing nfa with
  | nil => exact ⟨[], nfa, rfl, h, rfl, rfl, fun _ hp => absurd hp (List.not_mem_nil _)⟩
  | cons p m ih =>
    obtain ⟨state, edges⟩ := p
    have hp := hm (state, edges) (List.mem_cons_self _ _)
    obtain ⟨text, nfa1, hrun, hst, hstart, hterm⟩ := reduceEdgesToRegexp_stored edges hp.2 nfa h
    obtain ⟨regexps, nfa2, hrun2, hst2, hstart2, hterm2, hkeys⟩ :=
      ih (fun q hq => hm q (List.mem_cons_of_mem _ hq)) nfa1 hst
    refine ⟨(state, text) :: regexps, nfa2, by simp [reduceManyEdgesToRegexp, hrun, hrun2], hst2,
      hstart2.trans hstart, hterm2.trans hterm, ?_⟩
    intro q hq
    rcases List.mem_cons.mp hq with hq | hq
    · subst hq; exact hp.1
    · exact hkeys q hq

theorem mapAppend_ok {n : Nat} (m : List (State × List Edge)) (hm : EntriesOk n m)
    (key : State) (edge : Edge) (hk : key < n) (he : edge.From < n) :
    EntriesOk n (mapAppend m key edge) := by
  induction m with
  | nil =>
    intro p hp
    simp only [mapAppend, List.mem_singleton] at hp
    subst hp
    exact ⟨hk, fun e h => by simp only [List.mem_singleton] at h; subst h; exact he⟩
  | cons q m ih =>
    obtain ⟨k, es⟩ := q
    have hq := hm (k, es) (List.mem_cons_self _ _)
    intro p hp
    simp only [mapAppend] at hp
    by_cases hkk : k = key
    · simp only [hkk, if_true, List.mem_cons] at hp
      rcases hp with hp | hp
      · subst hp
        refine ⟨hk, fun e h => ?_⟩
        rcases List.mem_append.mp h with h | h
        · exact hq.2 e h
        · simp only [List.mem_singleton] at h; subst h; exact he
      · exact hm p (List.mem_cons_of_mem _ hp)
    · simp only [hkk, if_false, List.mem_cons] at hp
      rcases hp with hp | hp
      · subst hp; exact hq
      · exact ih (fun r hr => hm r (List.mem_cons_of_mem _ hr)) p hp

theorem classify_ok {n : Nat} (curState : State) (l : List Edge)
    (hl : ∀ e ∈ l, e.From < n ∧ e.To < n) (parts : Partition) (hp : PartitionOk n parts) :
    PartitionOk n (l.foldl (classifyEdge curState) parts) := by
  induction l generalizing parts with
  | nil => exact hp
  | cons e l ih =>
    have he := hl e (List.mem_cons_self _ _)
    refine ih (fun e he => hl e (List.mem_cons_of_mem _ he)) _ ?_
    unfold classifyEdge
    split
    · refine ⟨fun x hx => ?_, hp.2.1, hp.2.2⟩
      rcases List.mem_append.mp hx with hx | hx
      · exact hp.1 x hx
      · simp only [List.mem_singleton] at hx; subst hx; exact he.1
    · split
      · exact ⟨hp.1, mapAppend_ok _ hp.2.1 _ _ he.1 he.1, hp.2.2⟩
      · split
        · exact ⟨hp.1, hp.2.1, mapAppend_ok _ hp.2.2 _ _ he.2 he.1⟩
        · exact hp

theorem stored_flatten {nfa : NondeterministicFiniteAutomaton} {n : Nat} (h : Stored nfa n) :
    ∀ e ∈ nfa.edges.flatten, e.From < n ∧ e.To < n := by
  intro e he
  obtain ⟨s, hs⟩ := (mem_flatten_iff nfa e).mp he
  have := h.2.2 s e hs
  have hlt := mem_edgesOf_lt hs
  rw [h.2.1] at hlt
  exact ⟨this.1 ▸ hlt, this.2⟩

theorem forEach_addEdge_stored {n : Nat} (loop : List Nat)
    (pairs : List ((State × List Nat) × (State × List Nat)))
    (hpairs : ∀ pn ∈ pairs, pn.1.1 < n ∧ pn.2.1 < n)
    (nfa : NondeterministicFiniteAutomaton) (h : Stored nfa n) :
    ∃ nfa1,
      forEach
        (fun (pn : (State × List Nat) × (State × List Nat)) (m : NondeterministicFiniteAutomaton) =>
          m.AddEdge { From := pn.1.1, To := pn.2.1,
                      Word := [40] ++ pn.1.2 ++ loop ++ [42] ++ pn.2.2 ++ [41] })
        pairs nfa = .ok nfa1 ∧ Stored nfa1 n ∧ nfa1.start = nfa.start ∧
      nfa1.terminals = nfa.terminals := by
  induction pairs generalizing nfa with
  | nil => exact ⟨nfa, rfl, h, rfl, rfl⟩
  | cons pn pairs ih =>
    have hpn := hpairs pn (List.mem_cons_self _ _)
    obtain ⟨nfa1, hadd, hst, hstart, hterm, _⟩ := AddEdge_stored h
      { From := pn.1.1, To := pn.2.1, Word := [40] ++ pn.1.2 ++ loop ++ [42] ++ pn.2.2 ++ [41] }
      hpn.1 hpn.2
    obtain ⟨nfa2, hrun, hst2, hstart2, hterm2⟩ :=
      ih (fun q hq => hpairs q (List.mem_cons_of_mem _ hq)) nfa1 hst
    exact ⟨nfa2, by simp only [forEach, hadd, hrun], hst2, hstart2.trans hstart,
      hterm2.trans hterm⟩

/-- The elimination of a state returns and keeps the invariant, the start
state and the flags. -/
theorem eliminateState_stored {n : Nat} (curState : State)
    (nfa : NondeterministicFiniteAutomaton) (h : Stored nfa n) :
    ∃ nfa1, eliminateState curState nfa = .ok nfa1 ∧ Stored nfa1 n ∧ nfa1.start = nfa.start ∧
      nfa1.terminals = nfa.terminals := by
  have hparts : PartitionOk n (nfa.edges.flatten.foldl (classifyEdge curState)
      { loops := [], prevEdges := [], nextEdges := [] }) :=
    classify_ok curState _ (stored_flatten h) _
      ⟨fun _ he => absurd he (List.not_mem_nil _), fun _ hp => absurd hp (List.not_mem_nil _),
        fun _ hp => absurd hp (List.not_mem_nil _)⟩
  obtain ⟨loop, nfa1, h1, hst1, hstart1, hterm1⟩ := reduceEdgesToRegexp_stored _ hparts.1 nfa h
  obtain ⟨prevR, nfa2, h2, hst2, hstart2, hterm2, hk2⟩ :=
    reduceManyEdgesToRegexp_stored _ hparts.2.1 nfa1 hst1
  obtain ⟨nextR, nfa3, h3, hst3, hstart3, hterm3, hk3⟩ :=
    reduceManyEdgesToRegexp_stored _ hparts.2.2 nfa2 hst2
  obtain ⟨nfa4, h4, hst4, hstart4, hterm4⟩ := forEach_addEdge_stored loop
    (prevR.flatMap fun p => nextR.map fun q => (p, q))
    (by
      intro pn hpn
      obtain ⟨p, hp, hmap⟩ := List.mem_flatMap.mp hpn
      obtain ⟨q, hq, rfl⟩ := List.mem_map.mp hmap
      exact ⟨hk2 p hp, hk3 q hq⟩)
    nfa3 hst3
  refine ⟨nfa4, ?_, hst4, ?_, ?_⟩
  · simp only [eliminateState, h1, h2, h3]
    exact h4
  · rw [hstart4, hstart3, hstart2, hstart1]
  · rw [hterm4, hterm3, hterm2, hterm1]

theorem forEach_eliminateState_stored {n : Nat} (states : List State)
    (nfa : NondeterministicFiniteAutomaton) (h : Stored nfa n) :
    ∃ nfa1, forEach eliminateState states nfa = .ok nfa1 ∧ Stored nfa1 n ∧
      nfa1.start = nfa.start ∧ nfa1.terminals = nfa.terminals := by
  induction states generalizing nfa with
  | nil => exact ⟨nfa, rfl, h, rfl, rfl⟩
  | cons s states ih =>
    obtain ⟨nfa1, h1, hst1, hstart1, hterm1⟩ := eliminateState_stored s nfa h
    obtain ⟨nfa2, h2, hst2, hstart2, hterm2⟩ := ih nfa1 hst1
    exact ⟨nfa2, by simp only [forEach, h1, h2], hst2, hstart2.trans hstart1,
      hterm2.trans hterm1⟩

end

section

open NondeterministicFiniteAutomaton

theorem Stored_terminals {nfa : NondeterministicFiniteAutomaton} {n : Nat} (h : Stored nfa n)
    (ts : List Bool) (hts : ts.length = n) : Stored { nfa with terminals := ts } n :=
  ⟨hts, h.2.1, h.2.2⟩

theorem singleTerminalStep_stored {m : Nat} (terminal : State) (ht : terminal < m)
    (state : State) (hs : state < m) (nfa : NondeterministicFiniteAutomaton) (h : Stored nfa m) :
    ∃ nfa1, singleTerminalStep terminal state nfa = .ok nfa1 ∧ Stored nfa1 m ∧
      nfa1.start = nfa.start := by
  have hlt : state < nfa.terminals.length := by rw [h.1]; exact hs
  unfold singleTerminalStep
  simp only [IsTerminal, List.getElem?_eq_getElem hlt]
  cases nfa.terminals[state] with
  | false => exact ⟨nfa, rfl, h, rfl⟩
  | true =>
    simp only [SetTerminal, hlt, if_true]
    obtain ⟨nfa1, hadd, hst, hstart, _⟩ := AddEdge_stored
      (Stored_terminals h (nfa.terminals.set state false) (by simp [h.1]))
      { From := state, To := terminal, Word := [] } hs ht
    exact ⟨nfa1, hadd, hst, hstart⟩

theorem forEach_singleTerminalStep_stored {m : Nat} (terminal : State) (ht : terminal < m)
    (states : List State) (hs : ∀ s ∈ states, s < m) (nfa : NondeterministicFiniteAutomaton)
    (h : Stored nfa m) :
    ∃ nfa1, forEach (singleTerminalStep terminal) states nfa = .ok nfa1 ∧ Stored nfa1 m ∧
      nfa1.start = nfa.start := by
  induction states generalizing nfa with
  | nil => exact ⟨nfa, rfl, h, rfl⟩
  | cons s states ih =>
    obtain ⟨nfa1, h1, hst1, hstart1⟩ :=
      singleTerminalStep_stored terminal ht s (hs s (List.mem_cons_self _ _)) nfa h
    obtain ⟨nfa2, h2, hst2, hstart2⟩ := ih (fun x hx => hs x (List.mem_cons_of_mem _ hx)) nfa1 hst1
    exact ⟨nfa2, by simp only [forEach, h1, h2], hst2, hstart2.trans hstart1⟩

theorem AddState_stored {nfa : NondeterministicFiniteAutomaton} {n : Nat} (h : Stored nfa n) :
    Stored nfa.AddState.1 (n + 1) ∧ nfa.AddState.2 = n ∧ nfa.AddState.1.start = nfa.start ∧
      nfa.AddState.1.terminals = nfa.terminals ++ [false] ∧
      ∀ s, nfa.AddState.1.edgesOf s = nfa.edgesOf s := by
  have hedges : ∀ s, nfa.AddState.1.edgesOf s = nfa.edgesOf s := by
    intro s
    simp only [AddState, edgesOf, List.getD_eq_getElem?_getD, List.getElem?_append]
    by_cases hs : s < nfa.edges.length
    · simp [hs]
    · simp only [hs, if_false]
      rw [List.getElem?_eq_none (Nat.le_of_not_lt hs)]
      cases h0 : s - nfa.edges.length <;> simp
  refine ⟨⟨by simp [AddState, h.1], by simp [AddState, h.2.1], ?_⟩,
    by simp [AddState, StateCount, h.2.1], rfl, rfl, hedges⟩
  intro s e he
  rw [hedges] at he
  have := h.2.2 s e he
  exact ⟨this.1, Nat.lt_succ_of_lt this.2⟩

/-- On a well-formed NFA the single-terminal step returns the fresh state
and leaves an automaton with one state more and the same start state. -/
theorem ConvertNfaToNfaWithSingleTerminal_stored (nfa : NondeterministicFiniteAutomaton)
    (h : nfa.WellFormed) :
    ∃ nfa1, ConvertNfaToNfaWithSingleTerminal nfa = .ok (nfa1, nfa.StateCount) ∧
      Stored nfa1 (nfa.StateCount + 1) ∧ nfa1.start = nfa.start := by
  obtain ⟨hst, hnew, hstart, hterm, _⟩ := AddState_stored (wellFormed_stored h)
  have hlen : nfa.StateCount < nfa.AddState.1.terminals.length := by
    rw [hst.1]; exact Nat.lt_succ_self _
  obtain ⟨nfa1, hrun, hst1, hstart1⟩ := forEach_singleTerminalStep_stored nfa.StateCount
    (Nat.lt_succ_self _) (List.range (nfa.StateCount + 1))
    (fun s hs => List.mem_range.mp hs)
    { start := nfa.AddState.1.start,
      terminals := nfa.AddState.1.terminals.set nfa.StateCount true,
      edges := nfa.AddState.1.edges }
    (Stored_terminals hst _ (by simp [hst.1]))
  refine ⟨nfa1, ?_, hst1, hstart1.trans hstart⟩
  unfold ConvertNfaToNfaWithSingleTerminal
  have hcount : StateCount
      ({ start := nfa.AddState.1.start,
         terminals := nfa.AddState.1.terminals.set nfa.StateCount true,
         edges := nfa.AddState.1.edges } : NondeterministicFiniteAutomaton)
        = nfa.StateCount + 1 := by
    simp [StateCount, AddState]
  simp only [hnew, SetTerminal, hlen, if_true, hcount, hrun]

theorem filter_from_lt {n : Nat} {nfa : NondeterministicFiniteAutomaton} (h : Stored nfa n)
    (s : State) (hs : s < n) (p : Edge → Bool) :
    ∀ e ∈ (nfa.edgesOf s).filter p, e.From < n := by
  intro e he
  have := h.2.2 s e (List.mem_of_mem_filter he)
  rw [this.1]; exact hs

/-- On a well-formed NFA `ConvertNfaToRegexp` returns; the automaton it
worked on has the same start state and one state more. -/
theorem ConvertNfaToRegexp_stored (nfa : NondeterministicFiniteAutomaton) (h : nfa.WellFormed) :
    ∃ text nfa1, ConvertNfaToRegexp nfa = .ok (text, nfa1) ∧
      Stored nfa1 (nfa.StateCount + 1) ∧ nfa1.start = nfa.start := by
  obtain ⟨nfaT, hT, hstT, hstartT⟩ := ConvertNfaToNfaWithSingleTerminal_stored nfa h
  have hcountT : nfaT.StateCount = nfa.StateCount + 1 := hstT.2.1
  have hn : 0 < nfa.StateCount := Nat.lt_of_le_of_lt (Nat.zero_le _) h.2.1
  obtain ⟨nfa2, h2, hst2, hstart2, _⟩ := forEach_eliminateState_stored
    ((List.range nfaT.StateCount).filter
      fun state => decide (state ≠ nfaT.Start) && decide (state ≠ nfa.StateCount)) nfaT hstT
  have hs2 : nfa2.Start < nfa.StateCount + 1 := by
    show nfa2.start < _
    rw [hstart2, hstartT]; exact Nat.lt_succ_of_lt h.2.1
  have hlen2 : nfa2.edges.length = nfa.StateCount + 1 := hst2.2.1
  have hlt1 : nfa2.Start < nfa2.edges.length := by rw [hlen2]; exact hs2
  have hlt2 : nfa.StateCount < nfa2.edges.length := by rw [hlen2]; exact Nat.lt_succ_self _
  have hE1 : nfa2.Edges nfa2.Start = .ok (nfa2.edgesOf nfa2.Start) := by
    simp [Edges, edgesOf_of_lt hlt1]
  have hE2 : nfa2.Edges nfa.StateCount = .ok (nfa2.edgesOf nfa.StateCount) := by
    simp [Edges, edgesOf_of_lt hlt2]
  obtain ⟨t3, nfa3, h3, hst3, hstart3, _⟩ := reduceEdgesToRegexp_stored _
    (filter_from_lt hst2 nfa2.Start hs2 fun e => decide (e.To = nfa2.Start)) nfa2 hst2
  obtain ⟨t4, nfa4, h4, hst4, hstart4, _⟩ := reduceEdgesToRegexp_stored _
    (filter_from_lt hst2 nfa.StateCount (Nat.lt_succ_self _)
      fun e => decide (e.To = nfa.StateCount)) nfa3 hst3
  obtain ⟨t5, nfa5, h5, hst5, hstart5, _⟩ := reduceEdgesToRegexp_stored _
    (filter_from_lt hst2 nfa2.Start hs2 fun e => !decide (e.To = nfa2.Start)) nfa4 hst4
  obtain ⟨t6, nfa6, h6, hst6, hstart6, _⟩ := reduceEdgesToRegexp_stored _
    (filter_from_lt hst2 nfa.StateCount (Nat.lt_succ_self _)
      fun e => !decide (e.To = nfa.StateCount)) nfa5 hst5
  refine ⟨[40] ++ t3 ++ [42] ++ t5 ++ t4 ++ [42] ++ t6 ++ [41, 42] ++ t3 ++ [42] ++ t5 ++ t4
    ++ [42], nfa6, ?_, hst6, ?_⟩
  · unfold ConvertNfaToRegexp
    simp only [hT, hcountT, show ¬ nfa.StateCount + 1 < 2 by omega, if_false]
    rw [hcountT] at h2
    simp only [h2, hE1, hE2, h3, h4, h5, h6]
  · rw [hstart6, hstart5, hstart4, hstart3, hstart2, hstartT]

/-- C8, counterexample: `ConvertNfaToRegexp` changes the automaton it is
given. After the call on the NFA of the repository's test (two states, two
edges, state 0 terminal) the automaton has three states, no terminal state
and no edge. -/
theorem ConvertNfaToRegexp_changes_input :
    ∃ text nfa1, ConvertNfaToRegexp nfaAB = .ok (text, nfa1) ∧ nfa1 ≠ nfaAB ∧
      nfa1.StateCount = 3 ∧ nfa1.terminals = [false, false, false] ∧
      nfa1.edges = [[], [], []] :=
  ⟨_, _, rfl, by decide, rfl, rfl, rfl⟩

theorem nfaAB_wellFormed : nfaAB.WellFormed := by
  refine ⟨rfl, by decide, ?_⟩
  intro s e he
  match s with
  | 0 => simp [nfaAB, edgesOf] at he; subst he; decide
  | 1 => simp [nfaAB, edgesOf] at he; subst he; decide
  | s + 2 => simp [nfaAB, edgesOf] at he

end

section

open NondeterministicFiniteAutomaton

theorem nfaEacute_accepts : nfaEacute.accepts [195, 169] := by
  refine ⟨1, ?_, rfl⟩
  have h : Path nfaEacute 0 ([195, 169] ++ []) 1 :=
    Path.cons 0 { From := 0, To := 1, Word := [195, 169] } [] 1
      (by simp [nfaEacute, edgesOf]) (Path.nil 1)
  simpa using h

theorem nfaEacuteSplit_rejects (w : List Nat) : ¬ nfaEacuteSplit.accepts w := by
  rintro ⟨t, hp, ht⟩
  rcases Path_inv hp with ⟨_, h⟩ | ⟨e, w1, he, _, hp1⟩
  · have : t = 0 := h.symm
    subst this
    simp [nfaEacuteSplit] at ht
  · simp only [nfaEacuteSplit, edgesOf, List.getD_cons_zero, List.mem_singleton] at he
    subst he
    rcases Path_inv hp1 with ⟨_, h⟩ | ⟨e, w2, he, _, _⟩
    · have : t = 2 := h.symm
      subst this
      simp [nfaEacuteSplit] at ht
    · simp [nfaEacuteSplit, edgesOf] at he

/-- C4, at the failing input: the NFA 0 -é-> 1 accepts "é"; the automaton
`SplitLongWordsInNfa` returns for it has the single edge 0 -é-> 2 into a
fresh state and accepts no string. -/
theorem SplitLongWordsInNfa_eacute :
    nfaEacute.WellFormed ∧ nfaEacute.accepts [195, 169] ∧
    SplitLongWordsInNfa nfaEacute = .ok nfaEacuteSplit ∧
    ∀ w, ¬ nfaEacuteSplit.accepts w := by
  refine ⟨⟨rfl, by decide, ?_⟩, nfaEacute_accepts, rfl, nfaEacuteSplit_rejects⟩
  intro s e he
  match s with
  | 0 => simp [nfaEacute, edgesOf] at he; subst he; decide
  | 1 => simp [nfaEacute, edgesOf] at he
  | s + 2 => simp [nfaEacute, edgesOf] at he

/-- C3, at the failing input: for the NFA 0 -é-> 1, which accepts "é",
`ConvertNfaToNfaWithWordsOfLen1` returns an automaton whose one edge has a
word of two bytes and which accepts no string. -/
theorem ConvertNfaToNfaWithWordsOfLen1_eacute :
    nfaEacute.accepts [195, 169] ∧
    ConvertNfaToNfaWithWordsOfLen1 nfaEacute = .ok nfaEacuteSplit ∧
    (∃ e ∈ nfaEacuteSplit.edgesOf 0, e.Word.length = 2) ∧
    ∀ w, ¬ nfaEacuteSplit.accepts w :=
  ⟨nfaEacute_accepts, rfl, ⟨_, List.mem_singleton.mpr rfl, rfl⟩, nfaEacuteSplit_rejects⟩

/-- C2, at the failing input: for the NFA 0 -é-> 1 `ConvertNfaToDfa` returns
no DFA: the conversion `string(char)` of the byte 0xC3 gives a word of two
bytes and `AddEdge` stops with "word length must be 1". -/
theorem ConvertNfaToDfa_eacute :
    nfaEacute.accepts [195, 169] ∧ ConvertNfaToDfa nfaEacute = .error .wordLength ∧
    runeToString 195 = [195, 131] :=
  ⟨nfaEacute_accepts, rfl, rfl⟩

end

section

open NondeterministicFiniteAutomaton

theorem EPath.mono {E F : List Edge} (h : ∀ e ∈ E, e ∈ F) {s t : State} {w : List Nat}
    (p : EPath E s w t) : EPath F s w t := by
  induction p with
  | nil s => exact EPath.nil s
  | cons e w t he _ ih => exact EPath.cons e w t (h e he) ih

theorem EPath.congr {E F : List Edge} (h : ∀ e, e ∈ E ↔ e ∈ F) (s t : State) (w : List Nat) :
    EPath E s w t ↔ EPath F s w t :=
  ⟨EPath.mono fun e he => (h e).mp he, EPath.mono fun e he => (h e).mpr he⟩

theorem EPath.step {E : List Edge} {p q t : State} {u w : List Nat}
    (he : ({ From := p, To := q, Word := u } : Edge) ∈ E) (h : EPath E q w t) :
    EPath E p (u ++ w) t :=
  EPath.cons { From := p, To := q, Word := u } w t he h

/-- Replacing the edge p -cu-> q by p -c-> f -u-> q through a state `f` that
no other edge touches keeps the paths between the other states. -/
theorem EPath.split_edge (A : List Edge) (f : State)
    (hA : ∀ e ∈ A, e.From ≠ f ∧ e.To ≠ f) (p q : State) (hp : p ≠ f) (hq : q ≠ f)
    (c : Nat) (u : List Nat) (s t : State) (w : List Nat) (hs : s ≠ f) (ht : t ≠ f) :
    EPath ({ From := p, To := f, Word := [c] } :: { From := f, To := q, Word := u } :: A) s w t ↔
      EPath ({ From := p, To := q, Word := c :: u } :: A) s w t := by
  constructor
  · intro h
    have key : ∀ x w t, EPath ({ From := p, To := f, Word := [c] } ::
          { From := f, To := q, Word := u } :: A) x w t → t ≠ f →
        (x ≠ f → EPath ({ From := p, To := q, Word := c :: u } :: A) x w t) ∧
        (x = f → ∃ w1, w = u ++ w1 ∧ EPath ({ From := p, To := q, Word := c :: u } :: A) q w1 t) := by
      intro x w t hpath
      induction hpath with
      | nil x =>
        intro ht
        exact ⟨fun _ => EPath.nil x, fun hx => absurd hx ht⟩
      | cons e w1 t he _ ih =>
        intro ht
        have ih := ih ht
        rcases List.mem_cons.mp he with he | he
        · subst he
          refine ⟨fun _ => ?_, fun hx => absurd hx hp⟩
          obtain ⟨w2, hw, hpath⟩ := ih.2 rfl
          subst hw
          have := EPath.step (E := { From := p, To := q, Word := c :: u } :: A)
            (List.mem_cons_self _ _) hpath
          simpa using this
        · rcases List.mem_cons.mp he with he | he
          · subst he
            exact ⟨fun hx => absurd rfl hx, fun _ => ⟨w1, rfl, ih.1 hq⟩⟩
          · have hAe := hA e he
            exact ⟨fun _ => EPath.cons e w1 t (List.mem_cons_of_mem _ he) (ih.1 hAe.2),
              fun hx => absurd hx hAe.1⟩
    exact (key s w t h ht).1 hs
  · intro h
    clear hs ht
    induction h with
    | nil s => exact EPath.nil s
    | cons e w1 t he _ ih =>
      rcases List.mem_cons.mp he with he | he
      · subst he
        have h2 : EPath ({ From := p, To := f, Word := [c] } ::
            { From := f, To := q, Word := u } :: A) f (u ++ w1) t :=
          EPath.step (List.mem_cons_of_mem _ (List.mem_cons_self _ _)) ih
        have h1 := EPath.step (E := { From := p, To := f, Word := [c] } ::
            { From := f, To := q, Word := u } :: A) (p := p) (u := [c])
            (List.mem_cons_self _ _) h2
        simpa using h1
      · exact EPath.cons e w1 t (List.mem_cons_of_mem _ (List.mem_cons_of_mem _ he)) ih

/-- Under the representation invariant the paths of the automaton are the
paths over the list of all its edges. -/
theorem Path_iff_EPath {nfa : NondeterministicFiniteAutomaton} {n : Nat} (h : Stored nfa n)
    (s t : State) (w : List Nat) : Path nfa s w t ↔ EPath nfa.edges.flatten s w t := by
  constructor
  · intro p
    induction p with
    | nil s => exact EPath.nil s
    | cons s e w t he _ ih =>
      have := (h.2.2 s e he).1
      subst this
      exact EPath.cons e w t ((mem_flatten_iff nfa e).mpr ⟨_, he⟩) ih
  · intro p
    induction p with
    | nil s => exact Path.nil s
    | cons e w t he _ ih =>
      obtain ⟨s, hs⟩ := (mem_flatten_iff nfa e).mp he
      have := (h.2.2 s e hs).1
      subst this
      exact Path.cons _ e w t hs ih

theorem decodeRune_ascii (b : Nat) (rest : List Nat) (h : b < 128) :
    decodeRune (b :: rest) = (b, 1) := by
  simp [decodeRune, h]

theorem runeToString_ascii (b : Nat) (h : b < 128) : runeToString b = [b] := by
  simp [runeToString, h]

end

section

open NondeterministicFiniteAutomaton

theorem AddEdge_flatten {nfa : NondeterministicFiniteAutomaton} {n : Nat} (h : Stored nfa n)
    (edge : Edge) (hf : edge.From < n) (ht : edge.To < n) :
    ∃ nfa1, nfa.AddEdge edge = .ok nfa1 ∧ Stored nfa1 n ∧ nfa1.start = nfa.start ∧
      nfa1.terminals = nfa.terminals ∧
      ∀ x, x ∈ nfa1.edges.flatten ↔ x ∈ nfa.edges.flatten ∨ x = edge := by
  obtain ⟨nfa1, hadd, hst, hstart, hterm, hedges⟩ := AddEdge_stored h edge hf ht
  refine ⟨nfa1, hadd, hst, hstart, hterm, fun x => ?_⟩
  rw [mem_flatten_iff, mem_flatten_iff]
  constructor
  · rintro ⟨s, hs⟩
    rw [hedges] at hs
    by_cases hsf : s = edge.From
    · simp only [hsf, if_true, List.mem_append, List.mem_singleton] at hs
      rcases hs with hs | hs
      · exact Or.inl ⟨_, hs⟩
      · exact Or.inr hs
    · simp only [hsf, if_false] at hs
      exact Or.inl ⟨s, hs⟩
  · rintro (⟨s, hs⟩ | hx)
    · refine ⟨s, ?_⟩
      rw [hedges]
      by_cases hsf : s = edge.From
      · simp only [hsf, if_true, List.mem_append]
        exact Or.inl (hsf ▸ hs)
      · simp only [hsf, if_false]; exact hs
    · refine ⟨edge.From, ?_⟩
      rw [hedges]
      simp [hx]

theorem AddState_flatten {nfa : NondeterministicFiniteAutomaton} {n : Nat} (h : Stored nfa n) :
    ∀ x, x ∈ nfa.AddState.1.edges.flatten ↔ x ∈ nfa.edges.flatten := by
  intro x
  rw [mem_flatten_iff, mem_flatten_iff]
  have := (AddState_stored h).2.2.2.2
  constructor
  · rintro ⟨s, hs⟩; exact ⟨s, this s ▸ hs⟩
  · rintro ⟨s, hs⟩; exact ⟨s, (this s).symm ▸ hs⟩

/-- The chain that `splitChain` builds for the rest `u` of a word of bytes
below 0x80: the call returns, the new states are non-terminal, and between
the states that were there before the paths are those of the automaton with
the one edge prevState -u-> dest added. -/
theorem splitChain_paths (dest L : Nat) (u : List Nat) (hu : u ≠ [])
    (hascii : ∀ b ∈ u, b < 128) (fuel i : Nat) (hfuel : u.length ≤ fuel)
    (hi : i + u.length = L) (prev : State) (M : NondeterministicFiniteAutomaton) (m : Nat)
    (hM : Stored M m) (hprev : prev < m) (hdest : dest < m) :
    ∃ M1, splitChain dest L (rangeStringFrom fuel i u) prev M = .ok M1 ∧
      Stored M1 (m + (u.length - 1)) ∧ M1.start = M.start ∧
      M1.terminals = M.terminals ++ List.replicate (u.length - 1) false ∧
      ∀ (R : List Edge), (∀ e ∈ R, e.From < m ∧ e.To < m) → ∀ s t w, s < m → t < m →
        (EPath (M1.edges.flatten ++ R) s w t ↔
          EPath (M.edges.flatten ++ { From := prev, To := dest, Word := u } :: R) s w t) := by
  induction u generalizing fuel i prev M m with
  | nil => exact absurd rfl hu
  | cons c u ih =>
    have hc : c < 128 := hascii c (List.mem_cons_self _ _)
    obtain ⟨fuel, rfl⟩ : ∃ f, fuel = f + 1 := ⟨fuel - 1, by simp at hfuel; omega⟩
    cases u with
    | nil =>
      have hlast : ¬ i + 1 < L := by simp at hi; omega
      obtain ⟨M1, hadd, hst, hstart, hterm, hmem⟩ := AddEdge_flatten hM
        { From := prev, To := dest, Word := [c] } hprev hdest
      refine ⟨M1, ?_, by simpa using hst, hstart, by simpa using hterm, ?_⟩
      · have hr : rangeStringFrom (fuel + 1) i [c] = [(i, c)] := by
          simp only [rangeStringFrom, decodeRune_ascii c [] hc, List.drop_succ_cons, List.drop_zero]
          cases fuel <;> simp [rangeStringFrom]
        rw [hr]
        simp only [splitChain, hlast, if_false, runeToString_ascii c hc, hadd]
      · intro R _ s t w _ _
        apply EPath.congr
        intro e
        simp only [List.mem_append, List.mem_cons, hmem]
        tauto
    | cons c2 u2 =>
      have hnext : i + 1 < L := by simp at hi; omega
      have hstA := AddState_stored hM
      obtain ⟨M2, hadd, hst2, hstart2, hterm2, hmem2⟩ := AddEdge_flatten hstA.1
        { From := prev, To := m, Word := [c] } (Nat.lt_succ_of_lt hprev) (Nat.lt_succ_self m)
      obtain ⟨M3, hrun, hst3, hstart3, hterm3, hpaths⟩ := ih (List.cons_ne_nil _ _)
        (fun b hb => hascii b (List.mem_cons_of_mem _ hb)) fuel (i + 1)
        (by simp at hfuel ⊢; omega) (by simp at hi ⊢; omega) m M2 (m + 1) hst2
        (Nat.lt_succ_self m) (Nat.lt_succ_of_lt hdest)
      refine ⟨M3, ?_, ?_, ?_, ?_, ?_⟩
      · have hr : rangeStringFrom (fuel + 1) i (c :: c2 :: u2) =
            (i, c) :: rangeStringFrom fuel (i + 1) (c2 :: u2) := by
          simp [rangeStringFrom, decodeRune_ascii c _ hc]
        rw [hr]
        simp only [splitChain, hnext, if_true, runeToString_ascii c hc]
        rw [hstA.2.1, hadd]
        exact hrun
      · have : m + 1 + ((c2 :: u2).length - 1) = m + ((c :: c2 :: u2).length - 1) := by
          simp; omega
        rw [← this]; exact hst3
      · rw [hstart3, hstart2, hstA.2.2.1]
      · rw [hterm3, hterm2, hstA.2.2.2.1]
        simp [List.replicate_succ]
      · intro R hR s t w hs ht
        rw [hpaths R (fun e he => ⟨Nat.lt_succ_of_lt (hR e he).1, Nat.lt_succ_of_lt (hR e he).2⟩)
          s t w (Nat.lt_succ_of_lt hs) (Nat.lt_succ_of_lt ht)]
        have hflat := AddState_flatten hM
        have hAll := stored_flatten hM
        rw [EPath.congr (F := { From := prev, To := m, Word := [c] } ::
          { From := m, To := dest, Word := c2 :: u2 } :: (M.edges.flatten ++ R))
          (by
            intro e
            simp only [List.mem_append, List.mem_cons, hmem2, hflat]
            tauto)]
        rw [EPath.split_edge (M.edges.flatten ++ R) m
          (by
            intro e he
            rcases List.mem_append.mp he with he | he
            · exact ⟨Nat.ne_of_lt (hAll e he).1, Nat.ne_of_lt (hAll e he).2⟩
            · exact ⟨Nat.ne_of_lt (hR e he).1, Nat.ne_of_lt (hR e he).2⟩)
          prev dest (Nat.ne_of_lt hprev) (Nat.ne_of_lt hdest) c (c2 :: u2) s t w
          (Nat.ne_of_lt hs) (Nat.ne_of_lt ht)]
        apply EPath.congr
        intro e
        simp only [List.mem_append, List.mem_cons]
        tauto

end

section

open NondeterministicFiniteAutomaton

/-- One edge of the input handled by `splitEdge`. -/
theorem splitEdge_paths (n : Nat) (edge : Edge) (hf : edge.From < n) (ht : edge.To < n)
    (hascii : ∀ b ∈ edge.Word, b < 128) (M : NondeterministicFiniteAutomaton) (m : Nat)
    (hm : n ≤ m) (hM : Stored M m) :
    ∃ M1 k, splitEdge edge M = .ok M1 ∧ Stored M1 (m + k) ∧ M1.start = M.start ∧
      M1.terminals = M.terminals ++ List.replicate k false ∧
      ∀ (R : List Edge), (∀ e ∈ R, e.From < m ∧ e.To < m) → ∀ s t w, s < m → t < m →
        (EPath (M1.edges.flatten ++ R) s w t ↔ EPath (M.edges.flatten ++ edge :: R) s w t) := by
  unfold splitEdge
  by_cases hlen : edge.Word.length ≤ 1
  · obtain ⟨M1, hadd, hst, hstart, hterm, hmem⟩ := AddEdge_flatten hM edge
      (Nat.lt_of_lt_of_le hf hm) (Nat.lt_of_lt_of_le ht hm)
    refine ⟨M1, 0, by simp [hlen, hadd], by simpa using hst, hstart, by simpa using hterm, ?_⟩
    intro R _ s t w _ _
    apply EPath.congr
    intro e
    simp only [List.mem_append, List.mem_cons, hmem]
    tauto
  · have hne : edge.Word ≠ [] := by
      intro h; rw [h] at hlen; simp at hlen
    obtain ⟨M1, hrun, hst, hstart, hterm, hpaths⟩ := splitChain_paths edge.To edge.Word.length
      edge.Word hne hascii edge.Word.length 0 (Nat.le_refl _) (by simp) edge.From M m hM
      (Nat.lt_of_lt_of_le hf hm) (Nat.lt_of_lt_of_le ht hm)
    exact ⟨M1, edge.Word.length - 1, by simp only [hlen, if_false, rangeString, hrun], hst, hstart,
      hterm, hpaths⟩

/-- The loop of `splitEdge` over a list of edges between states below `n`. -/
theorem forEach_splitEdge_paths (n : Nat) (rest : List Edge)
    (hrest : ∀ e ∈ rest, e.From < n ∧ e.To < n ∧ ∀ b ∈ e.Word, b < 128)
    (M : NondeterministicFiniteAutomaton) (m : Nat) (hm : n ≤ m) (hM : Stored M m) :
    ∃ M1 k, forEach splitEdge rest M = .ok M1 ∧ Stored M1 (m + k) ∧ M1.start = M.start ∧
      M1.terminals = M.terminals ++ List.replicate k false ∧
      ∀ (R : List Edge), (∀ e ∈ R, e.From < n ∧ e.To < n) → ∀ s t w, s < n → t < n →
        (EPath (M1.edges.flatten ++ R) s w t ↔ EPath (M.edges.flatten ++ (rest ++ R)) s w t) := by
  induction rest generalizing M m with
  | nil => exact ⟨M, 0, rfl, by simpa using hM, rfl, by simp, fun R _ s t w _ _ => by simp⟩
  | cons e rest ih =>
    have he := hrest e (List.mem_cons_self _ _)
    obtain ⟨M1, k1, hrun1, hst1, hstart1, hterm1, hpaths1⟩ :=
      splitEdge_paths n e he.1 he.2.1 he.2.2 M m hm hM
    obtain ⟨M2, k2, hrun2, hst2, hstart2, hterm2, hpaths2⟩ :=
      ih (fun x hx => hrest x (List.mem_cons_of_mem _ hx)) M1 (m + k1) (by omega) hst1
    refine ⟨M2, k1 + k2, by simp only [forEach, hrun1, hrun2], by rw [← Nat.add_assoc]; exact hst2,
      hstart2.trans hstart1, ?_, ?_⟩
    · rw [hterm2, hterm1, List.append_assoc, List.append_replicate_replicate]
    · intro R hR s t w hs ht
      rw [hpaths2 R hR s t w hs ht]
      rw [hpaths1 (rest ++ R)
        (by
          intro x hx
          rcases List.mem_append.mp hx with hx | hx
          · have := hrest x (List.mem_cons_of_mem _ hx)
            exact ⟨Nat.lt_of_lt_of_le this.1 hm, Nat.lt_of_lt_of_le this.2.1 hm⟩
          · exact ⟨Nat.lt_of_lt_of_le (hR x hx).1 hm, Nat.lt_of_lt_of_le (hR x hx).2 hm⟩)
        s t w (Nat.lt_of_lt_of_le hs hm) (Nat.lt_of_lt_of_le ht hm)]
      simp

/-- The first loop of `SplitLongWordsInNfa` after `k` rounds. -/
theorem copyState_upto (nfa : NondeterministicFiniteAutomaton) (k : Nat)
    (hk : k ≤ nfa.terminals.length) :
    forEach (copyState nfa) (List.range k) NewNondeterministicFiniteAutomaton =
      .ok { start := 0, terminals := nfa.terminals.take k, edges := List.replicate k [] } := by
  induction k with
  | zero => simp [forEach, NewNondeterministicFiniteAutomaton]
  | succ k ih =>
    have hlt : k < nfa.terminals.length := by omega
    rw [List.range_succ, forEach_append, ih (by omega)]
    simp only [forEach, copyState, AddState, IsTerminal, List.getElem?_eq_getElem hlt, SetTerminal,
      StateCount]
    have h1 : (List.replicate k ([] : List Edge) ++ [[]]).length - 1 = k := by simp
    have h2 : k < (List.take k nfa.terminals ++ [false]).length := by
      simp [Nat.min_eq_left (Nat.le_of_lt hlt)]
    simp only [h1, h2, if_true]
    congr 2
    · rw [List.take_succ, List.getElem?_eq_getElem hlt]
      have hlen : (List.take k nfa.terminals).length = k := by
        simp [Nat.min_eq_left (Nat.le_of_lt hlt)]
      simp [List.set_append, hlen]
    · simp [List.replicate_succ']

/-- The loop over the states and their edges visits the stored edge lists
in order. -/
theorem splitState_upto (nfa : NondeterministicFiniteAutomaton) (k : Nat)
    (hk : k ≤ nfa.edges.length) (M : NondeterministicFiniteAutomaton) :
    forEach (splitState nfa) (List.range k) M =
      forEach splitEdge (nfa.edges.take k).flatten M := by
  induction k with
  | zero => simp [forEach]
  | succ k ih =>
    have hlt : k < nfa.edges.length := by omega
    rw [List.range_succ, forEach_append, ih (by omega), List.take_succ,
      List.getElem?_eq_getElem hlt]
    simp only [Option.toList, List.flatten_append, List.flatten_cons, List.flatten_nil,
      List.append_nil]
    rw [forEach_append]
    cases forEach splitEdge (List.take k nfa.edges).flatten M with
    | error p => rfl
    | ok M1 =>
      simp only [forEach, splitState, Edges, List.getElem?_eq_getElem hlt]
      cases forEach splitEdge nfa.edges[k] M1 <;> rfl

theorem EPath_nil_iff (s t : State) (w : List Nat) : EPath [] s w t ↔ w = [] ∧ s = t := by
  constructor
  · intro h
    cases h with
    | nil => exact ⟨rfl, rfl⟩
    | cons e w t he _ => exact absurd he (List.not_mem_nil _)
  · rintro ⟨rfl, rfl⟩; exact EPath.nil _

/-- `SplitLongWordsInNfa` on a well-formed NFA whose words are made of bytes
below 0x80: it returns an automaton that keeps the start state and the flags
of the old states, whose new states are not terminal, and that has the same
paths between the old states. -/
theorem SplitLongWordsInNfa_paths (nfa : NondeterministicFiniteAutomaton) (hwf : nfa.WellFormed)
    (hascii : AsciiWords nfa) :
    ∃ nfa1 k, SplitLongWordsInNfa nfa = .ok nfa1 ∧ Stored nfa1 (nfa.StateCount + k) ∧
      nfa1.start = nfa.start ∧ nfa1.terminals = nfa.terminals ++ List.replicate k false ∧
      ∀ s t w, s < nfa.StateCount → t < nfa.StateCount →
        (Path nfa1 s w t ↔ Path nfa s w t) := by
  have hst := wellFormed_stored hwf
  have hlen : nfa.terminals.length = nfa.StateCount := hwf.1
  have hM0 : Stored
      ({ start := nfa.start, terminals := nfa.terminals,
         edges := List.replicate nfa.StateCount [] } : NondeterministicFiniteAutomaton)
      nfa.StateCount := by
    refine ⟨hlen, by simp, ?_⟩
    intro s e he
    simp only [edgesOf, List.getD_eq_getElem?_getD, List.getElem?_replicate] at he
    split at he <;> simp at he
  have hall : ∀ e ∈ nfa.edges.flatten,
      e.From < nfa.StateCount ∧ e.To < nfa.StateCount ∧ ∀ b ∈ e.Word, b < 128 := by
    intro e he
    obtain ⟨s, hs⟩ := (mem_flatten_iff nfa e).mp he
    exact ⟨(stored_flatten hst e he).1, (stored_flatten hst e he).2, hascii s e hs⟩
  obtain ⟨M1, k, hrun, hst1, hstart1, hterm1, hpaths⟩ := forEach_splitEdge_paths nfa.StateCount
    nfa.edges.flatten hall _ nfa.StateCount (Nat.le_refl _) hM0
  refine ⟨M1, k, ?_, hst1, hstart1, hterm1, ?_⟩
  · unfold SplitLongWordsInNfa
    rw [copyState_upto nfa nfa.StateCount (by rw [hlen])]
    simp only [SetStart, Start]
    rw [splitState_upto nfa nfa.StateCount (Nat.le_refl _)]
    have htake : List.take nfa.StateCount nfa.edges = nfa.edges := List.take_length _
    have htake2 : List.take nfa.StateCount nfa.terminals = nfa.terminals := by
      rw [← hlen]; exact List.take_length _
    rw [htake, htake2]
    exact hrun
  · intro s t w hs ht
    rw [Path_iff_EPath hst1, Path_iff_EPath hst]
    have := hpaths [] (fun _ h => absurd h (List.not_mem_nil _)) s t w hs ht
    simp only [List.append_nil] at this
    rw [this]
    apply EPath.congr
    intro e
    have : (List.replicate nfa.StateCount ([] : List Edge)).flatten = [] := by
      induction nfa.StateCount with
      | zero => rfl
      | succ n ih => simp [List.replicate_succ]
    simp [this]

end

section

open NondeterministicFiniteAutomaton

theorem getElem?_append_replicate_false (ts : List Bool) (k t : Nat) :
    (ts ++ List.replicate k false)[t]? = some true ↔ ts[t]? = some true := by
  by_cases ht : t < ts.length
  · rw [List.getElem?_append_left ht]
  · rw [List.getElem?_append_right (Nat.le_of_not_lt ht),
      List.getElem?_eq_none (Nat.le_of_not_lt ht)]
    simp only [List.getElem?_replicate]
    split <;> simp

/-- An automaton with the same paths between the old states, the same start
state and the same terminal states accepts the same strings. -/
theorem accepts_congr (nfa nfa1 : NondeterministicFiniteAutomaton) (k : Nat)
    (hwf : nfa.WellFormed) (hstart : nfa1.start = nfa.start)
    (hterm : nfa1.terminals = nfa.terminals ++ List.replicate k false)
    (hpaths : ∀ s t w, s < nfa.StateCount → t < nfa.StateCount →
      (Path nfa1 s w t ↔ Path nfa s w t)) (w : List Nat) :
    nfa1.accepts w ↔ nfa.accepts w := by
  have hlt : ∀ t, nfa.terminals[t]? = some true → t < nfa.StateCount := by
    intro t ht
    have hlen : nfa.terminals.length = nfa.StateCount := hwf.1
    by_contra hn
    rw [List.getElem?_eq_none (by omega)] at ht
    simp at ht
  unfold accepts
  rw [hstart, hterm]
  constructor
  · rintro ⟨t, hp, ht⟩
    rw [getElem?_append_replicate_false] at ht
    exact ⟨t, (hpaths _ t w hwf.2.1 (hlt t ht)).mp hp, ht⟩
  · rintro ⟨t, hp, ht⟩
    exact ⟨t, (hpaths _ t w hwf.2.1 (hlt t ht)).mpr hp,
      (getElem?_append_replicate_false _ _ _).mpr ht⟩

/-- `SplitLongWordsInNfa` keeps the language: for every well-formed NFA
whose edge words are made of bytes below 0x80 (one-byte characters) the call
returns, and the returned automaton accepts a string if and only if the
given one does. -/
theorem SplitLongWordsInNfa_accepts (nfa : NondeterministicFiniteAutomaton)
    (hwf : nfa.WellFormed) (hascii : AsciiWords nfa) (w : List Nat) :
    ∃ nfa1, SplitLongWordsInNfa nfa = .ok nfa1 ∧ (nfa1.accepts w ↔ nfa.accepts w) := by
  obtain ⟨nfa1, k, hrun, _, hstart, hterm, hpaths⟩ := SplitLongWordsInNfa_paths nfa hwf hascii
  exact ⟨nfa1, hrun, accepts_congr nfa nfa1 k hwf hstart hterm hpaths w⟩

theorem nfaAB_ascii : AsciiWords nfaAB := by
  intro s e he
  match s with
  | 0 => simp [nfaAB, edgesOf] at he; subst he; decide
  | 1 => simp [nfaAB, edgesOf] at he; subst he; decide
  | s + 2 => simp [nfaAB, edgesOf] at he

theorem SplitLongWordsInNfa_accepts_witness :
    ∃ nfa1, SplitLongWordsInNfa nfaAB = .ok nfa1 ∧
      (nfa1.accepts [97, 98] ↔ nfaAB.accepts [97, 98]) :=
  SplitLongWordsInNfa_accepts nfaAB nfaAB_wellFormed nfaAB_ascii [97, 98]

theorem flatten_replicate_nil (n : Nat) :
    (List.replicate n ([] : List Edge)).flatten = [] := by
  induction n with
  | zero => rfl
  | succ n ih => simp [List.replicate_succ]

theorem flatten_set_replicate (n p : Nat) (hp : p < n) (l : List Edge) :
    ((List.replicate n ([] : List Edge)).set p l).flatten = l := by
  induction n generalizing p with
  | zero => omega
  | succ n ih =>
    cases p with
    | zero => simp [List.replicate_succ, flatten_replicate_nil]
    | succ p => simp [List.replicate_succ, ih p (by omega)]

/-- The automaton with `n` states whose only edge is p -ab-> q becomes the
automaton with one state more, the fresh state `n`, whose only edges are
p -a-> n and n -b-> q; so for p = q as well. -/
theorem SplitLongWordsInNfa_ab (n p q start : Nat) (ts : List Bool) (hts : ts.length = n)
    (hp : p < n) :
    SplitLongWordsInNfa
        { start := start, terminals := ts,
          edges := (List.replicate n []).set p [{ From := p, To := q, Word := [97, 98] }] } =
      .ok { start := start, terminals := ts ++ [false],
            edges := (List.replicate n []).set p [{ From := p, To := n, Word := [97] }]
              ++ [[{ From := n, To := q, Word := [98] }]] } := by
  unfold SplitLongWordsInNfa
  have hcount : StateCount
      ({ start := start, terminals := ts,
         edges := (List.replicate n []).set p [{ From := p, To := q, Word := [97, 98] }] } :
        NondeterministicFiniteAutomaton) = n := by
    simp [StateCount]
  rw [hcount, copyState_upto _ n (by simp [hts])]
  simp only []
  rw [splitState_upto _ n (by simp)]
  have htake : List.take n ((List.replicate n ([] : List Edge)).set p
      [{ From := p, To := q, Word := [97, 98] }]) =
      (List.replicate n ([] : List Edge)).set p [{ From := p, To := q, Word := [97, 98] }] := by
    apply List.take_of_length_le; simp
  have htake2 : List.take n ts = ts := by
    apply List.take_of_length_le; simp [hts]
  rw [htake, htake2, flatten_set_replicate n p hp]
  have hget1 : (List.replicate n ([] : List Edge) ++ [[]])[p]? = some [] := by
    rw [List.getElem?_append_left (by simpa using hp)]
    simp [List.getElem?_replicate, hp]
  have hget2 : ((List.replicate n ([] : List Edge) ++ [[]]).set p
      [{ From := p, To := n, Word := [97] }])[n]? = some [] := by
    rw [List.getElem?_set_ne (Nat.ne_of_lt hp)]
    simp
  have hsplit : ∀ M : NondeterministicFiniteAutomaton,
      splitEdge { From := p, To := q, Word := [97, 98] } M =
        splitChain q 2 [(0, 97), (1, 98)] p M := fun _ => rfl
  simp only [forEach, hsplit, SetStart, Start]
  have hstep1 : ∀ M : NondeterministicFiniteAutomaton,
      splitChain q 2 [(0, 97), (1, 98)] p M =
        match M.AddState.1.AddEdge { From := p, To := M.AddState.2, Word := [97] } with
        | .error e => .error e
        | .ok M2 =>
          match M2.AddEdge { From := M.AddState.2, To := q, Word := [98] } with
          | .error e => .error e
          | .ok M3 => .ok M3 := by
    intro M
    simp only [splitChain, show (0 + 1 < 2) by decide, show ¬ (1 + 1 < 2) by decide, if_true,
      if_false, show runeToString 97 = [97] from rfl, show runeToString 98 = [98] from rfl]
  rw [hstep1]
  simp only [AddState, AddEdge, StateCount, List.length_append, List.length_replicate,
    List.length_singleton, Nat.add_sub_cancel, hget1, hget2, List.nil_append]
  congr 2
  rw [List.set_append_left _ _ (by simpa using hp)]
  rw [show n = (((List.replicate n ([] : List Edge)).set p
      [{ From := p, To := n, Word := [97] }])).length + 0 by simp]
  simp [List.set_append_right]

end

section

open NondeterministicFiniteAutomaton

theorem mem_flatten_set {α : Type} (l : List (List α)) (i : Nat) (v : List α) (x : α)
    (h : x ∈ (l.set i v).flatten) : x ∈ l.flatten ∨ x ∈ v := by
  obtain ⟨y, hy, hx⟩ := List.mem_flatten.mp h
  rcases List.mem_or_eq_of_mem_set hy with hy | hy
  · exact Or.inl (List.mem_flatten.mpr ⟨y, hy, hx⟩)
  · exact Or.inr (hy ▸ hx)

/-- The edges after `AddEdge` are the old ones and the new one. -/
theorem AddEdge_mem {nfa nfa1 : NondeterministicFiniteAutomaton} {edge : Edge}
    (h : nfa.AddEdge edge = .ok nfa1) (x : Edge) (hx : x ∈ nfa1.edges.flatten) :
    x ∈ nfa.edges.flatten ∨ x = edge := by
  unfold AddEdge at h
  cases hget : nfa.edges[edge.From]? with
  | none => simp [hget] at h
  | some es =>
    simp only [hget, Except.ok.injEq] at h
    subst h
    rcases mem_flatten_set _ _ _ x hx with hx | hx
    · exact Or.inl hx
    · rcases List.mem_append.mp hx with hx | hx
      · exact Or.inl (List.mem_flatten.mpr ⟨es, List.getElem?_mem hget, hx⟩)
      · exact Or.inr (List.mem_singleton.mp hx)

theorem AddState_mem (nfa : NondeterministicFiniteAutomaton) (x : Edge)
    (hx : x ∈ nfa.AddState.1.edges.flatten) : x ∈ nfa.edges.flatten := by
  simpa [AddState] using hx

/-- A property of edges that the new one-rune edges have is kept by `splitChain`. -/
theorem splitChain_edges (P : Edge → Prop) (dest L : Nat) (runes : List (Nat × Nat))
    (hP : ∀ r ∈ runes, ∀ p q, P { From := p, To := q, Word := runeToString r.2 })
    (prev : State) (M M1 : NondeterministicFiniteAutomaton) (hM : ∀ e ∈ M.edges.flatten, P e)
    (h : splitChain dest L runes prev M = .ok M1) : ∀ e ∈ M1.edges.flatten, P e := by
  induction runes generalizing prev M with
  | nil =>
    simp only [splitChain, Except.ok.injEq] at h
    subst h; exact hM
  | cons r runes ih =>
    obtain ⟨i, c⟩ := r
    simp only [splitChain] at h
    split at h
    · simp at h
    · rename_i M2 hadd
      refine ih (fun r hr => hP r (List.mem_cons_of_mem _ hr)) _ M2 ?_ h
      intro e he
      rcases AddEdge_mem hadd e he with he | he
      · split at he
        · exact hM e (AddState_mem M e he)
        · exact hM e he
      · subst he; exact hP (i, c) (List.mem_cons_self _ _) _ _

theorem forEach_inv {α σ : Type} (body : α → σ → Except Panic σ) (I : σ → Prop)
    (xs : List α) (hbody : ∀ x ∈ xs, ∀ s s1, I s → body x s = .ok s1 → I s1)
    (s s1 : σ) (hs : I s) (h : forEach body xs s = .ok s1) : I s1 := by
  induction xs generalizing s with
  | nil =>
    simp only [forEach, Except.ok.injEq] at h
    subst h; exact hs
  | cons x xs ih =>
    simp only [forEach] at h
    split at h
    · simp at h
    · rename_i s2 hx
      exact ih (fun y hy => hbody y (List.mem_cons_of_mem _ hy)) s2
        (hbody x (List.mem_cons_self _ _) s s2 hs hx) h

/-- After `SplitLongWordsInNfa` on words of bytes below 0x80 no edge word is
longer than one byte. -/
theorem SplitLongWordsInNfa_short (nfa nfa1 : NondeterministicFiniteAutomaton)
    (hascii : AsciiWords nfa) (h : SplitLongWordsInNfa nfa = .ok nfa1) :
    ∀ e ∈ nfa1.edges.flatten, e.Word.length ≤ 1 ∧ ∀ b ∈ e.Word, b < 128 := by
  unfold SplitLongWordsInNfa at h
  split at h
  · simp at h
  · rename_i M0 hcopy
    have hM0 : ∀ e ∈ M0.edges.flatten, e.Word.length ≤ 1 ∧ ∀ b ∈ e.Word, b < 128 := by
      refine forEach_inv (copyState nfa)
        (fun M => ∀ e ∈ M.edges.flatten, e.Word.length ≤ 1 ∧ ∀ b ∈ e.Word, b < 128) _ ?_ _ M0 ?_ hcopy
      · intro x _ s s1 hs hx e he
        simp only [copyState] at hx
        split at hx
        · simp at hx
        · simp only [SetTerminal] at hx
          split at hx
          · simp only [Except.ok.injEq] at hx
            subst hx
            exact hs e (AddState_mem s e he)
          · simp at hx
      · intro e he
        simp [NewNondeterministicFiniteAutomaton] at he
    refine forEach_inv (splitState nfa)
      (fun M => ∀ e ∈ M.edges.flatten, e.Word.length ≤ 1 ∧ ∀ b ∈ e.Word, b < 128) _ ?_
      (M0.SetStart nfa.Start) nfa1 hM0 h
    intro state _ M M1 hM hstate
    simp only [splitState, Edges] at hstate
    cases hget : nfa.edges[state]? with
    | none => simp [hget] at hstate
    | some es =>
      simp only [hget] at hstate
      refine forEach_inv splitEdge
        (fun M => ∀ e ∈ M.edges.flatten, e.Word.length ≤ 1 ∧ ∀ b ∈ e.Word, b < 128) es ?_ M M1 hM
        hstate
      intro edge hedge N N1 hN hsplit
      have hedge2 : edge ∈ nfa.edgesOf state := by
        simp [edgesOf, List.getD_eq_getElem?_getD, hget, hedge]
      unfold splitEdge at hsplit
      split at hsplit
      · rename_i hlen
        intro e he
        rcases AddEdge_mem hsplit e he with he | he
        · exact hN e he
        · subst he; exact ⟨hlen, hascii state e hedge2⟩
      · have hrunes : ∀ fuel i (u : List Nat), (∀ b ∈ u, b < 128) →
            ∀ r ∈ rangeStringFrom fuel i u, r.2 < 128 := by
          intro fuel
          induction fuel with
          | zero => intro i u _ r hr; simp [rangeStringFrom] at hr
          | succ fuel ih =>
            intro i u hu r hr
            cases u with
            | nil => simp [rangeStringFrom] at hr
            | cons b u =>
              have hb := hu b (List.mem_cons_self _ _)
              simp only [rangeStringFrom, decodeRune_ascii b u hb, List.drop_succ_cons,
                List.drop_zero, List.mem_cons] at hr
              rcases hr with hr | hr
              · subst hr; exact hb
              · exact ih _ u (fun x hx => hu x (List.mem_cons_of_mem _ hx)) r hr
        refine splitChain_edges _ edge.To edge.Word.length (rangeString edge.Word) ?_ edge.From
          N N1 hN hsplit
        intro r hr p q
        have hr2 := hrunes _ _ _ (hascii state edge hedge2) r hr
        rw [runeToString_ascii r.2 hr2]
        exact ⟨by simp, fun b hb => by simp at hb; subst hb; exact hr2⟩

end

section

open NondeterministicFiniteAutomaton

theorem count_false_le (V W : List Bool) (hlen : V.length = W.length)
    (h : ∀ x : Nat, V[x]? = some true → W[x]? = some true) : W.count false ≤ V.count false := by
  induction V generalizing W with
  | nil =>
    cases W with
    | nil => simp
    | cons _ _ => simp at hlen
  | cons a V ih =>
    cases W with
    | nil => simp at hlen
    | cons b W =>
      have hrest := ih W (by simpa using hlen) (fun x hx => by simpa using h (x + 1) (by simpa using hx))
      have h0 := h 0
      simp only [List.getElem?_cons_zero, Option.some.injEq] at h0
      cases a <;> cases b <;> simp_all [List.count_cons]
      all_goals omega

theorem count_false_set (V : List Bool) (s : Nat) (h : V[s]? = some false) :
    (V.set s true).count false + 1 = V.count false := by
  induction V generalizing s with
  | nil => simp at h
  | cons a V ih =>
    cases s with
    | zero =>
      simp only [List.getElem?_cons_zero, Option.some.injEq] at h
      subst h
      simp [List.count_cons]
    | succ s =>
      have := ih s (by simpa using h)
      cases a <;> simp [List.count_cons] <;> omega

/-- The loop of `dfs` over the edges of a state, given what `dfs` does with
the fuel that is left. -/
theorem visitEdge_loop {σ : Type} (nfa : NondeterministicFiniteAutomaton) (n : Nat)
    (functor : State → σ → Except Panic σ) (I : σ → Prop) (fuel : Nat)
    (hdfs : ∀ state V acc, state < n → V.length = n → V[state]? = some false →
      V.count false < fuel → I acc →
      ∃ V1 acc1 L, dfsEmptyWords nfa functor fuel state (V, acc) = .ok (V1, acc1) ∧
        V1.length = n ∧ I acc1 ∧ forEach functor L acc = .ok acc1 ∧ L.Nodup ∧ state ∈ L ∧
        (∀ x, V1[x]? = some true ↔ (V[x]? = some true ∨ x ∈ L)) ∧
        (∀ x ∈ L, V[x]? = some false) ∧ (∀ x ∈ L, EpsReach nfa state x) ∧
        (∀ a ∈ L, ∀ b, EpsStep nfa a b → V1[b]? = some true))
    (es : List Edge) (hes : ∀ e ∈ es, e.To < n) (V : List Bool) (acc : σ) (hV : V.length = n)
    (hcount : V.count false < fuel) (hacc : I acc) :
    ∃ V1 acc1 L, forEach (visitEdge (dfsEmptyWords nfa functor fuel)) es (V, acc) = .ok (V1, acc1) ∧
      V1.length = n ∧ I acc1 ∧ forEach functor L acc = .ok acc1 ∧ L.Nodup ∧
      (∀ x, V1[x]? = some true ↔ (V[x]? = some true ∨ x ∈ L)) ∧
      (∀ x ∈ L, V[x]? = some false) ∧
      (∀ x ∈ L, ∃ e ∈ es, e.Word = [] ∧ EpsReach nfa e.To x) ∧
      (∀ a ∈ L, ∀ b, EpsStep nfa a b → V1[b]? = some true) ∧
      (∀ e ∈ es, e.Word = [] → V1[e.To]? = some true) := by
  induction es generalizing V acc with
  | nil =>
    exact ⟨V, acc, [], rfl, hV, hacc, rfl, List.nodup_nil, by simp, by simp, by simp, by simp,
      by simp⟩
  | cons e es ih =>
    have hto : e.To < n := hes e (List.mem_cons_self _ _)
    have hes2 : ∀ x ∈ es, x.To < n := fun x hx => hes x (List.mem_cons_of_mem _ hx)
    by_cases hw : e.Word = []
    · have hlt : e.To < V.length := by rw [hV]; exact hto
      cases hb : V[e.To] with
      | true =>
        obtain ⟨V1, acc1, L, hrun, hlen, hI1, hfold, hnd, hvis, hun, hreach, hclosed, hedges⟩ :=
          ih hes2 V acc hV hcount hacc
        refine ⟨V1, acc1, L, ?_, hlen, hI1, hfold, hnd, hvis, hun, ?_, hclosed, ?_⟩
        · simp only [forEach, visitEdge, hw, if_true, List.getElem?_eq_getElem hlt, hb]
          exact hrun
        · intro x hx
          obtain ⟨e1, he1, h1⟩ := hreach x hx
          exact ⟨e1, List.mem_cons_of_mem _ he1, h1⟩
        · intro e1 he1 hw1
          rcases List.mem_cons.mp he1 with h | h
          · subst h
            exact (hvis _).mpr (Or.inl (by simp [List.getElem?_eq_getElem hlt, hb]))
          · exact hedges e1 h hw1
      | false =>
        have hget : V[e.To]? = some false := by simp [List.getElem?_eq_getElem hlt, hb]
        obtain ⟨V1, acc1, L1, hrun1, hlen1, hI1, hfold1, hnd1, hmem1, hvis1, hun1, hreach1,
          hclosed1⟩ := hdfs e.To V acc hto hV hget hcount hacc
        have hcount1 : V1.count false < fuel :=
          Nat.lt_of_le_of_lt (count_false_le V V1 (by rw [hV, hlen1])
            (fun x hx => (hvis1 x).mpr (Or.inl hx))) hcount
        obtain ⟨V2, acc2, L2, hrun2, hlen2, hI2, hfold2, hnd2, hvis2, hun2, hreach2, hclosed2,
          hedges2⟩ := ih hes2 V1 acc1 hlen1 hcount1 hI1
        have hmono : ∀ x, V1[x]? = some true → V2[x]? = some true :=
          fun x hx => (hvis2 x).mpr (Or.inl hx)
        refine ⟨V2, acc2, L1 ++ L2, ?_, hlen2, hI2, ?_, ?_, ?_, ?_, ?_, ?_, ?_⟩
        · simp only [forEach, visitEdge, hw, if_true, hget, hrun1]
          exact hrun2
        · rw [forEach_append, hfold1]; exact hfold2
        · refine List.Nodup.append hnd1 hnd2 ?_
          intro x hx1 hx2
          have h1 := (hvis1 x).mpr (Or.inr hx1)
          have h2 := hun2 x hx2
          rw [h1] at h2
          simp at h2
        · intro x
          rw [hvis2, hvis1, List.mem_append]
          tauto
        · intro x hx
          rcases List.mem_append.mp hx with hx | hx
          · exact hun1 x hx
          · have h2 := hun2 x hx
            have hxlt : x < V.length := by
              have : x < V1.length := by
                by_contra hn
                rw [List.getElem?_eq_none (Nat.le_of_not_lt hn)] at h2
                simp at h2
              rw [hV, ← hlen1]; exact this
            cases hvx : V[x] with
            | false => simp [List.getElem?_eq_getElem hxlt, hvx]
            | true =>
              have := (hvis1 x).mpr (Or.inl (by simp [List.getElem?_eq_getElem hxlt, hvx]))
              rw [this] at h2
              simp at h2
        · intro x hx
          rcases List.mem_append.mp hx with hx | hx
          · exact ⟨e, List.mem_cons_self _ _, hw, hreach1 x hx⟩
          · obtain ⟨e1, he1, h1⟩ := hreach2 x hx
            exact ⟨e1, List.mem_cons_of_mem _ he1, h1⟩
        · intro a ha b hab
          rcases List.mem_append.mp ha with ha | ha
          · exact hmono b (hclosed1 a ha b hab)
          · exact hclosed2 a ha b hab
        · intro e1 he1 hw1
          rcases List.mem_cons.mp he1 with h | h
          · subst h
            exact hmono _ ((hvis1 _).mpr (Or.inr hmem1))
          · exact hedges2 e1 h hw1
    · obtain ⟨V1, acc1, L, hrun, hlen, hI1, hfold, hnd, hvis, hun, hreach, hclosed, hedges⟩ :=
        ih hes2 V acc hV hcount hacc
      refine ⟨V1, acc1, L, ?_, hlen, hI1, hfold, hnd, hvis, hun, ?_, hclosed, ?_⟩
      · simp only [forEach, visitEdge, hw, if_false]
        exact hrun
      · intro x hx
        obtain ⟨e1, he1, h1⟩ := hreach x hx
        exact ⟨e1, List.mem_cons_of_mem _ he1, h1⟩
      · intro e1 he1 hw1
        rcases List.mem_cons.mp he1 with h | h
        · subst h; exact absurd hw1 hw
        · exact hedges e1 h hw1

end

section

open NondeterministicFiniteAutomaton

/-- What the closure `dfs` does when started at an unvisited state with
enough fuel: the functor is run once on each state of a list `L` of states
that were not visited, `L` holds the start, every state of `L` is reached by
epsilon edges, and every epsilon successor of a state of `L` is visited. -/
theorem dfsEmptyWords_spec {σ : Type} (nfa : NondeterministicFiniteAutomaton) (n : Nat)
    (hst : Stored nfa n) (functor : State → σ → Except Panic σ) (I : σ → Prop)
    (hI : ∀ s acc, s < n → I acc → ∃ acc1, functor s acc = .ok acc1 ∧ I acc1) (fuel : Nat) :
    ∀ state V acc, state < n → V.length = n → V[state]? = some false →
      V.count false < fuel → I acc →
      ∃ V1 acc1 L, dfsEmptyWords nfa functor fuel state (V, acc) = .ok (V1, acc1) ∧
        V1.length = n ∧ I acc1 ∧ forEach functor L acc = .ok acc1 ∧ L.Nodup ∧ state ∈ L ∧
        (∀ x, V1[x]? = some true ↔ (V[x]? = some true ∨ x ∈ L)) ∧
        (∀ x ∈ L, V[x]? = some false) ∧ (∀ x ∈ L, EpsReach nfa state x) ∧
        (∀ a ∈ L, ∀ b, EpsStep nfa a b → V1[b]? = some true) := by
  induction fuel with
  | zero => intro state V acc _ _ _ hc; omega
  | succ fuel ih =>
    intro state V acc hs hV hun hcount hacc
    obtain ⟨acc1, hf, hI1⟩ := hI state acc hs hacc
    have hlt : state < V.length := by rw [hV]; exact hs
    have hlt2 : state < nfa.edges.length := by rw [hst.2.1]; exact hs
    have hset := count_false_set V state hun
    obtain ⟨V2, acc2, L2, hrun, hlen2, hI2, hfold, hnd, hvis, hun2, hreach, hclosed, hedges⟩ :=
      visitEdge_loop nfa n functor I fuel ih (nfa.edgesOf state)
        (fun e he => (hst.2.2 state e he).2) (V.set state true) acc1 (by simpa using hV)
        (by omega) hI1
    have hvset : ∀ x, (V.set state true)[x]? = some true ↔ (V[x]? = some true ∨ x = state) := by
      intro x
      rw [List.getElem?_set]
      by_cases hx : state = x
      · subst hx; simp [hlt]
      · simp only [hx, if_false]
        constructor
        · exact Or.inl
        · rintro (h | h)
          · exact h
          · exact absurd h.symm hx
    refine ⟨V2, acc2, state :: L2, ?_, hlen2, hI2, ?_, ?_, List.mem_cons_self _ _, ?_, ?_, ?_, ?_⟩
    · simp only [dfsEmptyWords, hf, hlt, if_true, Edges, edgesOf_of_lt hlt2]
      exact hrun
    · simp only [forEach, hf]; exact hfold
    · refine List.nodup_cons.mpr ⟨?_, hnd⟩
      intro hmem
      have h1 := hun2 state hmem
      rw [(hvset state).mpr (Or.inr rfl)] at h1
      simp at h1
    · intro x
      rw [hvis, hvset, List.mem_cons]
      tauto
    · intro x hx
      rcases List.mem_cons.mp hx with hx | hx
      · subst hx; exact hun
      · have h1 := hun2 x hx
        rw [List.getElem?_set] at h1
        by_cases hxs : state = x
        · subst hxs; simp [hlt] at h1
        · simpa [hxs] using h1
    · intro x hx
      rcases List.mem_cons.mp hx with hx | hx
      · subst hx; exact Relation.ReflTransGen.refl
      · obtain ⟨e, he, hw, hr⟩ := hreach x hx
        exact Relation.ReflTransGen.head ⟨e, he, hw, rfl⟩ hr
    · intro a ha b hab
      rcases List.mem_cons.mp ha with ha | ha
      · subst ha
        obtain ⟨e, he, hw, hto⟩ := hab
        subst hto
        exact hedges e he hw
      · exact hclosed a ha b hab

/-- `iterateOverReachableByEmptyWords` returns and has run the functor once
on each state of the epsilon closure of its start state. -/
theorem iterate_spec {σ : Type} (nfa : NondeterministicFiniteAutomaton) (n : Nat)
    (hst : Stored nfa n) (functor : State → σ → Except Panic σ) (I : σ → Prop)
    (hI : ∀ s acc, s < n → I acc → ∃ acc1, functor s acc = .ok acc1 ∧ I acc1)
    (start : State) (hs : start < n) (acc : σ) (hacc : I acc) :
    ∃ acc1 L, iterateOverReachableByEmptyWords nfa start functor acc = .ok acc1 ∧ I acc1 ∧
      forEach functor L acc = .ok acc1 ∧ L.Nodup ∧ ∀ x, x ∈ L ↔ EpsReach nfa start x := by
  have hcount : nfa.StateCount = n := hst.2.1
  obtain ⟨V1, acc1, L, hrun, _, hI1, hfold, hnd, hmem, hvis, _, hreach, hclosed⟩ :=
    dfsEmptyWords_spec nfa n hst functor I hI (n + 1) start (List.replicate n false) acc hs
      (by simp) (by simp [List.getElem?_replicate, hs])
      (by simp [List.count_replicate]) hacc
  have hvis2 : ∀ x, V1[x]? = some true ↔ x ∈ L := by
    intro x
    rw [hvis]
    constructor
    · rintro (h | h)
      · simp only [List.getElem?_replicate] at h
        split at h <;> simp at h
      · exact h
    · exact Or.inr
  refine ⟨acc1, L, ?_, hI1, hfold, hnd, fun x => ⟨hreach x, ?_⟩⟩
  · simp only [iterateOverReachableByEmptyWords, hcount, hrun]
  · intro h
    induction h with
    | refl => exact hmem
    | tail _ hbc ih => exact (hvis2 _).mp (hclosed _ ih _ hbc)

end

section

open NondeterministicFiniteAutomaton

theorem forEach_foldEdge {n : Nat} (k : State) (hk : k < n) (es : List Edge)
    (hes : ∀ e ∈ es, e.To < n) (acc : NondeterministicFiniteAutomaton) (h : Stored acc n) :
    ∃ acc1, forEach (foldEdge k) es acc = .ok acc1 ∧ Stored acc1 n ∧ acc1.start = acc.start ∧
      acc1.terminals = acc.terminals ∧
      acc1.edgesOf k = acc.edgesOf k ++ foldedEdges k es ∧
      ∀ s, s ≠ k → acc1.edgesOf s = acc.edgesOf s := by
  induction es generalizing acc with
  | nil => exact ⟨acc, rfl, h, rfl, rfl, by simp [foldedEdges], fun _ _ => rfl⟩
  | cons e es ih =>
    have hes2 : ∀ x ∈ es, x.To < n := fun x hx => hes x (List.mem_cons_of_mem _ hx)
    by_cases hw : e.Word = []
    · obtain ⟨acc1, hrun, hst, hstart, hterm, hedges, hother⟩ := ih hes2 acc h
      refine ⟨acc1, by simp only [forEach, foldEdge, hw, ne_eq, not_true, if_false]; exact hrun,
        hst, hstart, hterm, ?_, hother⟩
      rw [hedges]
      simp [foldedEdges, hw]
    · obtain ⟨acc1, hadd, hst1, hstart1, hterm1, hedges1⟩ := AddEdge_stored h
        { From := k, To := e.To, Word := e.Word } hk (hes e (List.mem_cons_self _ _))
      obtain ⟨acc2, hrun, hst, hstart, hterm, hedges, hother⟩ := ih hes2 acc1 hst1
      refine ⟨acc2, ?_, hst, hstart.trans hstart1, hterm.trans hterm1, ?_, ?_⟩
      · simp only [forEach, foldEdge, ne_eq, hw, not_false_eq_true, if_true, hadd]
        exact hrun
      · rw [hedges, hedges1]
        simp [foldedEdges, hw]
      · intro s hs
        rw [hother s hs, hedges1]
        simp [hs]

theorem foldState_spec {n : Nat} (nfa2 : NondeterministicFiniteAutomaton) (h2 : Stored nfa2 n)
    (k : State) (hk : k < n) (t : State) (ht : t < n) (acc : NondeterministicFiniteAutomaton)
    (h : Stored acc n) :
    ∃ acc1, foldState nfa2 k t acc = .ok acc1 ∧ Stored acc1 n ∧ acc1.start = acc.start ∧
      (acc1.terminals[k]? = some true ↔
        (acc.terminals[k]? = some true ∨ nfa2.terminals[t]? = some true)) ∧
      (∀ s, s ≠ k → acc1.terminals[s]? = acc.terminals[s]?) ∧
      acc1.edgesOf k = acc.edgesOf k ++ foldedEdges k (nfa2.edgesOf t) ∧
      ∀ s, s ≠ k → acc1.edgesOf s = acc.edgesOf s := by
  have hlt : t < nfa2.terminals.length := by rw [h2.1]; exact ht
  have hlt2 : t < nfa2.edges.length := by rw [h2.2.1]; exact ht
  have hklt : k < acc.terminals.length := by rw [h.1]; exact hk
  have hes : ∀ e ∈ nfa2.edgesOf t, e.To < n := fun e he => (h2.2.2 t e he).2
  cases hb : nfa2.terminals[t] with
  | false =>
    obtain ⟨acc1, hrun, hst, hstart, hterm, hedges, hother⟩ :=
      forEach_foldEdge k hk (nfa2.edgesOf t) hes acc h
    refine ⟨acc1, ?_, hst, hstart, ?_, ?_, hedges, hother⟩
    · simp only [foldState, IsTerminal, List.getElem?_eq_getElem hlt, hb, Edges,
        edgesOf_of_lt hlt2]
      exact hrun
    · rw [hterm]; simp [List.getElem?_eq_getElem hlt, hb]
    · intro s _; rw [hterm]
  | true =>
    obtain ⟨acc1, hrun, hst, hstart, hterm, hedges, hother⟩ :=
      forEach_foldEdge k hk (nfa2.edgesOf t) hes
        { acc with terminals := acc.terminals.set k true }
        (Stored_terminals h _ (by simp [h.1]))
    refine ⟨acc1, ?_, hst, hstart, ?_, ?_, hedges, hother⟩
    · simp only [foldState, IsTerminal, List.getElem?_eq_getElem hlt, hb, SetTerminal, hklt,
        if_true, Edges, edgesOf_of_lt hlt2]
      exact hrun
    · rw [hterm]; simp [List.getElem?_eq_getElem hlt, hb, hklt]
    · intro s hs; rw [hterm]; simp [List.getElem?_set, Ne.symm hs]

theorem forEach_foldState {n : Nat} (nfa2 : NondeterministicFiniteAutomaton) (h2 : Stored nfa2 n)
    (k : State) (hk : k < n) (L : List State) (hL : ∀ t ∈ L, t < n)
    (acc : NondeterministicFiniteAutomaton) (h : Stored acc n) :
    ∃ acc1, forEach (foldState nfa2 k) L acc = .ok acc1 ∧ Stored acc1 n ∧ acc1.start = acc.start ∧
      (acc1.terminals[k]? = some true ↔
        (acc.terminals[k]? = some true ∨ ∃ t ∈ L, nfa2.terminals[t]? = some true)) ∧
      (∀ s, s ≠ k → acc1.terminals[s]? = acc.terminals[s]?) ∧
      acc1.edgesOf k = acc.edgesOf k ++ L.flatMap (fun t => foldedEdges k (nfa2.edgesOf t)) ∧
      ∀ s, s ≠ k → acc1.edgesOf s = acc.edgesOf s := by
  induction L generalizing acc with
  | nil => exact ⟨acc, rfl, h, rfl, by simp, fun _ _ => rfl, by simp, fun _ _ => rfl⟩
  | cons t L ih =>
    obtain ⟨acc1, hrun1, hst1, hstart1, hterm1, htother1, hedges1, hother1⟩ :=
      foldState_spec nfa2 h2 k hk t (hL t (List.mem_cons_self _ _)) acc h
    obtain ⟨acc2, hrun2, hst2, hstart2, hterm2, htother2, hedges2, hother2⟩ :=
      ih (fun x hx => hL x (List.mem_cons_of_mem _ hx)) acc1 hst1
    refine ⟨acc2, by simp only [forEach, hrun1]; exact hrun2, hst2, hstart2.trans hstart1, ?_, ?_,
      ?_, ?_⟩
    · rw [hterm2, hterm1]
      simp only [List.mem_cons, exists_eq_or_imp]
      tauto
    · intro s hs; rw [htother2 s hs, htother1 s hs]
    · rw [hedges2, hedges1]; simp
    · intro s hs; rw [hother2 s hs, hother1 s hs]

theorem epsReach_lt {nfa2 : NondeterministicFiniteAutomaton} {n : Nat} (h2 : Stored nfa2 n)
    {s t : State} (hs : s < n) (h : EpsReach nfa2 s t) : t < n := by
  induction h with
  | refl => exact hs
  | tail _ hbc _ =>
    obtain ⟨e, he, _, hto⟩ := hbc
    rw [← hto]; exact (h2.2.2 _ e he).2

theorem folded_round {n : Nat} (nfa2 : NondeterministicFiniteAutomaton) (h2 : Stored nfa2 n)
    (k : Nat) (hk : k < n) (nfa3 : NondeterministicFiniteAutomaton) (h : Folded nfa2 n k nfa3) :
    ∃ nfa3a, iterateOverReachableByEmptyWords nfa2 k (foldState nfa2 k) nfa3 = .ok nfa3a ∧
      Folded nfa2 n (k + 1) nfa3a := by
  obtain ⟨hst, hstart, hdone, htodo⟩ := h
  obtain ⟨acc1, L, hrun, _, hfold, hnd, hL⟩ := iterate_spec nfa2 n h2 (foldState nfa2 k)
    (fun m => Stored m n)
    (fun s acc hs hacc => by
      obtain ⟨acc1, hr, hs1, _⟩ := foldState_spec nfa2 h2 k hk s hs acc hacc
      exact ⟨acc1, hr, hs1⟩)
    k hk nfa3 hst
  obtain ⟨acc2, hrun2, hst2, hstart2, hterm2, htother2, hedges2, hother2⟩ :=
    forEach_foldState nfa2 h2 k hk L (fun t ht => epsReach_lt h2 hk ((hL t).mp ht)) nfa3 hst
  have heq : acc2 = acc1 := by
    rw [hrun2] at hfold
    exact Except.ok.inj hfold
  subst heq
  refine ⟨acc2, hrun, hst2, hstart2.trans hstart, ?_, ?_⟩
  · intro s hs
    by_cases hsk : s = k
    · subst hsk
      have htk := htodo s (Nat.le_refl _)
      refine ⟨?_, L, hnd, hL, ?_⟩
      · rw [hterm2]
        constructor
        · rintro (h | ⟨t, ht, htt⟩)
          · exact absurd h htk.1
          · exact ⟨t, (hL t).mp ht, htt⟩
        · rintro ⟨t, ht, htt⟩
          exact Or.inr ⟨t, (hL t).mpr ht, htt⟩
      · rw [hedges2, htk.2, List.nil_append]
    · have hlt : s < k := by omega
      rw [htother2 s hsk, hother2 s hsk]
      exact hdone s hlt
  · intro s hs
    have hsk : s ≠ k := by omega
    rw [htother2 s hsk, hother2 s hsk]
    exact htodo s (by omega)

theorem folded_rounds {n : Nat} (nfa2 : NondeterministicFiniteAutomaton) (h2 : Stored nfa2 n)
    (k : Nat) (hk : k ≤ n) (nfa3 : NondeterministicFiniteAutomaton) (h : Folded nfa2 n 0 nfa3) :
    ∃ nfa3a,
      forEach (fun source m => iterateOverReachableByEmptyWords nfa2 source (foldState nfa2 source) m)
        (List.range k) nfa3 = .ok nfa3a ∧ Folded nfa2 n k nfa3a := by
  induction k with
  | zero => exact ⟨nfa3, rfl, h⟩
  | succ k ih =>
    obtain ⟨nfa3a, hrun, hf⟩ := ih (by omega)
    obtain ⟨nfa3b, hrun2, hf2⟩ := folded_round nfa2 h2 k (by omega) nfa3a hf
    refine ⟨nfa3b, ?_, hf2⟩
    rw [List.range_succ, forEach_append, hrun]
    simp only [forEach, hrun2]

end

section

open NondeterministicFiniteAutomaton

theorem Path.trans {nfa : NondeterministicFiniteAutomaton} {s t u : State} {w1 w2 : List Nat}
    (h1 : Path nfa s w1 t) (h2 : Path nfa t w2 u) : Path nfa s (w1 ++ w2) u := by
  induction h1 with
  | nil s => exact h2
  | cons s e w t he _ ih =>
    rw [List.append_assoc]
    exact Path.cons s e _ _ he (ih h2)

theorem epsReach_path {nfa : NondeterministicFiniteAutomaton} {s t : State}
    (h : EpsReach nfa s t) : Path nfa s [] t := by
  induction h with
  | refl => exact Path.nil s
  | tail _ hbc ih =>
    obtain ⟨e, he, hw, hto⟩ := hbc
    have h1 := Path.cons _ e [] e.To he (Path.nil e.To)
    rw [hw, hto] at h1
    have := Path.trans ih h1
    simpa using this

theorem mem_foldedEdges (source : State) (es : List Edge) (x : Edge) :
    x ∈ foldedEdges source es ↔
      ∃ e ∈ es, e.Word ≠ [] ∧ x = { From := source, To := e.To, Word := e.Word } := by
  simp only [foldedEdges, List.mem_map, List.mem_filter, decide_eq_true_eq]
  constructor
  · rintro ⟨e, ⟨he, hw⟩, rfl⟩; exact ⟨e, he, hw, rfl⟩
  · rintro ⟨e, he, hw, rfl⟩; exact ⟨e, ⟨he, hw⟩, rfl⟩

/-- The edges of a finished state of the folded automaton. -/
theorem folded_edges {n : Nat} {nfa2 nfa3 : NondeterministicFiniteAutomaton}
    (h : Folded nfa2 n n nfa3) (s : State) (hs : s < n) (x : Edge) :
    x ∈ nfa3.edgesOf s ↔
      ∃ t e, EpsReach nfa2 s t ∧ e ∈ nfa2.edgesOf t ∧ e.Word ≠ [] ∧
        x = { From := s, To := e.To, Word := e.Word } := by
  obtain ⟨L, _, hL, hedges⟩ := (h.2.2.1 s hs).2
  rw [hedges, List.mem_flatMap]
  constructor
  · rintro ⟨t, ht, hx⟩
    obtain ⟨e, he, hw, rfl⟩ := (mem_foldedEdges s _ x).mp hx
    exact ⟨t, e, (hL t).mp ht, he, hw, rfl⟩
  · rintro ⟨t, e, ht, he, hw, rfl⟩
    exact ⟨t, (hL t).mpr ht, (mem_foldedEdges s _ _).mpr ⟨e, he, hw, rfl⟩⟩

theorem folded_accepts_of {n : Nat} {nfa2 nfa3 : NondeterministicFiniteAutomaton}
    (h2 : Stored nfa2 n) (h : Folded nfa2 n n nfa3) {s t : State} {w : List Nat}
    (hp : Path nfa3 s w t) (hs : s < n) (ht : nfa3.terminals[t]? = some true) :
    ∃ t1, Path nfa2 s w t1 ∧ nfa2.terminals[t1]? = some true := by
  induction hp with
  | nil s =>
    obtain ⟨t1, hr, ht1⟩ := ((h.2.2.1 s hs).1).mp ht
    exact ⟨t1, epsReach_path hr, ht1⟩
  | cons s x w t hx _ ih =>
    obtain ⟨t0, e, hr, he, _, rfl⟩ := (folded_edges h s hs x).mp hx
    obtain ⟨t1, hp1, ht1⟩ := ih (h2.2.2 t0 e he).2 ht
    refine ⟨t1, ?_, ht1⟩
    have := Path.trans (epsReach_path hr) (Path.cons t0 e w t1 he hp1)
    simpa using this

theorem folded_eps_step {n : Nat} {nfa2 nfa3 : NondeterministicFiniteAutomaton}
    (h2 : Stored nfa2 n) (h : Folded nfa2 n n nfa3) {s u t : State} {w : List Nat}
    (hs : s < n) (hstep : EpsStep nfa2 s u) (hp : Path nfa3 u w t)
    (ht : nfa3.terminals[t]? = some true) :
    ∃ t1, Path nfa3 s w t1 ∧ nfa3.terminals[t1]? = some true := by
  have hu : u < n := by
    obtain ⟨e, he, _, hto⟩ := hstep
    rw [← hto]; exact (h2.2.2 s e he).2
  have hsu : EpsReach nfa2 s u := Relation.ReflTransGen.single hstep
  rcases Path_inv hp with ⟨hw, hut⟩ | ⟨x, w1, hx, hw, hp1⟩
  · subst hw hut
    obtain ⟨t0, hr, ht0⟩ := ((h.2.2.1 u hu).1).mp ht
    exact ⟨s, Path.nil s, ((h.2.2.1 s hs).1).mpr ⟨t0, hsu.trans hr, ht0⟩⟩
  · obtain ⟨t0, e, hr, he, hne, rfl⟩ := (folded_edges h u hu x).mp hx
    subst hw
    refine ⟨t, ?_, ht⟩
    exact Path.cons s { From := s, To := e.To, Word := e.Word } w1 t
      ((folded_edges h s hs _).mpr ⟨t0, e, hsu.trans hr, he, hne, rfl⟩) hp1

theorem folded_accepts_to {n : Nat} {nfa2 nfa3 : NondeterministicFiniteAutomaton}
    (h2 : Stored nfa2 n) (h : Folded nfa2 n n nfa3) {s t : State} {w : List Nat}
    (hp : Path nfa2 s w t) (hs : s < n) (ht : nfa2.terminals[t]? = some true) :
    ∃ t1, Path nfa3 s w t1 ∧ nfa3.terminals[t1]? = some true := by
  induction hp with
  | nil s =>
    exact ⟨s, Path.nil s, ((h.2.2.1 s hs).1).mpr ⟨s, Relation.ReflTransGen.refl, ht⟩⟩
  | cons s e w t he _ ih =>
    obtain ⟨t1, hp1, ht1⟩ := ih (h2.2.2 s e he).2 ht
    by_cases hw : e.Word = []
    · rw [hw, List.nil_append]
      exact folded_eps_step h2 h hs ⟨e, he, hw, rfl⟩ hp1 ht1
    · refine ⟨t1, ?_, ht1⟩
      exact Path.cons s { From := s, To := e.To, Word := e.Word } w t1
        ((folded_edges h s hs _).mpr ⟨s, e, Relation.ReflTransGen.refl, he, hw, rfl⟩) hp1

/-- The automaton that the folding starts from: as many states, none
terminal, no edge. -/
theorem addStates_eq (k : Nat) :
    (List.range k).foldl (fun (m : NondeterministicFiniteAutomaton) _ => m.AddState.1)
      NewNondeterministicFiniteAutomaton =
      { start := 0, terminals := List.replicate k false, edges := List.replicate k [] } := by
  induction k with
  | zero => rfl
  | succ k ih =>
    rw [List.range_succ, List.foldl_append, ih]
    simp [AddState, List.replicate_succ']

/-- Epsilon folding of an automaton that satisfies the representation
invariant: the second half of `ConvertNfaToNfaWithWordsOfLen1` returns an
automaton with the same states and the same language whose edges are the
non-empty edges of the closures. -/
theorem fold_spec {n : Nat} (nfa2 : NondeterministicFiniteAutomaton) (h2 : Stored nfa2 n)
    (hstart : nfa2.start < n) :
    ∃ nfa3,
      forEach (fun source m => iterateOverReachableByEmptyWords nfa2 source (foldState nfa2 source) m)
        (List.range nfa2.StateCount)
        (((List.range nfa2.StateCount).foldl (fun m _ => m.AddState.1)
          NewNondeterministicFiniteAutomaton).SetStart nfa2.Start) = .ok nfa3 ∧
      Folded nfa2 n n nfa3 ∧ ∀ w, nfa3.accepts w ↔ nfa2.accepts w := by
  have hcount : nfa2.StateCount = n := h2.2.1
  rw [hcount, addStates_eq]
  have h0 : Folded nfa2 n 0
      (SetStart { start := 0, terminals := List.replicate n false, edges := List.replicate n [] }
        nfa2.Start) := by
    refine ⟨⟨by simp [SetStart], by simp [SetStart], ?_⟩, rfl, fun s hs => by omega, ?_⟩
    · intro s e he
      simp only [SetStart, edgesOf, List.getD_eq_getElem?_getD, List.getElem?_replicate] at he
      split at he <;> simp at he
    · intro s _
      constructor
      · simp only [SetStart, List.getElem?_replicate]
        split <;> simp
      · simp only [SetStart, edgesOf, List.getD_eq_getElem?_getD, List.getElem?_replicate]
        split <;> simp
  obtain ⟨nfa3, hrun, hf⟩ := folded_rounds nfa2 h2 n (Nat.le_refl _) _ h0
  refine ⟨nfa3, hrun, hf, fun w => ?_⟩
  unfold accepts
  rw [hf.2.1]
  constructor
  · rintro ⟨t, hp, ht⟩; exact folded_accepts_of h2 hf hp hstart ht
  · rintro ⟨t, hp, ht⟩; exact folded_accepts_to h2 hf hp hstart ht

/-- `ConvertNfaToNfaWithWordsOfLen1` on a well-formed NFA whose edge words
are made of bytes below 0x80: the call returns an automaton that satisfies
the representation invariant, has only one-byte words and accepts the same
strings. -/
theorem ConvertNfaToNfaWithWordsOfLen1_spec (nfa1 : NondeterministicFiniteAutomaton)
    (hwf : nfa1.WellFormed) (hascii : AsciiWords nfa1) :
    ∃ nfa3 n, ConvertNfaToNfaWithWordsOfLen1 nfa1 = .ok nfa3 ∧ Stored nfa3 n ∧
      nfa3.start < n ∧ OneByte nfa3 ∧ ∀ w, nfa3.accepts w ↔ nfa1.accepts w := by
  obtain ⟨nfa2, k, hsplit, hst2, hstart2, hterm2, hpaths⟩ :=
    SplitLongWordsInNfa_paths nfa1 hwf hascii
  have hshort := SplitLongWordsInNfa_short nfa1 nfa2 hascii hsplit
  have hs2 : nfa2.start < nfa1.StateCount + k := by
    rw [hstart2]; exact Nat.lt_of_lt_of_le hwf.2.1 (Nat.le_add_right _ _)
  obtain ⟨nfa3, hrun, hf, hacc⟩ := fold_spec nfa2 hst2 hs2
  refine ⟨nfa3, nfa1.StateCount + k, ?_, hf.1, by rw [hf.2.1]; exact hs2, ?_, ?_⟩
  · simp only [ConvertNfaToNfaWithWordsOfLen1, hsplit]
    exact hrun
  · intro s e he
    have hs : s < nfa1.StateCount + k := by
      have := mem_edgesOf_lt he
      rw [hf.1.2.1] at this; exact this
    obtain ⟨t, e2, _, he2, hne, rfl⟩ := (folded_edges hf s hs e).mp he
    have hsh := hshort e2 ((mem_flatten_iff nfa2 e2).mpr ⟨t, he2⟩)
    cases hw : e2.Word with
    | nil => exact absurd hw hne
    | cons c rest =>
      have hrest : rest = [] := by
        have := hsh.1
        rw [hw] at this
        simp only [List.length_cons] at this
        exact List.eq_nil_of_length_eq_zero (by omega)
      subst hrest
      exact ⟨c, hsh.2 c (by rw [hw]; exact List.mem_cons_self _ _), rfl⟩
  · intro w
    rw [hacc w]
    exact accepts_congr nfa1 nfa2 k hwf hstart2 hterm2 hpaths w

/-- `ConvertNfaToNfaWithWordsOfLen1` keeps the language and leaves only
one-byte words: for every well-formed NFA whose edge words are made of bytes
below 0x80 the call returns an automaton that accepts a string if and only if
the given one does, and each of whose edges has a word of length 1. -/
theorem ConvertNfaToNfaWithWordsOfLen1_accepts (nfa1 : NondeterministicFiniteAutomaton)
    (hwf : nfa1.WellFormed) (hascii : AsciiWords nfa1) :
    ∃ nfa3, ConvertNfaToNfaWithWordsOfLen1 nfa1 = .ok nfa3 ∧
      (∀ w, nfa3.accepts w ↔ nfa1.accepts w) ∧
      ∀ s, ∀ e ∈ nfa3.edgesOf s, e.Word.length = 1 := by
  obtain ⟨nfa3, n, hrun, _, _, hone, hacc⟩ := ConvertNfaToNfaWithWordsOfLen1_spec nfa1 hwf hascii
  refine ⟨nfa3, hrun, hacc, fun s e he => ?_⟩
  obtain ⟨c, _, hc⟩ := hone s e he
  rw [hc]; rfl

theorem ConvertNfaToNfaWithWordsOfLen1_accepts_witness :
    ∃ nfa3, ConvertNfaToNfaWithWordsOfLen1 nfaAB = .ok nfa3 ∧
      (∀ w, nfa3.accepts w ↔ nfaAB.accepts w) ∧
      ∀ s, ∀ e ∈ nfa3.edgesOf s, e.Word.length = 1 :=
  ConvertNfaToNfaWithWordsOfLen1_accepts nfaAB nfaAB_wellFormed nfaAB_ascii

end

section

open NondeterministicFiniteAutomaton

theorem metaEdgesMark_keys (n : Nat) (metaEdges : List (Nat × List Bool)) (char : Nat)
    (dest : State) (r : List (Nat × List Bool))
    (h : metaEdgesMark n metaEdges char dest = .ok r) :
    ∀ k, k ∈ r.map Prod.fst ↔ k ∈ metaEdges.map Prod.fst ∨ k = char := by
  induction metaEdges generalizing r with
  | nil =>
    simp only [metaEdgesMark] at h
    split at h
    · simp only [Except.ok.injEq] at h; subst h; simp
    · simp at h
  | cons p rest ih =>
    obtain ⟨k0, v0⟩ := p
    simp only [metaEdgesMark] at h
    split at h
    · rename_i hk
      split at h
      · simp only [Except.ok.injEq] at h; subst h
        intro k; simp only [List.map_cons, List.mem_cons]; rw [hk]; tauto
      · simp at h
    · split at h
      · simp at h
      · rename_i rest1 hrest
        simp only [Except.ok.injEq] at h; subst h
        intro k
        simp only [List.map_cons, List.mem_cons, ih rest1 hrest k]
        tauto

theorem metaEdgesMark_spec (n : Nat) (D : Nat → State → Prop)
    (metaEdges : List (Nat × List Bool)) (hM : MarksOf n D metaEdges) (char : Nat)
    (dest : State) (hdest : dest < n) :
    ∃ r, metaEdgesMark n metaEdges char dest = .ok r ∧
      MarksOf n (fun c u => D c u ∨ (c = char ∧ u = dest)) r := by
  induction metaEdges generalizing D with
  | nil =>
    refine ⟨[(char, (List.replicate n false).set dest true)], by simp [metaEdgesMark, hdest],
      by simp, ?_, ?_⟩
    · intro p hp
      simp only [List.mem_singleton] at hp
      subst hp
      refine ⟨by simp, ⟨dest, Or.inr ⟨rfl, rfl⟩⟩, fun u => ?_⟩
      constructor
      · intro h
        by_cases hu : dest = u
        · exact Or.inr ⟨rfl, hu.symm⟩
        · simp only [List.getElem?_set, List.length_replicate, List.getElem?_replicate, hu,
            if_false] at h
          split at h <;> simp at h
      · rintro (h | ⟨_, h⟩)
        · obtain ⟨v, hv⟩ := hM.2.2 _ _ h
          simp at hv
        · subst h; simp [hdest]
    · intro c u
      rintro (h | ⟨hc, _⟩)
      · obtain ⟨v, hv⟩ := hM.2.2 _ _ h
        simp at hv
      · subst hc; exact ⟨_, List.mem_singleton.mpr rfl⟩
  | cons p rest ih =>
    obtain ⟨k0, v0⟩ := p
    obtain ⟨hnd, hent, hall⟩ := hM
    have hp0 := hent (k0, v0) (List.mem_cons_self _ _)
    simp only [List.map_cons, List.nodup_cons] at hnd
    by_cases hk : k0 = char
    · subst hk
      have hlt : dest < v0.length := by rw [hp0.1]; exact hdest
      refine ⟨(k0, v0.set dest true) :: rest, by simp [metaEdgesMark, hlt], ?_, ?_, ?_⟩
      · simpa using hnd
      · intro p hp
        rcases List.mem_cons.mp hp with hp | hp
        · subst hp
          refine ⟨by simp [hp0.1], ⟨dest, Or.inr ⟨rfl, rfl⟩⟩, fun u => ?_⟩
          simp only [List.getElem?_set]
          by_cases hu : dest = u
          · subst hu; simp [hlt]
          · simp only [hu, if_false, hp0.2.2 u]
            constructor
            · exact Or.inl
            · rintro (h | ⟨_, h⟩)
              · exact h
              · exact absurd h.symm hu
        · have hp1 := hent p (List.mem_cons_of_mem _ hp)
          have hne : p.1 ≠ k0 := by
            intro heq
            exact hnd.1 (heq ▸ List.mem_map_of_mem Prod.fst hp)
          refine ⟨hp1.1, ?_, fun u => ?_⟩
          · obtain ⟨u, hu⟩ := hp1.2.1; exact ⟨u, Or.inl hu⟩
          · rw [hp1.2.2 u]
            constructor
            · exact Or.inl
            · rintro (h | ⟨h, _⟩)
              · exact h
              · exact absurd h hne
      · intro c u
        rintro (h | ⟨hc, _⟩)
        · obtain ⟨v, hv⟩ := hall c u h
          rcases List.mem_cons.mp hv with hv | hv
          · simp only [Prod.mk.injEq] at hv
            exact ⟨v0.set dest true, by rw [hv.1]; exact List.mem_cons_self _ _⟩
          · exact ⟨v, List.mem_cons_of_mem _ hv⟩
        · subst hc; exact ⟨_, List.mem_cons_self _ _⟩
    · have hrestM : MarksOf n (fun c u => D c u ∧ c ≠ k0) rest := by
        refine ⟨hnd.2, ?_, ?_⟩
        · intro p hp
          have hp1 := hent p (List.mem_cons_of_mem _ hp)
          have hne : p.1 ≠ k0 := by
            intro heq
            exact hnd.1 (heq ▸ List.mem_map_of_mem Prod.fst hp)
          refine ⟨hp1.1, ?_, fun u => ?_⟩
          · obtain ⟨u, hu⟩ := hp1.2.1; exact ⟨u, hu, hne⟩
          · rw [hp1.2.2 u]; exact ⟨fun h => ⟨h, hne⟩, fun h => h.1⟩
        · intro c u ⟨h, hne⟩
          obtain ⟨v, hv⟩ := hall c u h
          rcases List.mem_cons.mp hv with hv | hv
          · simp only [Prod.mk.injEq] at hv
            exact absurd hv.1 hne
          · exact ⟨v, hv⟩
      obtain ⟨r, hr, hrM⟩ := ih _ hrestM
      have hkeys := metaEdgesMark_keys n rest char dest r hr
      refine ⟨(k0, v0) :: r, by simp [metaEdgesMark, hk, hr], ?_, ?_, ?_⟩
      · simp only [List.map_cons, List.nodup_cons]
        refine ⟨?_, hrM.1⟩
        intro hmem
        rcases (hkeys k0).mp hmem with h | h
        · exact hnd.1 h
        · exact hk h
      · intro p hp
        rcases List.mem_cons.mp hp with hp | hp
        · subst hp
          refine ⟨hp0.1, ?_, fun u => ?_⟩
          · obtain ⟨u, hu⟩ := hp0.2.1; exact ⟨u, Or.inl hu⟩
          · rw [hp0.2.2 u]
            constructor
            · exact Or.inl
            · rintro (h | ⟨h, _⟩)
              · exact h
              · exact absurd h hk
        · have hp1 := hrM.2.1 p hp
          have hne : p.1 ≠ k0 := by
            intro heq
            have : p.1 ∈ r.map Prod.fst := List.mem_map_of_mem Prod.fst hp
            rcases (hkeys p.1).mp this with h | h
            · exact hnd.1 (heq ▸ h)
            · exact hk (heq ▸ h)
          refine ⟨hp1.1, ?_, fun u => ?_⟩
          · obtain ⟨u, hu⟩ := hp1.2.1
            rcases hu with hu | hu
            · exact ⟨u, Or.inl hu.1⟩
            · exact ⟨u, Or.inr hu⟩
          · rw [hp1.2.2 u]
            constructor
            · rintro (h | h)
              · exact Or.inl h.1
              · exact Or.inr h
            · rintro (h | h)
              · exact Or.inl ⟨h, hne⟩
              · exact Or.inr h
      · intro c u h
        by_cases hc : c = k0
        · subst hc; exact ⟨v0, List.mem_cons_self _ _⟩
        · have : (D c u ∧ c ≠ k0) ∨ (c = char ∧ u = dest) := by
            rcases h with h | h
            · exact Or.inl ⟨h, hc⟩
            · exact Or.inr h
          obtain ⟨v, hv⟩ := hrM.2.2 c u this
          exact ⟨v, List.mem_cons_of_mem _ hv⟩

theorem MarksOf.of_iff {n : Nat} {D E : Nat → State → Prop} {m : List (Nat × List Bool)}
    (h : MarksOf n D m) (hDE : ∀ c u, D c u ↔ E c u) : MarksOf n E m := by
  have : D = E := by funext c u; exact propext (hDE c u)
  rw [← this]; exact h

end

section

open NondeterministicFiniteAutomaton

theorem forEach_metaEdgeStep (n : Nat) (es : List Edge)
    (hes : ∀ e ∈ es, e.To < n ∧ ∃ c, e.Word = [c]) (D : Nat → State → Prop)
    (me : List (Nat × List Bool)) (hme : MarksOf n D me) :
    ∃ me1, forEach (metaEdgeStep n) es me = .ok me1 ∧
      MarksOf n (fun c u => D c u ∨ ∃ e ∈ es, e.Word = [c] ∧ e.To = u) me1 := by
  induction es generalizing D me with
  | nil => exact ⟨me, rfl, hme.of_iff (by simp)⟩
  | cons e es ih =>
    obtain ⟨hto, c, hc⟩ := hes e (List.mem_cons_self _ _)
    obtain ⟨r, hr, hrM⟩ := metaEdgesMark_spec n D me hme c e.To hto
    obtain ⟨me1, hrun, hM1⟩ := ih (fun x hx => hes x (List.mem_cons_of_mem _ hx)) _ r hrM
    refine ⟨me1, by simp only [forEach, metaEdgeStep, hc, hr]; exact hrun, hM1.of_iff ?_⟩
    intro c1 u
    simp only [List.mem_cons, exists_eq_or_imp, hc, List.cons.injEq, and_true]
    constructor
    · rintro ((h | ⟨h1, h2⟩) | h)
      · exact Or.inl h
      · exact Or.inr (Or.inl ⟨h1.symm, h2.symm⟩)
      · exact Or.inr (Or.inr h)
    · rintro (h | ⟨h1, h2⟩ | h)
      · exact Or.inl (Or.inl h)
      · exact Or.inl (Or.inr ⟨h1.symm, h2.symm⟩)
      · exact Or.inr h

/-- The loop of `dfs` over the members of a set: the terminal flag of the
DFA state `id` is set if a member is terminal, nothing else of the DFA
changes, and `metaEdges` gets the destinations of the members' edges. -/
theorem forEach_metaStateStep (nfa2 : NondeterministicFiniteAutomaton) (n : Nat)
    (h2 : Stored nfa2 n) (h1 : OneByte nfa2) (id : State) (ps : List (Nat × Bool))
    (hps : ∀ p ∈ ps, p.1 < n) (dfa : DeterministicFiniteAutomaton)
    (hid : id < dfa.terminals.length) (D : Nat → State → Prop)
    (me : List (Nat × List Bool)) (hme : MarksOf n D me) :
    ∃ dfa1 me1, forEach (metaStateStep nfa2 id) ps (dfa, me) = .ok (dfa1, me1) ∧
      dfa1.edges = dfa.edges ∧ dfa1.start = dfa.start ∧
      dfa1.terminals.length = dfa.terminals.length ∧
      (∀ j, j ≠ id → dfa1.terminals[j]? = dfa.terminals[j]?) ∧
      (dfa1.terminals[id]? = some true ↔ (dfa.terminals[id]? = some true ∨
        ∃ p ∈ ps, p.2 = true ∧ nfa2.terminals[p.1]? = some true)) ∧
      MarksOf n (fun c u => D c u ∨
        ∃ p ∈ ps, p.2 = true ∧ ∃ e ∈ nfa2.edgesOf p.1, e.Word = [c] ∧ e.To = u) me1 := by
  induction ps generalizing dfa D me with
  | nil =>
    exact ⟨dfa, me, rfl, rfl, rfl, rfl, fun _ _ => rfl, by simp, hme.of_iff (by simp)⟩
  | cons p ps ih =>
    obtain ⟨s, b⟩ := p
    have hs : s < n := hps (s, b) (List.mem_cons_self _ _)
    have hps2 : ∀ p ∈ ps, p.1 < n := fun p hp => hps p (List.mem_cons_of_mem _ hp)
    cases b with
    | false =>
      obtain ⟨dfa1, me1, hrun, hedges, hstart, hlen, hother, hterm, hM⟩ := ih hps2 dfa hid D me hme
      refine ⟨dfa1, me1, by simp only [forEach, metaStateStep, Bool.not_false, if_true]; exact hrun,
        hedges, hstart, hlen, hother, ?_, hM.of_iff ?_⟩
      · rw [hterm]; simp
      · intro c u; simp
    | true =>
      have hlt : s < nfa2.terminals.length := by rw [h2.1]; exact hs
      have hlt2 : s < nfa2.edges.length := by rw [h2.2.1]; exact hs
      obtain ⟨me1, hrun1, hM1⟩ := forEach_metaEdgeStep n (nfa2.edgesOf s)
        (fun e he => ⟨(h2.2.2 s e he).2, by
          obtain ⟨c, _, hc⟩ := h1 s e he
          exact ⟨c, hc⟩⟩) D me hme
      have hcount : nfa2.StateCount = n := h2.2.1
      cases hb : nfa2.terminals[s] with
      | false =>
        obtain ⟨dfa2, me2, hrun, hedges, hstart, hlen, hother, hterm, hM⟩ :=
          ih hps2 dfa hid _ me1 hM1
        refine ⟨dfa2, me2, ?_, hedges, hstart, hlen, hother, ?_, hM.of_iff ?_⟩
        · simp only [forEach, metaStateStep, Bool.not_true, Bool.false_eq_true, if_false,
            IsTerminal, List.getElem?_eq_getElem hlt, hb, Edges, edgesOf_of_lt hlt2, hcount, hrun1]
          exact hrun
        · rw [hterm]
          simp [List.getElem?_eq_getElem hlt, hb]
        · intro c u
          simp only [List.mem_cons, exists_eq_or_imp, true_and]
          exact or_assoc
      | true =>
        have hidlt : id < (dfa.terminals.set id true).length := by simpa using hid
        obtain ⟨dfa2, me2, hrun, hedges, hstart, hlen, hother, hterm, hM⟩ :=
          ih hps2 { dfa with terminals := dfa.terminals.set id true } hidlt _ me1 hM1
        have hedges2 : dfa2.edges = dfa.edges := hedges
        have hstart2 : dfa2.start = dfa.start := hstart
        have hlen2 : dfa2.terminals.length = dfa.terminals.length := by
          rw [hlen]; exact List.length_set _ _ _
        have hother2 : ∀ j, j ≠ id → dfa2.terminals[j]? = (dfa.terminals.set id true)[j]? := hother
        have hterm2 : dfa2.terminals[id]? = some true ↔ ((dfa.terminals.set id true)[id]? = some true ∨
            ∃ p ∈ ps, p.2 = true ∧ nfa2.terminals[p.1]? = some true) := hterm
        clear hedges hstart hlen hother hterm
        refine ⟨dfa2, me2, ?_, hedges2, hstart2, hlen2, ?_, ?_, hM.of_iff ?_⟩
        · simp only [forEach, metaStateStep, Bool.not_true, Bool.false_eq_true, if_false,
            IsTerminal, List.getElem?_eq_getElem hlt, hb, if_true,
            DeterministicFiniteAutomaton.SetTerminal, hid, Edges, edgesOf_of_lt hlt2, hcount,
            hrun1]
          exact hrun
        · intro j hj
          rw [hother2 j hj]
          simp [List.getElem?_set, Ne.symm hj]
        · rw [hterm2]
          simp [List.getElem?_eq_getElem hlt, hb, hid]
        · intro c u
          simp only [List.mem_cons, exists_eq_or_imp, true_and]
          exact or_assoc

end

section

open NondeterministicFiniteAutomaton

theorem metaReach_length {nfa2 : NondeterministicFiniteAutomaton} {n : Nat} {M : List Bool}
    (h : MetaReach nfa2 n M) : M.length = n := by
  cases h with
  | start => simp
  | step M c M1 _ h1 => exact h1.1

theorem vectors_length_le (n : Nat) (L : List (List Bool)) (hnd : L.Nodup)
    (hlen : ∀ v ∈ L, v.length = n) : L.length ≤ 2 ^ n := by
  have hcard : Fintype.card (Mathlib.Vector Bool n) = 2 ^ n := by
    rw [card_vector]; simp
  let f : {v // v ∈ L} → Mathlib.Vector Bool n := fun v => ⟨v.1, hlen v.1 v.2⟩
  have hinj : Function.Injective f := by
    intro a b hab
    have : (f a).1 = (f b).1 := congrArg Subtype.val hab
    exact Subtype.ext this
  have h1 : (L.attach.map f).Nodup := (List.nodup_attach.mpr hnd).map hinj
  have h2 := List.Nodup.length_le_card h1
  rw [hcard] at h2
  simpa using h2

theorem mapGet_mem {β : Type} (l : List (Nat × β)) (k : Nat) (v : β)
    (h : mapGet l k = some v) : (k, v) ∈ l := by
  induction l with
  | nil => simp [mapGet] at h
  | cons p l ih =>
    obtain ⟨k0, v0⟩ := p
    simp only [mapGet] at h
    split at h
    · rename_i hk
      simp only [Option.some.injEq] at h
      subst hk h
      exact List.mem_cons_self _ _
    · exact List.mem_cons_of_mem _ (ih h)

theorem mapGet_none {β : Type} (l : List (Nat × β)) (k : Nat) (h : mapGet l k = none) :
    ∀ v, (k, v) ∉ l := by
  induction l with
  | nil => simp
  | cons p l ih =>
    obtain ⟨k0, v0⟩ := p
    simp only [mapGet] at h
    split at h
    · simp at h
    · rename_i hk
      intro v hv
      rcases List.mem_cons.mp hv with hv | hv
      · simp only [Prod.mk.injEq] at hv
        exact hk hv.1.symm
      · exact ih h v hv

theorem Complete.grow {nfa2 : NondeterministicFiniteAutomaton} {n : Nat}
    {ex ex1 : Exploration} {ms : MetaState} (h : Complete nfa2 n ex ms)
    (hsame : Same ms.id ex ex1) (hgrow : ∀ p ∈ ex.metaStates, p ∈ ex1.metaStates) :
    Complete nfa2 n ex1 ms := by
  have hstep : ∀ c, ex1.dfa.step ms.id c = ex.dfa.step ms.id c := by
    intro c
    simp only [DeterministicFiniteAutomaton.step, hsame.2]
  refine ⟨?_, fun c => ⟨?_, ?_⟩⟩
  · rw [hsame.1]; exact h.1
  · intro hc
    obtain ⟨p, hp, hs, hst⟩ := (h.2 c).1 hc
    exact ⟨p, hgrow p hp, hs, by rw [hstep]; exact hst⟩
  · intro hc
    rw [hstep]; exact (h.2 c).2 hc

end

section

open NondeterministicFiniteAutomaton

/-- The loop of `dfs` over the successor sets, given what `dfs` does with
the fuel that is left. -/
theorem exploreEdge_loop (nfa2 : NondeterministicFiniteAutomaton) (n : Nat) (fuel : Nat)
    (hdfs : ∀ M ex, ExInv nfa2 n ex → MetaReach nfa2 n M →
      2 ^ n < fuel + ex.metaStates.length →
      ∃ ex1 id, dfsMeta nfa2 fuel M ex = .ok (ex1, id) ∧ DfsPost nfa2 n M ex ex1 id)
    (id : State) (rest : List (Nat × List Bool)) (hkeys : (rest.map Prod.fst).Nodup)
    (hrest : ∀ p ∈ rest, p.1 < 128 ∧ MetaReach nfa2 n p.2)
    (ex : Exploration) (hinv : ExInv nfa2 n ex) (hid : id < ex.dfa.edges.length)
    (hfuel : 2 ^ n < fuel + ex.metaStates.length) :
    ∃ ex2, forEach (exploreEdge (dfsMeta nfa2 fuel) id) rest ex = .ok ex2 ∧ ExInv nfa2 n ex2 ∧
      (∀ p ∈ ex.metaStates, p ∈ ex2.metaStates) ∧
      ex.metaStates.length ≤ ex2.metaStates.length ∧
      ex.dfa.edges.length ≤ ex2.dfa.edges.length ∧ ex2.dfa.start = ex.dfa.start ∧
      (∀ j, j < ex.dfa.edges.length → j ≠ id → Same j ex ex2) ∧
      ex2.dfa.terminals[id]? = ex.dfa.terminals[id]? ∧
      (∀ p ∈ rest, ∃ q ∈ ex2.metaStates, q.2.states = p.2 ∧ ex2.dfa.step id p.1 = some q.2.id) ∧
      (∀ c, c ∉ rest.map Prod.fst → ex2.dfa.step id c = ex.dfa.step id c) ∧
      ∀ p ∈ ex2.metaStates,
        p ∈ ex.metaStates ∨ (ex.dfa.edges.length ≤ p.2.id ∧ Complete nfa2 n ex2 p.2) := by
  induction rest generalizing ex with
  | nil =>
    exact ⟨ex, rfl, hinv, fun _ h => h, Nat.le_refl _, Nat.le_refl _, rfl,
      fun _ _ _ => ⟨rfl, rfl⟩, rfl, fun _ h => absurd h (List.not_mem_nil _), fun _ _ => rfl,
      fun _ h => Or.inl h⟩
  | cons p rest ih =>
    obtain ⟨c, v⟩ := p
    have hp := hrest (c, v) (List.mem_cons_self _ _)
    simp only [List.map_cons, List.nodup_cons] at hkeys
    obtain ⟨ex1, idTo, hrun1, hinv1, hgrow1, hlen1, hcount1, hstart1, hsame1, hentry1, _,
      hnew1⟩ := hdfs v ex hinv hp.2 hfuel
    have hid1 : id < ex1.dfa.edges.length := Nat.lt_of_lt_of_le hid hcount1
    -- the edge from `id` to the DFA state of the successor
    let dfa1 : DeterministicFiniteAutomaton :=
      { ex1.dfa with edges := ex1.dfa.edges.set id (mapSet ex1.dfa.edges[id] c idTo) }
    have hadd : ex1.dfa.AddEdge { From := id, To := idTo, Word := runeToString c } = .ok dfa1 := by
      simp only [DeterministicFiniteAutomaton.AddEdge, runeToString_ascii c hp.1,
        List.getElem?_eq_getElem hid1]
    have hinv1a : ExInv nfa2 n { ex1 with dfa := dfa1 } := by
      refine ⟨by simpa [dfa1] using hinv1.1, ?_, hinv1.2.2⟩
      intro q hq
      have := hinv1.2.1 q hq
      exact ⟨this.1, this.2.1, by simpa [dfa1] using this.2.2⟩
    have hsameAdd : ∀ j, j ≠ id → Same j ex1 { ex1 with dfa := dfa1 } := by
      intro j hj
      refine ⟨rfl, ?_⟩
      simp [dfa1, List.getElem?_set, Ne.symm hj]
    have hstepAdd : ∀ c1, DeterministicFiniteAutomaton.step dfa1 id c1 =
        if c1 = c then some idTo else ex1.dfa.step id c1 := by
      intro c1
      simp only [DeterministicFiniteAutomaton.step, dfa1, List.getElem?_set, hid1, if_true,
        mapSet, List.getElem?_eq_getElem hid1]
    obtain ⟨ex2, hrun2, hinv2, hgrow2, hlen2, hcount2, hstart2, hsame2, hterm2, hedges2, hkeep2,
      hnew2⟩ := ih hkeys.2 (fun q hq => hrest q (List.mem_cons_of_mem _ hq))
        { ex1 with dfa := dfa1 } hinv1a (by simpa [dfa1] using hid1)
        (by
          have : ex.metaStates.length ≤ ex1.metaStates.length := hlen1
          show 2 ^ n < fuel + ex1.metaStates.length
          omega)
    have hcount2a : ex1.dfa.edges.length ≤ ex2.dfa.edges.length := by
      simpa [dfa1] using hcount2
    refine ⟨ex2, ?_, hinv2, fun q hq => hgrow2 q (hgrow1 q hq), Nat.le_trans hlen1 hlen2,
      Nat.le_trans hcount1 hcount2a, ?_, ?_, ?_, ?_, ?_, ?_⟩
    · simp only [forEach, exploreEdge, hrun1, hadd]
      exact hrun2
    · rw [hstart2]; exact hstart1
    · intro j hj hne
      have h1 := hsame1 j hj
      have h2 := hsameAdd j hne
      have h3 := hsame2 j (by simpa [dfa1] using Nat.lt_of_lt_of_le hj hcount1) hne
      exact ⟨h3.1.trans (h2.1.trans h1.1), h3.2.trans (h2.2.trans h1.2)⟩
    · rw [hterm2]
      exact (hsame1 id hid).1
    · intro q hq
      rcases List.mem_cons.mp hq with hq | hq
      · subst hq
        obtain ⟨r, hr, hrs, hrid⟩ := hentry1
        refine ⟨r, hgrow2 r hr, hrs, ?_⟩
        rw [hkeep2 c hkeys.1]
        show DeterministicFiniteAutomaton.step dfa1 id c = _
        rw [hstepAdd, if_pos rfl, hrid]
      · exact hedges2 q hq
    · intro c1 hc1
      simp only [List.map_cons, List.mem_cons, not_or] at hc1
      rw [hkeep2 c1 hc1.2]
      show DeterministicFiniteAutomaton.step dfa1 id c1 = _
      rw [hstepAdd, if_neg hc1.1]
      simp only [DeterministicFiniteAutomaton.step, (hsame1 id hid).2]
    · intro q hq
      rcases hnew2 q hq with h | ⟨h, hc⟩
      · rcases hnew1 q h with h1 | ⟨h1, hc1⟩
        · exact Or.inl h1
        · refine Or.inr ⟨h1, ?_⟩
          have hqid : q.2.id ≠ id := Nat.ne_of_gt (Nat.lt_of_lt_of_le hid h1)
          have hqlt : q.2.id < ex1.dfa.edges.length := (hinv1.2.1 q h).2.2
          have hcA : Complete nfa2 n { ex1 with dfa := dfa1 } q.2 :=
            hc1.grow (hsameAdd _ hqid) (fun r hr => hr)
          exact hcA.grow (hsame2 _ (by simpa [dfa1] using hqlt) hqid) hgrow2
      · exact Or.inr ⟨Nat.le_trans hcount1 (by simpa [dfa1] using h), hc⟩

end

section

open NondeterministicFiniteAutomaton

theorem mem_enum_iff (M : List Bool) (s : Nat) (b : Bool) :
    (s, b) ∈ M.enum ↔ M[s]? = some b := by
  rw [List.mk_mem_enum_iff_getElem?]

/-- The closure `dfs` of `ConvertNfaToDfa`, when no two reached sets share a
hash and the fuel outnumbers the sets not yet stored. -/
theorem dfsMeta_spec (nfa2 : NondeterministicFiniteAutomaton) (n : Nat) (h2 : Stored nfa2 n)
    (h1 : OneByte nfa2) (hnc : NoCollision nfa2 n) (fuel : Nat) :
    ∀ M ex, ExInv nfa2 n ex → MetaReach nfa2 n M → 2 ^ n < fuel + ex.metaStates.length →
      ∃ ex1 id, dfsMeta nfa2 fuel M ex = .ok (ex1, id) ∧ DfsPost nfa2 n M ex ex1 id := by
  induction fuel with
  | zero =>
    intro M ex hinv _ hfuel
    have hle := vectors_length_le n (ex.metaStates.map fun p => p.2.states) hinv.2.2
      (by
        intro v hv
        obtain ⟨p, hp, rfl⟩ := List.mem_map.mp hv
        exact metaReach_length (hinv.2.1 p hp).2.1)
    simp only [List.length_map] at hle
    omega
  | succ fuel ih =>
    intro M ex hinv hM hfuel
    have hMlen : M.length = n := metaReach_length hM
    cases hget : mapGet ex.metaStates (hashOf M) with
    | some ms =>
      have hmem := mapGet_mem _ _ _ hget
      have hp := hinv.2.1 _ hmem
      have hstates : ms.states = M := hnc _ _ hp.2.1 hM hp.1.symm
      refine ⟨ex, ms.id, ?_, hinv, fun _ h => h, Nat.le_refl _, Nat.le_refl _, rfl,
        fun _ _ => ⟨rfl, rfl⟩, ⟨_, hmem, hstates, rfl⟩, (fun h => by rw [hget] at h; cases h),
        fun _ h => Or.inl h⟩
      simp only [dfsMeta]
      have : mapGet ex.metaStates (MetaState.calcHash { states := M, id := 0 }) = some ms := hget
      rw [this]
    | none =>
      -- the new DFA state
      have hN : ex.dfa.AddState.2 = ex.dfa.edges.length := by
        simp [DeterministicFiniteAutomaton.AddState, DeterministicFiniteAutomaton.StateCount]
      have hlenT : ex.dfa.edges.length < ex.dfa.AddState.1.terminals.length := by
        simp [DeterministicFiniteAutomaton.AddState, hinv.1]
      obtain ⟨dfa2, me, hcollect, hedges2, hstart2, hlen2, hother2, hterm2, hmarks⟩ :=
        forEach_metaStateStep nfa2 n h2 h1 ex.dfa.edges.length M.enum
          (by
            intro p hp
            have := (mem_enum_iff M p.1 p.2).mp hp
            have hlt : p.1 < M.length := by
              by_contra hn
              rw [List.getElem?_eq_none (Nat.le_of_not_lt hn)] at this
              simp at this
            rw [← hMlen]; exact hlt)
          ex.dfa.AddState.1 hlenT (fun _ _ => False) []
          ⟨by simp, by simp, by simp⟩
      have hmarks2 : MarksOf n (SuccOn nfa2 M) me := by
        refine hmarks.of_iff ?_
        intro c u
        simp only [false_or, SuccOn]
        constructor
        · rintro ⟨p, hp, hb, e, he, hw, hto⟩
          refine ⟨p.1, e, ?_, he, hw, hto⟩
          have := (mem_enum_iff M p.1 p.2).mp hp
          rw [hb] at this; exact this
        · rintro ⟨s, e, hs, he, hw, hto⟩
          exact ⟨(s, true), (mem_enum_iff M s true).mpr hs, rfl, e, he, hw, hto⟩
      -- the exploration when the loop over the successors starts
      have hinvF : ExInv nfa2 n
          { dfa := dfa2,
            metaStates := (hashOf M, { states := M, id := ex.dfa.edges.length }) :: ex.metaStates } := by
        refine ⟨?_, ?_, ?_⟩
        · simp [hlen2, hedges2, DeterministicFiniteAutomaton.AddState, hinv.1]
        · intro p hp
          rcases List.mem_cons.mp hp with hp | hp
          · subst hp
            exact ⟨rfl, hM, by simp [hedges2, DeterministicFiniteAutomaton.AddState]⟩
          · have := hinv.2.1 p hp
            exact ⟨this.1, this.2.1, by
              simp only [hedges2, DeterministicFiniteAutomaton.AddState, List.length_append,
                List.length_singleton]
              exact Nat.lt_succ_of_lt this.2.2⟩
        · simp only [List.map_cons, List.nodup_cons]
          refine ⟨?_, hinv.2.2⟩
          intro hmem
          obtain ⟨p, hp, hps⟩ := List.mem_map.mp hmem
          have := (hinv.2.1 p hp).1
          rw [hps] at this
          exact mapGet_none _ _ hget p.2 (by rw [← this]; exact hp)
      have hidF : ex.dfa.edges.length < dfa2.edges.length := by
        simp [hedges2, DeterministicFiniteAutomaton.AddState]
      obtain ⟨ex3, hrun3, hinv3, hgrow3, hlen3, hcount3, hstart3, hsame3, hterm3, hedges3, hkeep3,
        hnew3⟩ := exploreEdge_loop nfa2 n fuel ih ex.dfa.edges.length me hmarks2.1
          (by
            intro p hp
            obtain ⟨hl, ⟨u, s, e, hs, he, hw, hto⟩, hiff⟩ := hmarks2.2.1 p hp
            obtain ⟨c, hc, hwc⟩ := h1 s e he
            rw [hw] at hwc
            simp only [List.cons.injEq, and_true] at hwc
            exact ⟨hwc ▸ hc, MetaReach.step M p.1 p.2 hM ⟨hl, ⟨u, s, e, hs, he, hw, hto⟩, hiff⟩⟩)
          { dfa := dfa2,
            metaStates := (hashOf M, { states := M, id := ex.dfa.edges.length }) :: ex.metaStates }
          hinvF hidF
          (by simp only [List.length_cons]; omega)
      have hsameF : ∀ j, j < ex.dfa.edges.length → Same j ex
          { dfa := dfa2,
            metaStates := (hashOf M, { states := M, id := ex.dfa.edges.length }) :: ex.metaStates } := by
        intro j hj
        refine ⟨?_, ?_⟩
        · show dfa2.terminals[j]? = ex.dfa.terminals[j]?
          rw [hother2 j (Nat.ne_of_lt hj)]
          simp only [DeterministicFiniteAutomaton.AddState]
          rw [List.getElem?_append_left (by rw [hinv.1]; exact hj)]
        · show dfa2.edges[j]? = ex.dfa.edges[j]?
          rw [hedges2]
          simp only [DeterministicFiniteAutomaton.AddState]
          rw [List.getElem?_append_left hj]
      refine ⟨ex3, ex.dfa.edges.length, ?_, hinv3,
        fun p hp => hgrow3 p (List.mem_cons_of_mem _ hp), ?_, ?_, ?_, ?_, ?_, fun _ => rfl, ?_⟩
      · simp only [dfsMeta]
        have hget2 : mapGet ex.metaStates (MetaState.calcHash { states := M, id := 0 }) = none :=
          hget
        rw [hget2]
        simp only [hN, hcollect]
        have hrun3a : forEach (exploreEdge (dfsMeta nfa2 fuel) ex.dfa.edges.length) me
            { dfa := dfa2,
              metaStates := (MetaState.calcHash { states := M, id := 0 },
                { states := M, id := ex.dfa.edges.length }) :: ex.metaStates } = .ok ex3 := hrun3
        rw [hrun3a]
      · have : ex.metaStates.length + 1 ≤ ex3.metaStates.length := by
          simpa using hlen3
        omega
      · exact Nat.le_trans (Nat.le_of_lt hidF) hcount3
      · rw [hstart3]; show dfa2.start = _; rw [hstart2]; rfl
      · intro j hj
        have hA := hsameF j hj
        have hB := hsame3 j (Nat.lt_trans hj hidF) (Nat.ne_of_lt hj)
        exact ⟨hB.1.trans hA.1, hB.2.trans hA.2⟩
      · exact ⟨_, hgrow3 _ (List.mem_cons_self _ _), rfl, rfl⟩
      · intro p hp
        rcases hnew3 p hp with h | ⟨h, hc⟩
        · rcases List.mem_cons.mp h with h | h
          · subst h
            refine Or.inr ⟨Nat.le_refl _, ?_, fun c => ⟨?_, ?_⟩⟩
            · show ex3.dfa.terminals[ex.dfa.edges.length]? = some true ↔ _
              rw [hterm3]
              show dfa2.terminals[ex.dfa.edges.length]? = some true ↔ _
              rw [hterm2]
              have hfresh : ex.dfa.AddState.1.terminals[ex.dfa.edges.length]? = some false := by
                simp only [DeterministicFiniteAutomaton.AddState]
                rw [List.getElem?_append_right (by rw [hinv.1])]
                simp [hinv.1]
              rw [hfresh]
              constructor
              · rintro (h | ⟨p, hp, hb, ht⟩)
                · simp at h
                · refine ⟨p.1, ?_, ht⟩
                  have := (mem_enum_iff M p.1 p.2).mp hp
                  rw [hb] at this; exact this
              · rintro ⟨s, hs, ht⟩
                exact Or.inr ⟨(s, true), (mem_enum_iff M s true).mpr hs, rfl, ht⟩
            · rintro ⟨u, hu⟩
              obtain ⟨v, hv⟩ := hmarks2.2.2 c u hu
              obtain ⟨q, hq, hqs, hqstep⟩ := hedges3 (c, v) hv
              have hvM := hmarks2.2.1 (c, v) hv
              exact ⟨q, hq, by rw [hqs]; exact hvM, hqstep⟩
            · intro hno
              have hnotkey : c ∉ me.map Prod.fst := by
                intro hmem
                obtain ⟨p, hp, hpc⟩ := List.mem_map.mp hmem
                have := (hmarks2.2.1 p hp).2.1
                rw [hpc] at this
                exact hno this
              show ex3.dfa.step ex.dfa.edges.length c = none
              rw [hkeep3 c hnotkey]
              simp only [DeterministicFiniteAutomaton.step, hedges2,
                DeterministicFiniteAutomaton.AddState]
              rw [List.getElem?_append_right (Nat.le_refl _)]
              simp [emptyMap]
          · exact Or.inl h
        · exact Or.inr ⟨Nat.le_of_lt (Nat.lt_of_lt_of_le hidF h), hc⟩

end

section

open NondeterministicFiniteAutomaton

theorem oneByte_path_nil {nfa2 : NondeterministicFiniteAutomaton} (h1 : OneByte nfa2)
    {s t : State} (h : Path nfa2 s [] t) : s = t := by
  rcases Path_inv h with ⟨_, h⟩ | ⟨e, w1, he, hw, _⟩
  · exact h
  · obtain ⟨c, _, hc⟩ := h1 s e he
    rw [hc] at hw
    simp at hw

theorem oneByte_path_cons {nfa2 : NondeterministicFiniteAutomaton} (h1 : OneByte nfa2)
    {s t : State} {c : Nat} {w : List Nat} :
    Path nfa2 s (c :: w) t ↔ ∃ e ∈ nfa2.edgesOf s, e.Word = [c] ∧ Path nfa2 e.To w t := by
  constructor
  · intro h
    rcases Path_inv h with ⟨h, _⟩ | ⟨e, w1, he, hw, hp⟩
    · simp at h
    · obtain ⟨c1, _, hc⟩ := h1 s e he
      rw [hc] at hw
      simp only [List.singleton_append, List.cons.injEq] at hw
      obtain ⟨rfl, rfl⟩ := hw
      exact ⟨e, he, hc, hp⟩
  · rintro ⟨e, he, hw, hp⟩
    have := Path.cons s e w t he hp
    rw [hw] at this
    simpa using this

theorem accFrom_nil {nfa2 : NondeterministicFiniteAutomaton} (h1 : OneByte nfa2)
    (M : List Bool) :
    AccFrom nfa2 M [] ↔ ∃ s : Nat, M[s]? = some true ∧ nfa2.terminals[s]? = some true := by
  constructor
  · rintro ⟨s, t, hs, hp, ht⟩
    have := oneByte_path_nil h1 hp
    subst this
    exact ⟨s, hs, ht⟩
  · rintro ⟨s, hs, ht⟩
    exact ⟨s, s, hs, Path.nil s, ht⟩

theorem accFrom_cons {nfa2 : NondeterministicFiniteAutomaton} {n : Nat} (h1 : OneByte nfa2)
    (M M1 : List Bool) (c : Nat) (w : List Nat) (hs : IsSucc nfa2 n M c M1) :
    AccFrom nfa2 M (c :: w) ↔ AccFrom nfa2 M1 w := by
  constructor
  · rintro ⟨s, t, hm, hp, ht⟩
    obtain ⟨e, he, hw, hp1⟩ := (oneByte_path_cons h1).mp hp
    exact ⟨e.To, t, (hs.2.2 e.To).mpr ⟨s, e, hm, he, hw, rfl⟩, hp1, ht⟩
  · rintro ⟨u, t, hm, hp, ht⟩
    obtain ⟨s, e, hsm, he, hw, hto⟩ := (hs.2.2 u).mp hm
    subst hto
    exact ⟨s, t, hsm, (oneByte_path_cons h1).mpr ⟨e, he, hw, hp⟩, ht⟩

theorem accFrom_no_succ {nfa2 : NondeterministicFiniteAutomaton} (h1 : OneByte nfa2)
    (M : List Bool) (c : Nat) (w : List Nat) (hno : ¬ ∃ u, SuccOn nfa2 M c u) :
    ¬ AccFrom nfa2 M (c :: w) := by
  rintro ⟨s, t, hm, hp, _⟩
  obtain ⟨e, he, hw, _⟩ := (oneByte_path_cons h1).mp hp
  exact hno ⟨e.To, s, e, hm, he, hw, rfl⟩

/-- When every stored set is finished, the DFA's path from the DFA state of
a stored set ends in a terminal state exactly for the strings that some
member of the set accepts. -/
theorem explored_simulation (nfa2 : NondeterministicFiniteAutomaton) (n : Nat)
    (h1 : OneByte nfa2) (ex : Exploration)
    (hall : ∀ p ∈ ex.metaStates, Complete nfa2 n ex p.2) (w : List Nat) :
    ∀ p ∈ ex.metaStates,
      ((∃ t, ex.dfa.run p.2.id w = some t ∧ ex.dfa.terminals[t]? = some true) ↔
        AccFrom nfa2 p.2.states w) := by
  induction w with
  | nil =>
    intro p hp
    rw [accFrom_nil h1, ← (hall p hp).1]
    simp [DeterministicFiniteAutomaton.run]
  | cons c w ih =>
    intro p hp
    have hc := (hall p hp).2 c
    by_cases hsucc : ∃ u, SuccOn nfa2 p.2.states c u
    · obtain ⟨q, hq, hqs, hstep⟩ := hc.1 hsucc
      rw [accFrom_cons h1 _ _ c w hqs, ← ih q hq]
      simp [DeterministicFiniteAutomaton.run, hstep]
    · have hstep := hc.2 hsucc
      constructor
      · rintro ⟨t, ht, _⟩
        simp [DeterministicFiniteAutomaton.run, hstep] at ht
      · intro h
        exact absurd h (accFrom_no_succ h1 _ c w hsucc)

theorem dfa_accepts_iff (dfa : DeterministicFiniteAutomaton) (w : List Nat) :
    dfa.accepts w = true ↔
      ∃ t, dfa.run dfa.start w = some t ∧ dfa.terminals[t]? = some true := by
  unfold DeterministicFiniteAutomaton.accepts
  cases hrun : dfa.run dfa.start w with
  | none => simp
  | some t =>
    simp only [Option.some.injEq, exists_eq_left', List.getD_eq_getElem?_getD]
    cases ht : dfa.terminals[t]? with
    | none => simp
    | some b => cases b <;> simp

/-- The subset construction on an automaton that satisfies the
representation invariant and whose words are single bytes below 0x80, when
no two reached sets share a hash: the exploration returns a DFA that accepts
the same strings. -/
theorem explore_spec (nfa2 : NondeterministicFiniteAutomaton) (n : Nat) (h2 : Stored nfa2 n)
    (hstart : nfa2.start < n) (h1 : OneByte nfa2) (hnc : NoCollision nfa2 n) :
    ∃ ex id, dfsMeta nfa2 (2 ^ n + 1) ((List.replicate n false).set nfa2.start true)
        { dfa := NewDeterministicFiniteAutomaton, metaStates := [] } = .ok (ex, id) ∧
      ∀ w, (ex.dfa.accepts w = true ↔ nfa2.accepts w) := by
  have hinv0 : ExInv nfa2 n { dfa := NewDeterministicFiniteAutomaton, metaStates := [] } :=
    ⟨rfl, by simp, by simp⟩
  obtain ⟨ex, id, hrun, hinv, _, _, _, hst, _, ⟨p, hp, hps, hpid⟩, hid, hnew⟩ :=
    dfsMeta_spec nfa2 n h2 h1 hnc (2 ^ n + 1) _ _ hinv0 MetaReach.start (by simp)
  have hall : ∀ q ∈ ex.metaStates, Complete nfa2 n ex q.2 := by
    intro q hq
    rcases hnew q hq with h | h
    · simp at h
    · exact h.2
  have hid0 : id = 0 := hid rfl
  refine ⟨ex, id, hrun, fun w => ?_⟩
  have hsim := explored_simulation nfa2 n h1 ex hall w p hp
  rw [dfa_accepts_iff]
  have hs0 : ex.dfa.start = 0 := hst
  rw [hs0, ← hid0, ← hpid, hsim, hps]
  unfold accepts AccFrom
  constructor
  · rintro ⟨s, t, hs, hpath, ht⟩
    have : s = nfa2.start := by
      rw [List.getElem?_set] at hs
      by_cases h : nfa2.start = s
      · exact h.symm
      · simp only [h, if_false, List.getElem?_replicate] at hs
        split at hs <;> simp at hs
    subst this
    exact ⟨t, hpath, ht⟩
  · rintro ⟨t, hpath, ht⟩
    exact ⟨nfa2.start, t, by simp [List.getElem?_set, hstart], hpath, ht⟩

end

section

open NondeterministicFiniteAutomaton

/-- `ConvertNfaToDfa` is correct up to hash collisions: for every
well-formed NFA whose edge words are made of bytes below 0x80, if no two
different sets of states that the exploration can reach have the same content
hash, the call returns a DFA, and that DFA accepts a string if and only if
the NFA does. -/
theorem ConvertNfaToDfa_accepts (nfa1 : NondeterministicFiniteAutomaton)
    (hwf : nfa1.WellFormed) (hascii : AsciiWords nfa1)
    (hnc : ∀ nfa2, ConvertNfaToNfaWithWordsOfLen1 nfa1 = .ok nfa2 →
      NoCollision nfa2 nfa2.StateCount) :
    ∃ dfa, ConvertNfaToDfa nfa1 = .ok dfa ∧ ∀ w, (dfa.accepts w = true ↔ nfa1.accepts w) := by
  obtain ⟨nfa2, n, hrun, hst, hstart, hone, hacc⟩ :=
    ConvertNfaToNfaWithWordsOfLen1_spec nfa1 hwf hascii
  have hcount : nfa2.StateCount = n := hst.2.1
  have hnc2 : NoCollision nfa2 n := hcount ▸ hnc nfa2 hrun
  obtain ⟨ex, id, hdfs, hsim⟩ := explore_spec nfa2 n hst hstart hone hnc2
  refine ⟨ex.dfa, ?_, fun w => (hsim w).trans (hacc w)⟩
  simp only [ConvertNfaToDfa, hrun, Start, hcount, hstart, if_true, hdfs]

/-- The hash tells the four membership vectors of length 2 apart. -/
theorem hashOf_injective_two (M1 M2 : List Bool) (h1 : M1.length = 2) (h2 : M2.length = 2)
    (h : hashOf M1 = hashOf M2) : M1 = M2 := by
  match M1, M2, h1, h2 with
  | [a, b], [c, d], _, _ =>
    revert h
    cases a <;> cases b <;> cases c <;> cases d <;> decide

theorem ConvertNfaToDfa_accepts_witness :
    ∃ dfa, ConvertNfaToDfa nfaAB = .ok dfa ∧ ∀ w, (dfa.accepts w = true ↔ nfaAB.accepts w) :=
  ConvertNfaToDfa_accepts nfaAB nfaAB_wellFormed nfaAB_ascii (by
    intro nfa2 h2
    have hval : ConvertNfaToNfaWithWordsOfLen1 nfaAB = .ok nfaAB := by decide
    rw [hval] at h2
    have := Except.ok.inj h2
    subst this
    intro M1 M2 hM1 hM2 hh
    exact hashOf_injective_two M1 M2 (metaReach_length hM1) (metaReach_length hM2) hh)

theorem SplitLongWordsInNfa_ab_witness :
    SplitLongWordsInNfa
        { start := 0, terminals := [false, true],
          edges := (List.replicate 2 []).set 0 [{ From := 0, To := 0, Word := [97, 98] }] } =
      .ok { start := 0, terminals := [false, true] ++ [false],
            edges := (List.replicate 2 []).set 0 [{ From := 0, To := 2, Word := [97] }]
              ++ [[{ From := 2, To := 0, Word := [98] }]] } :=
  SplitLongWordsInNfa_ab 2 0 0 0 [false, true] rfl (by decide)

end

section

open DeterministicFiniteAutomaton

/-- C12: for a DFA with one flag per state `CdfaComplementInplace` applied
twice returns the DFA it started from, the same start state, edges and flags,
which therefore accepts the same strings. -/
theorem CdfaComplementInplace_twice (dfa : DeterministicFiniteAutomaton)
    (h : dfa.terminals.length = dfa.edges.length) :
    ∃ dfa1, CdfaComplementInplace dfa = .ok dfa1 ∧ CdfaComplementInplace dfa1 = .ok dfa ∧
      ∀ dfa2, CdfaComplementInplace dfa1 = .ok dfa2 →
        dfa2.start = dfa.start ∧ dfa2.edges = dfa.edges ∧ dfa2.terminals = dfa.terminals ∧
          ∀ w, dfa2.accepts w = dfa.accepts w := by
  have h2 : CdfaComplementInplace { dfa with terminals := dfa.terminals.map (!·) } = .ok dfa := by
    rw [complement_eq _ (by simpa using h)]
    simp [Function.comp_def]
  refine ⟨_, complement_eq dfa h, h2, ?_⟩
  intro dfa2 h3
  rw [h2] at h3
  cases h3
  exact ⟨rfl, rfl, rfl, fun _ => rfl⟩

theorem CdfaComplementInplace_twice_witness :
    ∃ dfa1, CdfaComplementInplace dfaTwo = .ok dfa1 ∧ CdfaComplementInplace dfa1 = .ok dfaTwo ∧
      ∀ dfa2, CdfaComplementInplace dfa1 = .ok dfa2 →
        dfa2.start = dfaTwo.start ∧ dfa2.edges = dfaTwo.edges ∧
          dfa2.terminals = dfaTwo.terminals ∧ ∀ w, dfa2.accepts w = dfaTwo.accepts w :=
  CdfaComplementInplace_twice dfaTwo rfl

end

section

open DeterministicFiniteAutomaton

/-- An edge the DFA had is an edge of the completed DFA. -/
theorem MakeComplete_step_some (dfa : DeterministicFiniteAutomaton) (alphabet : List Nat)
    (s : State) (c : Nat) (t : State) (h : dfa.step s c = some t) :
    (MakeComplete dfa alphabet).step s c = some t := by
  simp only [MakeComplete, AddState, step, StateCount, List.getElem?_map, List.length_append,
    List.length_singleton, Nat.add_sub_cancel] at h ⊢
  by_cases hs : s < dfa.edges.length
  · have h1 : (dfa.edges ++ [emptyMap])[s]? = some dfa.edges[s] := by
      rw [List.getElem?_append_left hs, List.getElem?_eq_getElem hs]
    simp only [List.getElem?_eq_getElem hs] at h
    simp only [h1, Option.map_some', completeMap_apply, h]
  · have h1 : dfa.edges[s]? = none := List.getElem?_eq_none (Nat.le_of_not_lt hs)
    simp [h1] at h

/-- Where a state, or the sink, had no edge on a symbol, the completed DFA
has the edge to the sink if the symbol is in the alphabet and none if not. -/
theorem MakeComplete_step_none (dfa : DeterministicFiniteAutomaton) (alphabet : List Nat)
    (s : State) (c : Nat) (hs : s ≤ dfa.StateCount) (h : dfa.step s c = none) :
    (MakeComplete dfa alphabet).step s c =
      if c ∈ alphabet then some dfa.StateCount else none := by
  simp only [MakeComplete, AddState, step, StateCount, List.getElem?_map, List.length_append,
    List.length_singleton, Nat.add_sub_cancel] at h hs ⊢
  by_cases hlt : s < dfa.edges.length
  · have h1 : (dfa.edges ++ [emptyMap])[s]? = some dfa.edges[s] := by
      rw [List.getElem?_append_left hlt, List.getElem?_eq_getElem hlt]
    simp only [List.getElem?_eq_getElem hlt] at h
    simp only [h1, Option.map_some', completeMap_apply, h]
  · have hs2 : s = dfa.edges.length := Nat.le_antisymm hs (Nat.le_of_not_lt hlt)
    subst hs2
    simp [completeMap_apply, emptyMap]

/-- A path of the completed DFA that has reached the sink stays there. -/
theorem MakeComplete_sink_run (dfa : DeterministicFiniteAutomaton) (alphabet : List Nat)
    (w : List Nat) (t : State)
    (h : (MakeComplete dfa alphabet).run dfa.StateCount w = some t) : t = dfa.StateCount := by
  induction w with
  | nil => simpa [run] using h.symm
  | cons c w ih =>
    have hnone : dfa.step dfa.StateCount c = none := by
      simp [step, StateCount]
    simp only [run, MakeComplete_step_none dfa alphabet _ c (Nat.le_refl _) hnone] at h
    by_cases hc : c ∈ alphabet
    · simp only [hc, if_true] at h
      exact ih h
    · simp [hc] at h

/-- C19: for a well-formed DFA and any alphabet the completed DFA accepts a
string, over whatever symbols, exactly when the DFA before the call did; the
start state, the flags of the states there were and every edge there was are
kept, and the sink is not terminal. -/
theorem MakeComplete_accepts (dfa : DeterministicFiniteAutomaton) (alphabet : List Nat)
    (hwf : dfa.WellFormed) :
    (∀ w, (MakeComplete dfa alphabet).accepts w = dfa.accepts w) ∧
    (MakeComplete dfa alphabet).start = dfa.start ∧
    (∀ s, s < dfa.StateCount → (MakeComplete dfa alphabet).terminals[s]? = dfa.terminals[s]?) ∧
    (∀ s c t, dfa.step s c = some t → (MakeComplete dfa alphabet).step s c = some t) ∧
    (MakeComplete dfa alphabet).terminals[dfa.StateCount]? = some false := by
  have hterm : (MakeComplete dfa alphabet).terminals = dfa.terminals ++ [false] := rfl
  have hlen : dfa.terminals.length = dfa.StateCount := hwf.1
  have hsinkflag : (dfa.terminals ++ [false])[dfa.StateCount]? = some false := by
    rw [← hlen]; simp
  have hold : ∀ s, s < dfa.StateCount →
      (dfa.terminals ++ [false])[s]? = dfa.terminals[s]? := by
    intro s hs
    exact List.getElem?_append_left (by omega)
  have hrun : ∀ w s, s < dfa.StateCount →
      (match (MakeComplete dfa alphabet).run s w with
        | some t => (dfa.terminals ++ [false]).getD t false
        | none => false) =
      (match dfa.run s w with
        | some t => dfa.terminals.getD t false
        | none => false) := by
    intro w
    induction w with
    | nil =>
      intro s hs
      simp only [run, List.getD_eq_getElem?_getD, hold s hs]
    | cons c w ih =>
      intro s hs
      simp only [run]
      cases hstep : dfa.step s c with
      | some t =>
        simp only [MakeComplete_step_some dfa alphabet s c t hstep]
        exact ih t (hwf.2.2 s c t hstep)
      | none =>
        simp only [MakeComplete_step_none dfa alphabet s c (Nat.le_of_lt hs) hstep]
        by_cases hc : c ∈ alphabet
        · simp only [hc, if_true]
          cases hsink : (MakeComplete dfa alphabet).run dfa.StateCount w with
          | none => rfl
          | some t =>
            have := MakeComplete_sink_run dfa alphabet w t hsink
            subst this
            simp [List.getD_eq_getElem?_getD, hsinkflag]
        · simp [hc]
  refine ⟨?_, rfl, ?_, ?_, ?_⟩
  · intro w
    have hstart : (MakeComplete dfa alphabet).start = dfa.start := rfl
    simp only [accepts, hterm, hstart]
    exact hrun w dfa.start hwf.2.1
  · intro s hs
    rw [hterm]; exact hold s hs
  · exact MakeComplete_step_some dfa alphabet
  · rw [hterm]; exact hsinkflag

theorem dfaOneEdge_wellFormed : dfaOneEdge.WellFormed := by
  refine ⟨rfl, by decide, ?_⟩
  intro s c t h
  match s with
  | 0 => simp [dfaOneEdge, step, mapSet, emptyMap] at h; simp [dfaOneEdge, StateCount, ← h.2]
  | 1 => simp [dfaOneEdge, step, emptyMap] at h
  | s + 2 => simp [dfaOneEdge, step] at h

theorem MakeComplete_accepts_witness :
    (∀ w, (MakeComplete dfaOneEdge [97, 98]).accepts w = dfaOneEdge.accepts w) ∧
    (MakeComplete dfaOneEdge [97, 98]).start = dfaOneEdge.start ∧
    (∀ s, s < dfaOneEdge.StateCount →
      (MakeComplete dfaOneEdge [97, 98]).terminals[s]? = dfaOneEdge.terminals[s]?) ∧
    (∀ s c t, dfaOneEdge.step s c = some t →
      (MakeComplete dfaOneEdge [97, 98]).step s c = some t) ∧
    (MakeComplete dfaOneEdge [97, 98]).terminals[dfaOneEdge.StateCount]? = some false :=
  MakeComplete_accepts dfaOneEdge [97, 98] dfaOneEdge_wellFormed

end

section

open NondeterministicFiniteAutomaton

/-- C13, at the failing input: the DFA is what `AddState` and `AddEdge` of
the edge 0 -> 0 with the one-byte word 0xC8 build; it has a transition on that
symbol, and the one edge `Edges` lists for state 0 has the word 0xC3 0x88 of
two bytes, the encoding of U+00C8. -/
theorem DFA_Edges_byte200 :
    DeterministicFiniteAutomaton.AddEdge NewDeterministicFiniteAutomaton.AddState.1
      { From := 0, To := 0, Word := [200] } = .ok dfaByte200 ∧
    dfaByte200.step 0 200 = some 0 ∧
    dfaByte200.Edges 0 = .ok [{ From := 0, To := 0, Word := [195, 136] }] :=
  ⟨rfl, rfl, by decide⟩

/-- C15, at the failing input: for the NFA of the repository's test, whose
state 0 is terminal, `ConvertNfaToNfaWithSingleTerminal` returns the fresh
state 2 and leaves an automaton without any terminal state: the loop also
visits state 2, clears its flag and gives it an epsilon edge to itself. -/
theorem ConvertNfaToNfaWithSingleTerminal_nfaAB :
    ConvertNfaToNfaWithSingleTerminal nfaAB =
      .ok ({ start := 0, terminals := [false, false, false],
             edges := [[{ From := 0, To := 1, Word := [97] }, { From := 0, To := 2, Word := [] }],
                       [{ From := 1, To := 0, Word := [98] }],
                       [{ From := 2, To := 2, Word := [] }]] }, 2) ∧
    ∀ nfa1 T, ConvertNfaToNfaWithSingleTerminal nfaAB = .ok (nfa1, T) →
      nfa1.IsTerminal T = .ok false := by
  refine ⟨by decide, ?_⟩
  intro nfa1 T h
  have h2 : ConvertNfaToNfaWithSingleTerminal nfaAB =
      .ok ({ start := 0, terminals := [false, false, false],
             edges := [[{ From := 0, To := 1, Word := [97] }, { From := 0, To := 2, Word := [] }],
                       [{ From := 1, To := 0, Word := [98] }],
                       [{ From := 2, To := 2, Word := [] }]] }, 2) := by decide
  rw [h2] at h
  cases h
  rfl

/-- C17, at the failing input: for the NFA 0 -é-> 1 with two states
`SplitLongWordsInNfa` returns an automaton with three states whose only edge
0 -> 2 has the word of two bytes; no chain arrives at state 1. -/
theorem SplitLongWordsInNfa_eacute_edges :
    ∃ nfa2, SplitLongWordsInNfa nfaEacute = .ok nfa2 ∧ nfa2.StateCount = 3 ∧
      nfa2.edges = [[{ From := 0, To := 2, Word := [195, 169] }], [], []] ∧
      (∃ e ∈ nfa2.edges.flatten, e.Word.length = 2) ∧ ∀ e ∈ nfa2.edges.flatten, e.To ≠ 1 :=
  ⟨_, rfl, rfl, rfl, by decide, by decide⟩

/-- C18, at the failing input: the NFA 0 -> 1 with the one-byte word 0xC8 is
well formed, and `ConvertNfaToDfa` stops on it with the panic "word length
must be 1" of `AddEdge`, since `string(char)` of the byte 0xC8 is two bytes
long. -/
theorem ConvertNfaToDfa_byte200 :
    nfaByte200.WellFormed ∧ ConvertNfaToDfa nfaByte200 = .error .wordLength ∧
    runeToString 200 = [195, 136] := by
  refine ⟨⟨rfl, by decide, ?_⟩, rfl, rfl⟩
  intro s e he
  match s with
  | 0 => simp [nfaByte200, edgesOf] at he; subst he; decide
  | 1 => simp [nfaByte200, edgesOf] at he
  | s + 2 => simp [nfaByte200, edgesOf] at he

/-- C14: for the NFA of the repository's test `ConvertNfaToRegexp` returns the
text the test expects, and that text recognizes the same strings as the text
"(ab)*", the repetitions of "ab". -/
theorem ConvertNfaToRegexp_nfaAB :
    (ConvertNfaToRegexp nfaAB).map Prod.fst = .ok textAB ∧
    (∀ w, recognizes textAB w ↔ recognizes textABStar w) ∧
    ∀ w, recognizes textABStar w ↔
      w ∈ KStar.kstar ({[97, 98]} : Language Nat) := by
  have h1 : parseRegexp textAB = some
      (RegularExpression.star
          (RegularExpression.star (.char 97 * (RegularExpression.star 1 * .char 98)) *
            (1 * (RegularExpression.star 1 * 1))) *
        (RegularExpression.star (.char 97 * (RegularExpression.star 1 * .char 98)) *
          (1 * RegularExpression.star 1))) := by rfl
  have h2 : parseRegexp textABStar = some (RegularExpression.star (.char 97 * .char 98)) := by rfl
  have hab2 : ({[97]} : Language Nat) * {[98]} = {[97, 98]} := by
    ext w
    rw [Language.mem_mul]
    constructor
    · rintro ⟨a, ha, b, hb, rfl⟩
      have h3 : a = [97] := ha
      have h4 : b = [98] := hb
      subst h3 h4
      exact Set.mem_singleton _
    · intro h
      have h3 : w = [97, 98] := h
      exact ⟨[97], Set.mem_singleton _, [98], Set.mem_singleton _, h3.symm⟩
  have hlang : ∀ w, recognizes textABStar w ↔ w ∈ KStar.kstar ({[97, 98]} : Language Nat) := by
    intro w
    simp only [recognizes, h2, Option.some.injEq, exists_eq_left']
    simp only [RegularExpression.matches'_star, RegularExpression.matches'_mul,
      RegularExpression.matches'_char, hab2]
  refine ⟨by decide, ?_, hlang⟩
  intro w
  rw [hlang]
  simp only [recognizes, h1, Option.some.injEq, exists_eq_left']
  simp only [RegularExpression.matches'_star, RegularExpression.matches'_mul,
    RegularExpression.matches'_char, RegularExpression.matches'_epsilon, kstar_one, mul_one, one_mul,
    kstar_idem, kstar_mul_kstar, hab2]

end

section

open NondeterministicFiniteAutomaton

/-- The loop over the runes of a word, whatever the runes are: it returns
and keeps the representation invariant, the start state and the flags of the
states there were; the states it adds are not terminal. -/
theorem splitChain_stored (dest L : Nat) (runes : List (Nat × Nat)) (prev : State)
    (M : NondeterministicFiniteAutomaton) (m : Nat) (hM : Stored M m) (hprev : prev < m)
    (hdest : dest < m) :
    ∃ M1 k, splitChain dest L runes prev M = .ok M1 ∧ Stored M1 (m + k) ∧ M1.start = M.start ∧
      M1.terminals = M.terminals ++ List.replicate k false := by
  induction runes generalizing prev M m with
  | nil => exact ⟨M, 0, rfl, by simpa using hM, rfl, by simp⟩
  | cons r runes ih =>
    obtain ⟨i, char⟩ := r
    by_cases hnext : i + 1 < L
    · have hstA := AddState_stored hM
      obtain ⟨M2, hadd, hst2, hstart2, hterm2, -⟩ := AddEdge_stored hstA.1
        { From := prev, To := m, Word := runeToString char } (Nat.lt_succ_of_lt hprev)
        (Nat.lt_succ_self m)
      obtain ⟨M3, k, hrun, hst3, hstart3, hterm3⟩ :=
        ih m M2 (m + 1) hst2 (Nat.lt_succ_self m) (Nat.lt_succ_of_lt hdest)
      refine ⟨M3, k + 1, ?_, ?_, ?_, ?_⟩
      · simp only [splitChain, hnext, if_true]
        rw [hstA.2.1, hadd]
        exact hrun
      · have : m + 1 + k = m + (k + 1) := by omega
        rw [← this]; exact hst3
      · rw [hstart3, hstart2, hstA.2.2.1]
      · rw [hterm3, hterm2, hstA.2.2.2.1, List.append_assoc]
        congr 1
    · obtain ⟨M2, hadd, hst2, hstart2, hterm2, -⟩ := AddEdge_stored hM
        { From := prev, To := dest, Word := runeToString char } hprev hdest
      obtain ⟨M3, k, hrun, hst3, hstart3, hterm3⟩ := ih dest M2 m hst2 hdest hdest
      refine ⟨M3, k, ?_, hst3, hstart3.trans hstart2, by rw [hterm3, hterm2]⟩
      simp only [splitChain, hnext, if_false, hadd]
      exact hrun

/-- The loop of `splitEdge` over edges between states, whatever their words. -/
theorem forEach_splitEdge_stored (n : Nat) (rest : List Edge)
    (hrest : ∀ e ∈ rest, e.From < n ∧ e.To < n)
    (M : NondeterministicFiniteAutomaton) (m : Nat) (hm : n ≤ m) (hM : Stored M m) :
    ∃ M1 k, forEach splitEdge rest M = .ok M1 ∧ Stored M1 (m + k) ∧ M1.start = M.start ∧
      M1.terminals = M.terminals ++ List.replicate k false := by
  induction rest generalizing M m with
  | nil => exact ⟨M, 0, rfl, by simpa using hM, rfl, by simp⟩
  | cons e rest ih =>
    have he := hrest e (List.mem_cons_self _ _)
    have hf : e.From < m := Nat.lt_of_lt_of_le he.1 hm
    have ht : e.To < m := Nat.lt_of_lt_of_le he.2 hm
    have hone : ∃ M1 k, splitEdge e M = .ok M1 ∧ Stored M1 (m + k) ∧ M1.start = M.start ∧
        M1.terminals = M.terminals ++ List.replicate k false := by
      unfold splitEdge
      by_cases hlen : e.Word.length ≤ 1
      · obtain ⟨M1, hadd, hst, hstart, hterm, -⟩ := AddEdge_stored hM e hf ht
        exact ⟨M1, 0, by simp [hlen, hadd], by simpa using hst, hstart, by simpa using hterm⟩
      · simp only [hlen, if_false]
        exact splitChain_stored e.To e.Word.length (rangeString e.Word) e.From M m hM hf ht
    obtain ⟨M1, k1, hrun1, hst1, hstart1, hterm1⟩ := hone
    obtain ⟨M2, k2, hrun2, hst2, hstart2, hterm2⟩ :=
      ih (fun x hx => hrest x (List.mem_cons_of_mem _ hx)) M1 (m + k1) (by omega) hst1
    refine ⟨M2, k1 + k2, by simp only [forEach, hrun1, hrun2], by rw [← Nat.add_assoc]; exact hst2,
      hstart2.trans hstart1, ?_⟩
    rw [hterm2, hterm1, List.append_assoc, List.append_replicate_replicate]

/-- `SplitLongWordsInNfa` returns on every well-formed NFA, whatever the
bytes of its words: the automaton it returns satisfies the representation
invariant, keeps the start state and the flags, and its new states are not
terminal. -/
theorem SplitLongWordsInNfa_stored (nfa : NondeterministicFiniteAutomaton) (hwf : nfa.WellFormed) :
    ∃ nfa1 k, SplitLongWordsInNfa nfa = .ok nfa1 ∧ Stored nfa1 (nfa.StateCount + k) ∧
      nfa1.start = nfa.start ∧ nfa1.terminals = nfa.terminals ++ List.replicate k false := by
  have hst := wellFormed_stored hwf
  have hlen : nfa.terminals.length = nfa.StateCount := hwf.1
  have hM0 : Stored
      ({ start := nfa.start, terminals := nfa.terminals,
         edges := List.replicate nfa.StateCount [] } : NondeterministicFiniteAutomaton)
      nfa.StateCount := by
    refine ⟨hlen, by simp, ?_⟩
    intro s e he
    simp only [edgesOf, List.getD_eq_getElem?_getD, List.getElem?_replicate] at he
    split at he <;> simp at he
  obtain ⟨M1, k, hrun, hst1, hstart1, hterm1⟩ := forEach_splitEdge_stored nfa.StateCount
    nfa.edges.flatten (stored_flatten hst) _ nfa.StateCount (Nat.le_refl _) hM0
  refine ⟨M1, k, ?_, hst1, hstart1, hterm1⟩
  unfold SplitLongWordsInNfa
  rw [copyState_upto nfa nfa.StateCount (by rw [hlen])]
  simp only [SetStart, Start]
  rw [splitState_upto nfa nfa.StateCount (Nat.le_refl _)]
  have htake : List.take nfa.StateCount nfa.edges = nfa.edges := List.take_length _
  have htake2 : List.take nfa.StateCount nfa.terminals = nfa.terminals := by
    rw [← hlen]; exact List.take_length _
  rw [htake, htake2]
  exact hrun

/-- C16: on every well-formed NFA, epsilon cycles or not,
`ConvertNfaToNfaWithWordsOfLen1` returns. With `nfa2` the automaton that
`SplitLongWordsInNfa` returns, the result has as many states and flags as
`nfa2` and the same start state; a state is terminal exactly when the epsilon
closure of the state in `nfa2` holds a terminal state; and its edges are, for
the states `t` of the closure taken once each in some order, the edges of `t`
in `nfa2` that have a word, in their order, with the state as the source. -/
theorem ConvertNfaToNfaWithWordsOfLen1_closure (nfa1 : NondeterministicFiniteAutomaton)
    (hwf : nfa1.WellFormed) :
    ∃ nfa2 nfa3, SplitLongWordsInNfa nfa1 = .ok nfa2 ∧
      ConvertNfaToNfaWithWordsOfLen1 nfa1 = .ok nfa3 ∧
      nfa3.StateCount = nfa2.StateCount ∧ nfa3.terminals.length = nfa2.StateCount ∧
      nfa3.start = nfa2.start ∧
      ∀ s, s < nfa2.StateCount →
        (nfa3.terminals[s]? = some true ↔
          ∃ t, EpsReach nfa2 s t ∧ nfa2.terminals[t]? = some true) ∧
        ∃ L : List State, L.Nodup ∧ (∀ t, t ∈ L ↔ EpsReach nfa2 s t) ∧
          nfa3.edgesOf s = L.flatMap fun t => foldedEdges s (nfa2.edgesOf t) := by
  obtain ⟨nfa2, k, hsplit, hst2, hstart2, -⟩ := SplitLongWordsInNfa_stored nfa1 hwf
  have hs2 : nfa2.start < nfa1.StateCount + k := by
    rw [hstart2]; exact Nat.lt_of_lt_of_le hwf.2.1 (Nat.le_add_right _ _)
  obtain ⟨nfa3, hrun, hf, -⟩ := fold_spec nfa2 hst2 hs2
  have hcount : nfa2.StateCount = nfa1.StateCount + k := hst2.2.1
  refine ⟨nfa2, nfa3, hsplit, ?_, ?_, ?_, hf.2.1, ?_⟩
  · simp only [ConvertNfaToNfaWithWordsOfLen1, hsplit]
    exact hrun
  · rw [hcount]; exact hf.1.2.1
  · rw [hcount]; exact hf.1.1
  · intro s hs
    exact hf.2.2.1 s (by rw [← hcount]; exact hs)

theorem nfaEpsCycle_wellFormed : nfaEpsCycle.WellFormed := by
  refine ⟨rfl, by decide, ?_⟩
  intro s e he
  match s with
  | 0 => simp [nfaEpsCycle, edgesOf] at he; subst he; decide
  | 1 =>
    simp [nfaEpsCycle, edgesOf] at he
    rcases he with he | he <;> subst he <;> decide
  | s + 2 => simp [nfaEpsCycle, edgesOf] at he

theorem ConvertNfaToNfaWithWordsOfLen1_closure_witness :
    ∃ nfa2 nfa3, SplitLongWordsInNfa nfaEpsCycle = .ok nfa2 ∧
      ConvertNfaToNfaWithWordsOfLen1 nfaEpsCycle = .ok nfa3 ∧
      nfa3.StateCount = nfa2.StateCount ∧ nfa3.terminals.length = nfa2.StateCount ∧
      nfa3.start = nfa2.start ∧
      ∀ s, s < nfa2.StateCount →
        (nfa3.terminals[s]? = some true ↔
          ∃ t, EpsReach nfa2 s t ∧ nfa2.terminals[t]? = some true) ∧
        ∃ L : List State, L.Nodup ∧ (∀ t, t ∈ L ↔ EpsReach nfa2 s t) ∧
          nfa3.edgesOf s = L.flatMap fun t => foldedEdges s (nfa2.edgesOf t) :=
  ConvertNfaToNfaWithWordsOfLen1_closure nfaEpsCycle nfaEpsCycle_wellFormed

end

section



theorem parseStars_star (r : RegularExpression Nat) (rest : List Nat) :
    parseStars r (42 :: rest) = parseStars (RegularExpression.star r) rest := by
  rw [parseStars]

theorem parseStars_stop (r : RegularExpression Nat) (rest : List Nat)
    (h : ∀ tl, rest ≠ 42 :: tl) : parseStars r rest = (r, rest) := by
  unfold parseStars
  split
  · exact absurd rfl (h _)
  · rfl

/-- A text of the grammar starts with `1`, `(` or a symbol. -/
theorem Gram.head {l : Level} {t : List Nat} {r : RegularExpression Nat} (h : Gram l t r) :
    ∃ c tl, t = c :: tl ∧ c ≠ 41 ∧ c ≠ 42 ∧ c ≠ 43 := by
  induction h with
  | one => exact ⟨49, [], rfl, by decide, by decide, by decide⟩
  | sym c hc => exact ⟨c, [], rfl, hc.2.2.1, hc.2.2.2.1, hc.2.2.2.2⟩
  | paren t r _ _ => exact ⟨40, t ++ [41], rfl, by decide, by decide, by decide⟩
  | plain t r _ ih => exact ih
  | starred t r _ ih =>
    obtain ⟨c, tl, rfl, hc⟩ := ih
    exact ⟨c, tl ++ [42], List.cons_append _ _ _, hc⟩
  | single t r _ ih => exact ih
  | seq t t2 r r2 _ _ ih _ =>
    obtain ⟨c, tl, rfl, hc⟩ := ih
    exact ⟨c, tl ++ t2, List.cons_append _ _ _, hc⟩
  | only t r _ ih => exact ih
  | choice t t2 r r2 _ _ ih _ =>
    obtain ⟨c, tl, rfl, hc⟩ := ih
    exact ⟨c, tl ++ 43 :: t2, List.cons_append _ _ _, hc⟩

theorem parseAtom_one (fuel : Nat) (rest : List Nat) :
    parseAtom (fuel + 1) (49 :: rest) = some (parseStars 1 rest) := by
  simp [parseAtom]

theorem parseAtom_sym (fuel c : Nat) (hc : isSymbol c) (rest : List Nat) :
    parseAtom (fuel + 1) (c :: rest) = some (parseStars (RegularExpression.char c) rest) := by
  obtain ⟨h1, h2, h3, h4, h5⟩ := hc
  simp [parseAtom, h1, h2, h3, h4, h5]

theorem parseAtom_paren (fuel : Nat) (text rest : List Nat) (r : RegularExpression Nat)
    (h : parseAlt fuel text = some (r, 41 :: rest)) :
    parseAtom (fuel + 1) (40 :: text) = some (parseStars r rest) := by
  simp [parseAtom, h]

/-- The step of `parseCat` behind an atom that ends the concatenation. -/
theorem parseCat_stop (fuel : Nat) (text rest : List Nat) (r : RegularExpression Nat)
    (h : parseAtom fuel text = some (r, rest))
    (hrest : rest = [] ∨ (∃ tl, rest = 43 :: tl) ∨ ∃ tl, rest = 41 :: tl) :
    parseCat (fuel + 1) text = some (r, rest) := by
  rw [parseCat, h]
  rcases hrest with rfl | ⟨tl, rfl⟩ | ⟨tl, rfl⟩ <;> rfl

/-- The step of `parseCat` behind an atom that another atom follows. -/
theorem parseCat_more (fuel : Nat) (text : List Nat) (c : Nat) (tl : List Nat)
    (r : RegularExpression Nat) (h : parseAtom fuel text = some (r, c :: tl))
    (h1 : c ≠ 43) (h2 : c ≠ 41) (r2 : RegularExpression Nat) (rest2 : List Nat)
    (hcat : parseCat fuel (c :: tl) = some (r2, rest2)) :
    parseCat (fuel + 1) text = some (r * r2, rest2) := by
  rw [parseCat, h]
  split
  · rename_i heq; simp at heq
  · rename_i heq; simp at heq
  · rename_i heq
    simp only [Option.some.injEq, Prod.mk.injEq, List.cons.injEq] at heq
    exact absurd heq.2.1 h1
  · rename_i heq
    simp only [Option.some.injEq, Prod.mk.injEq, List.cons.injEq] at heq
    exact absurd heq.2.1 h2
  · rename_i r3 rest3 _ _ _ heq
    simp only [Option.some.injEq, Prod.mk.injEq] at heq
    obtain ⟨rfl, rfl⟩ := heq
    rw [hcat]

/-- The step of `parseAlt` behind a concatenation that ends the alternation. -/
theorem parseAlt_stop (fuel : Nat) (text rest : List Nat) (r : RegularExpression Nat)
    (h : parseCat fuel text = some (r, rest)) (hrest : ∀ tl, rest ≠ 43 :: tl) :
    parseAlt (fuel + 1) text = some (r, rest) := by
  rw [parseAlt, h]
  split
  · rename_i heq; simp at heq
  · rename_i heq
    simp only [Option.some.injEq, Prod.mk.injEq] at heq
    exact absurd heq.2 (hrest _)
  · rename_i heq
    simp only [Option.some.injEq, Prod.mk.injEq] at heq
    obtain ⟨rfl, rfl⟩ := heq
    rfl

/-- The step of `parseAlt` behind a concatenation that `+` follows. -/
theorem parseAlt_more (fuel : Nat) (text rest rest2 : List Nat) (r r2 : RegularExpression Nat)
    (h : parseCat fuel text = some (r, 43 :: rest))
    (halt : parseAlt fuel rest = some (r2, rest2)) :
    parseAlt (fuel + 1) text = some (r + r2, rest2) := by
  rw [parseAlt, h]
  simp only [halt]

/-- The reader reads every text of the grammar as the regular expression
the grammar gives it. -/
theorem Gram.parses {l : Level} {t : List Nat} {r : RegularExpression Nat} (h : Gram l t r) :
    ParsesAs l t r := by
  induction h with
  | one =>
    intro fuel rest hf
    obtain ⟨f, rfl⟩ : ∃ f, fuel = f + 1 := ⟨fuel - 1, by simp at hf; omega⟩
    exact parseAtom_one f rest
  | sym c hc =>
    intro fuel rest hf
    obtain ⟨f, rfl⟩ : ∃ f, fuel = f + 1 := ⟨fuel - 1, by simp at hf; omega⟩
    exact parseAtom_sym f c hc rest
  | paren t r _ ih =>
    intro fuel rest hf
    obtain ⟨f, rfl⟩ : ∃ f, fuel = f + 1 := ⟨fuel - 1, by simp at hf; omega⟩
    have h1 := ih f (41 :: rest) (by simp at hf; omega) (Or.inr ⟨rest, rfl⟩)
    have h2 := parseAtom_paren f (t ++ 41 :: rest) rest r h1
    simpa using h2
  | plain t r _ ih =>
    intro fuel rest hf hrest
    rw [ih fuel rest hf, parseStars_stop r rest hrest]
  | starred t r _ ih =>
    intro fuel rest hf hrest
    have h1 := ih fuel (42 :: rest) (by simp at hf; omega)
    rw [parseStars_star, parseStars_stop _ rest hrest] at h1
    simpa using h1
  | single t r hg ih =>
    intro fuel rest hf hrest
    obtain ⟨c, tl, rfl, -⟩ := hg.head
    obtain ⟨f, rfl⟩ : ∃ f, fuel = f + 1 := ⟨fuel - 1, by simp at hf; omega⟩
    refine parseCat_stop f _ rest r (ih f rest (by omega) ?_) hrest
    rintro tl2 rfl
    rcases hrest with h | ⟨_, h⟩ | ⟨_, h⟩ <;> simp at h
  | seq t t2 r r2 hg hg2 ih ih2 =>
    intro fuel rest hf hrest
    obtain ⟨c, tl, rfl, -⟩ := hg.head
    obtain ⟨c2, tl2, rfl, hc2⟩ := hg2.head
    obtain ⟨f, rfl⟩ : ∃ f, fuel = f + 1 := ⟨fuel - 1, by simp at hf; omega⟩
    have h1 := ih f (c2 :: tl2 ++ rest) (by simp at hf ⊢; omega)
      (by rintro tl3 h; simp at h; exact hc2.2.1 h.1)
    have h2 := ih2 f rest (by simp at hf ⊢; omega) hrest
    rw [List.append_assoc]
    exact parseCat_more f _ c2 (tl2 ++ rest) r h1 hc2.2.2 hc2.1 r2 rest h2
  | only t r hg ih =>
    intro fuel rest hf hrest
    obtain ⟨c, tl, rfl, -⟩ := hg.head
    obtain ⟨f, rfl⟩ : ∃ f, fuel = f + 1 := ⟨fuel - 1, by simp at hf; omega⟩
    refine parseAlt_stop f _ rest r (ih f rest (by omega) ?_) ?_
    · rcases hrest with h | h
      · exact Or.inl h
      · exact Or.inr (Or.inr h)
    · rintro tl2 rfl
      rcases hrest with h | ⟨_, h⟩ <;> simp at h
  | choice t t2 r r2 hg hg2 ih ih2 =>
    intro fuel rest hf hrest
    obtain ⟨f, rfl⟩ : ∃ f, fuel = f + 1 := ⟨fuel - 1, by simp at hf; omega⟩
    have h1 := ih f (43 :: (t2 ++ rest)) (by simp at hf ⊢; omega) (Or.inr (Or.inl ⟨_, rfl⟩))
    have h2 := ih2 f rest (by simp at hf ⊢; omega) hrest
    have h3 := parseAlt_more f _ (t2 ++ rest) rest r r2 h1 h2
    simpa using h3

/-- A text of the alternation level is read in full by `parseRegexp`. -/
theorem Gram.parseRegexp_eq {t : List Nat} {r : RegularExpression Nat} (h : Gram .alt t r) :
    parseRegexp t = some r := by
  have h1 := h.parses (3 * t.length + 3) [] (by omega) (Or.inl rfl)
  simp only [List.append_nil] at h1
  simp only [parseRegexp, h1]

end

section



/-- A word of symbols is a text of the grammar. -/
theorem plain_gram (w : List Nat) (hne : w ≠ []) (hw : ∀ c ∈ w, isSymbol c) :
    ∃ r, Gram .cat w r := by
  induction w with
  | nil => exact absurd rfl hne
  | cons c w ih =>
    have hc := hw c (List.mem_cons_self _ _)
    cases w with
    | nil => exact ⟨_, Gram.single _ _ (Gram.plain _ _ (Gram.sym c hc))⟩
    | cons c2 w2 =>
      obtain ⟨r2, h2⟩ := ih (List.cons_ne_nil _ _) (fun d hd => hw d (List.mem_cons_of_mem _ hd))
      exact ⟨_, Gram.seq [c] _ _ _ (Gram.plain _ _ (Gram.sym c hc)) h2⟩

theorem wordText_gram (e : Edge) (h : WordOk e.Word) : ∃ r, Gram .cat (wordText e) r := by
  unfold wordText
  by_cases he : e.Word = []
  · simp only [he, if_true]
    exact ⟨_, Gram.single _ _ (Gram.plain _ _ Gram.one)⟩
  · simp only [he, if_false]
    rcases h with h | h
    · exact absurd h he
    · exact h

theorem altText_gram (e : Edge) (rest : List Edge) (h : ∀ x ∈ e :: rest, WordOk x.Word) :
    ∃ r, Gram .alt (wordText e ++ tailText rest) r := by
  induction rest generalizing e with
  | nil =>
    obtain ⟨r, hr⟩ := wordText_gram e (h e (List.mem_cons_self _ _))
    exact ⟨r, by simpa [tailText] using Gram.only _ _ hr⟩
  | cons e2 rest ih =>
    obtain ⟨r, hr⟩ := wordText_gram e (h e (List.mem_cons_self _ _))
    obtain ⟨r2, hr2⟩ := ih e2 (fun x hx => h x (List.mem_cons_of_mem _ hx))
    refine ⟨r + r2, ?_⟩
    have := Gram.choice _ _ _ _ hr hr2
    simpa [tailText] using this

/-- The text written for a list of readable edges is a base of the grammar. -/
theorem fragment_gram (es : List Edge) (h : ∀ x ∈ es, WordOk x.Word) :
    ∃ r, Gram .base (fragmentText es) r := by
  cases es with
  | nil => exact ⟨_, Gram.one⟩
  | cons e rest =>
    obtain ⟨r, hr⟩ := altText_gram e rest h
    exact ⟨r, Gram.paren _ _ hr⟩

/-- The word of a synthesized edge, `(in loop* out)`, is readable. -/
theorem synth_gram (a b c : List Nat) (ra rb rc : RegularExpression Nat)
    (ha : Gram .base a ra) (hb : Gram .base b rb) (hc : Gram .base c rc) :
    WordOk ([40] ++ a ++ b ++ [42] ++ c ++ [41]) := by
  have h := Gram.single _ _ (Gram.plain _ _ (Gram.paren (a ++ ((b ++ [42]) ++ c)) _
    (Gram.only _ _ (Gram.seq _ _ _ _ (Gram.plain _ _ ha)
      (Gram.seq _ _ _ _ (Gram.starred _ _ hb) (Gram.single _ _ (Gram.plain _ _ hc)))))))
  exact Or.inr ⟨_, by simpa using h⟩

/-- The text of the final assembly, with the fragment `1` for no edge from T
to Start, when its three fragments are bases of the grammar: it recognizes
the strings that are one or more strings of the round text side by side. -/
theorem round_language (ls st lt : List Nat) (r1 r2 r3 : RegularExpression Nat)
    (h1 : Gram .base ls r1) (h2 : Gram .base st r2) (h3 : Gram .base lt r3) (w : List Nat) :
    recognizes ([40] ++ roundText ls st lt ++ [49, 41, 42] ++ roundText ls st lt) w ↔
      ∃ ws : List (List Nat), ws ≠ [] ∧ w = ws.flatten ∧
        ∀ v ∈ ws, recognizes (roundText ls st lt) v := by
  have hX : Gram .cat (roundText ls st lt)
      (RegularExpression.star r1 * (r2 * RegularExpression.star r3)) := by
    have := Gram.seq _ _ _ _ (Gram.starred _ _ h1)
      (Gram.seq _ _ _ _ (Gram.plain _ _ h2) (Gram.single _ _ (Gram.starred _ _ h3)))
    simpa [roundText] using this
  have hX1 : Gram .cat (roundText ls st lt ++ [49])
      (RegularExpression.star r1 * (r2 * (RegularExpression.star r3 * 1))) := by
    have := Gram.seq _ _ _ _ (Gram.starred _ _ h1)
      (Gram.seq _ _ _ _ (Gram.plain _ _ h2)
        (Gram.seq _ _ _ _ (Gram.starred _ _ h3) (Gram.single _ _ (Gram.plain _ _ Gram.one))))
    simpa [roundText] using this
  have hall : Gram .alt ([40] ++ roundText ls st lt ++ [49, 41, 42] ++ roundText ls st lt)
      (RegularExpression.star
          (RegularExpression.star r1 * (r2 * (RegularExpression.star r3 * 1))) *
        (RegularExpression.star r1 * (r2 * RegularExpression.star r3))) := by
    have := Gram.only _ _ (Gram.seq _ _ _ _
      (Gram.starred _ _ (Gram.paren _ _ (Gram.only _ _ hX1))) hX)
    simpa using this
  have hpX := (Gram.only _ _ hX).parseRegexp_eq
  have hpall := hall.parseRegexp_eq
  simp only [recognizes, hpX, hpall, Option.some.injEq, exists_eq_left']
  simp only [RegularExpression.matches'_star, RegularExpression.matches'_mul,
    RegularExpression.matches'_epsilon, mul_one]
  generalize KStar.kstar r1.matches' * (r2.matches' * KStar.kstar r3.matches') = L
  rw [Language.mem_mul]
  constructor
  · rintro ⟨a, ha, b, hb, rfl⟩
    obtain ⟨S, rfl, hS⟩ := Language.mem_kstar.mp ha
    refine ⟨S ++ [b], by simp, by simp, ?_⟩
    intro v hv
    rcases List.mem_append.mp hv with hv | hv
    · exact hS v hv
    · rw [List.mem_singleton.mp hv]; exact hb
  · rintro ⟨ws, hne, rfl, hws⟩
    rcases List.eq_nil_or_concat ws with h | ⟨S, b, h⟩
    · exact absurd h hne
    · subst h
      simp only [List.concat_eq_append] at hws ⊢
      refine ⟨S.flatten, Language.mem_kstar.mpr ⟨S, rfl, fun y hy => hws y (by simp [hy])⟩, b,
        hws b (by simp), by simp⟩

end

section

open NondeterministicFiniteAutomaton

/-- The loop of `reduceEdgesToRegexp` behind the first edge: it writes `+`
and the word for each edge, deletes the edges and adds none. -/
theorem reduceLoop_spec {n : Nat} (edges : List Edge) (hedges : ∀ e ∈ edges, e.From < n)
    (i : Nat) (hi : 0 < i) (regexp : List Nat) (nfa : NondeterministicFiniteAutomaton)
    (h : Stored nfa n) :
    ∃ nfa1, reduceLoop i edges (regexp, nfa) = .ok (regexp ++ tailText edges, nfa1) ∧
      Stored nfa1 n ∧ nfa1.start = nfa.start ∧ nfa1.terminals = nfa.terminals ∧
      ∀ s, ∀ e ∈ nfa1.edgesOf s, e ∈ nfa.edgesOf s := by
  induction edges generalizing i regexp nfa with
  | nil => exact ⟨nfa, by simp [reduceLoop, tailText], h, rfl, rfl, fun _ _ he => he⟩
  | cons e edges ih =>
    obtain ⟨nfa1, b, hdel, hst, hstart, hterm, hsub⟩ :=
      DeleteEdge_stored h e (hedges e (List.mem_cons_self _ _))
    obtain ⟨nfa2, hrun, hst2, hstart2, hterm2, hsub2⟩ :=
      ih (fun e he => hedges e (List.mem_cons_of_mem _ he)) (i + 1) (Nat.succ_pos i)
        (regexp ++ edgeText i e) nfa1 hst
    refine ⟨nfa2, ?_, hst2, hstart2.trans hstart, hterm2.trans hterm,
      fun s x hx => hsub s x (hsub2 s x hx)⟩
    simp only [reduceLoop, hdel, hrun]
    simp [edgeText, hi, tailText, wordText]

/-- `reduceEdgesToRegexp` on edges that leave states: it returns the text of
the fragment, deletes the edges and adds none. -/
theorem reduceEdgesToRegexp_spec {n : Nat} (edges : List Edge)
    (hedges : ∀ e ∈ edges, e.From < n) (nfa : NondeterministicFiniteAutomaton)
    (h : Stored nfa n) :
    ∃ nfa1, reduceEdgesToRegexp nfa edges = .ok (fragmentText edges, nfa1) ∧ Stored nfa1 n ∧
      nfa1.start = nfa.start ∧ nfa1.terminals = nfa.terminals ∧
      ∀ s, ∀ e ∈ nfa1.edgesOf s, e ∈ nfa.edgesOf s := by
  cases edges with
  | nil => exact ⟨nfa, by simp [reduceEdgesToRegexp, fragmentText], h, rfl, rfl, fun _ _ he => he⟩
  | cons e edges =>
    obtain ⟨nfa1, b, hdel, hst, hstart, hterm, hsub⟩ :=
      DeleteEdge_stored h e (hedges e (List.mem_cons_self _ _))
    obtain ⟨nfa2, hrun, hst2, hstart2, hterm2, hsub2⟩ :=
      reduceLoop_spec edges (fun e he => hedges e (List.mem_cons_of_mem _ he)) 1 (by decide)
        ([40] ++ edgeText 0 e) nfa1 hst
    refine ⟨nfa2, ?_, hst2, hstart2.trans hstart, hterm2.trans hterm,
      fun s x hx => hsub s x (hsub2 s x hx)⟩
    simp only [reduceEdgesToRegexp, List.length_cons, Nat.succ_ne_zero, if_false, reduceLoop, hdel,
      Nat.zero_add, hrun]
    simp [edgeText, fragmentText, wordText]

theorem reduceManyEdgesToRegexp_spec {n : Nat} (m : List (State × List Edge))
    (hm : EntriesOk n m) (nfa : NondeterministicFiniteAutomaton) (h : Stored nfa n) :
    ∃ nfa1, reduceManyEdgesToRegexp nfa m =
        .ok (m.map fun p => (p.1, fragmentText p.2), nfa1) ∧ Stored nfa1 n ∧
      nfa1.start = nfa.start ∧ nfa1.terminals = nfa.terminals ∧
      ∀ s, ∀ e ∈ nfa1.edgesOf s, e ∈ nfa.edgesOf s := by
  induction m generalizing nfa with
  | nil => exact ⟨nfa, rfl, h, rfl, rfl, fun _ _ he => he⟩
  | cons p m ih =>
    obtain ⟨state, edges⟩ := p
    have hp := hm (state, edges) (List.mem_cons_self _ _)
    obtain ⟨nfa1, hrun, hst, hstart, hterm, hsub⟩ := reduceEdgesToRegexp_spec edges hp.2 nfa h
    obtain ⟨nfa2, hrun2, hst2, hstart2, hterm2, hsub2⟩ :=
      ih (fun q hq => hm q (List.mem_cons_of_mem _ hq)) nfa1 hst
    exact ⟨nfa2, by simp [reduceManyEdgesToRegexp, hrun, hrun2], hst2,
      hstart2.trans hstart, hterm2.trans hterm, fun s x hx => hsub s x (hsub2 s x hx)⟩

theorem mapAppend_grouped (P : State → Edge → Prop) (m : List (State × List Edge))
    (hm : Grouped P m) (key : State) (edge : Edge) (h : P key edge) :
    Grouped P (mapAppend m key edge) := by
  induction m with
  | nil =>
    intro p hp
    simp only [mapAppend, List.mem_singleton] at hp
    subst hp
    exact ⟨List.cons_ne_nil _ _, fun e he => by
      simp only [List.mem_singleton] at he; subst he; exact h⟩
  | cons q m ih =>
    obtain ⟨k, es⟩ := q
    have hq := hm (k, es) (List.mem_cons_self _ _)
    intro p hp
    simp only [mapAppend] at hp
    by_cases hkk : k = key
    · simp only [hkk, if_true, List.mem_cons] at hp
      rcases hp with hp | hp
      · subst hp
        refine ⟨by simp, fun e he => ?_⟩
        rcases List.mem_append.mp he with he | he
        · exact hkk ▸ hq.2 e he
        · simp only [List.mem_singleton] at he; subst he; exact h
      · exact hm p (List.mem_cons_of_mem _ hp)
    · simp only [hkk, if_false, List.mem_cons] at hp
      rcases hp with hp | hp
      · subst hp; exact hq
      · exact ih (fun r hr => hm r (List.mem_cons_of_mem _ hr)) p hp

/-- The three groups hold edges of the list `E` the loop runs over: the
loops, the edges into `curState` under their source, the edges out of
`curState` under their destination. -/
theorem classify_grouped (curState : State) (E l : List Edge) (hl : ∀ e ∈ l, e ∈ E)
    (parts : Partition)
    (hp : (∀ e ∈ parts.loops, e ∈ E) ∧
      Grouped (fun p e => e ∈ E ∧ e.From = p ∧ e.To = curState) parts.prevEdges ∧
      Grouped (fun r e => e ∈ E ∧ e.From = curState ∧ e.To = r) parts.nextEdges) :
    (∀ e ∈ (l.foldl (classifyEdge curState) parts).loops, e ∈ E) ∧
      Grouped (fun p e => e ∈ E ∧ e.From = p ∧ e.To = curState)
        (l.foldl (classifyEdge curState) parts).prevEdges ∧
      Grouped (fun r e => e ∈ E ∧ e.From = curState ∧ e.To = r)
        (l.foldl (classifyEdge curState) parts).nextEdges := by
  induction l generalizing parts with
  | nil => exact hp
  | cons e l ih =>
    have he := hl e (List.mem_cons_self _ _)
    refine ih (fun e he => hl e (List.mem_cons_of_mem _ he)) _ ?_
    unfold classifyEdge
    split
    · refine ⟨fun x hx => ?_, hp.2.1, hp.2.2⟩
      rcases List.mem_append.mp hx with hx | hx
      · exact hp.1 x hx
      · simp only [List.mem_singleton] at hx; subst hx; exact he
    · split
      · rename_i h1
        exact ⟨hp.1, mapAppend_grouped _ _ hp.2.1 _ _ ⟨he, rfl, h1⟩, hp.2.2⟩
      · split
        · rename_i h2
          exact ⟨hp.1, hp.2.1, mapAppend_grouped _ _ hp.2.2 _ _ ⟨he, h2, rfl⟩⟩
        · exact hp

/-- The loop that adds the synthesized edges keeps a property that each of
them has. -/
theorem forEach_addEdge_inv {n : Nat} (Q : Edge → Prop) (loop : List Nat)
    (pairs : List ((State × List Nat) × (State × List Nat)))
    (hpairs : ∀ pn ∈ pairs, pn.1.1 < n ∧ pn.2.1 < n ∧
      Q { From := pn.1.1, To := pn.2.1, Word := [40] ++ pn.1.2 ++ loop ++ [42] ++ pn.2.2 ++ [41] })
    (nfa : NondeterministicFiniteAutomaton) (h : Stored nfa n)
    (hall : ∀ e ∈ nfa.edges.flatten, Q e) :
    ∃ nfa1,
      forEach
        (fun (pn : (State × List Nat) × (State × List Nat)) (m : NondeterministicFiniteAutomaton) =>
          m.AddEdge { From := pn.1.1, To := pn.2.1,
                      Word := [40] ++ pn.1.2 ++ loop ++ [42] ++ pn.2.2 ++ [41] })
        pairs nfa = .ok nfa1 ∧ Stored nfa1 n ∧ nfa1.start = nfa.start ∧
      nfa1.terminals = nfa.terminals ∧ ∀ e ∈ nfa1.edges.flatten, Q e := by
  induction pairs generalizing nfa with
  | nil => exact ⟨nfa, rfl, h, rfl, rfl, hall⟩
  | cons pn pairs ih =>
    have hpn := hpairs pn (List.mem_cons_self _ _)
    obtain ⟨nfa1, hadd, hst, hstart, hterm, hmem⟩ := AddEdge_flatten h
      { From := pn.1.1, To := pn.2.1, Word := [40] ++ pn.1.2 ++ loop ++ [42] ++ pn.2.2 ++ [41] }
      hpn.1 hpn.2.1
    obtain ⟨nfa2, hrun, hst2, hstart2, hterm2, hall2⟩ :=
      ih (fun q hq => hpairs q (List.mem_cons_of_mem _ hq)) nfa1 hst
        (by
          intro e he
          rcases (hmem e).mp he with he | he
          · exact hall e he
          · rw [he]; exact hpn.2.2)
    exact ⟨nfa2, by simp only [forEach, hadd, hrun], hst2, hstart2.trans hstart,
      hterm2.trans hterm, hall2⟩

/-- The elimination of a state returns and keeps the invariant, the start
state, the flags and every property of the edges that the synthesis keeps. -/
theorem eliminateState_inv {n : Nat} (curState : State) (Q : Edge → Prop)
    (hQ : SynthClosed curState Q) (nfa : NondeterministicFiniteAutomaton) (h : Stored nfa n)
    (hall : ∀ e ∈ nfa.edges.flatten, Q e) :
    ∃ nfa1, eliminateState curState nfa = .ok nfa1 ∧ Stored nfa1 n ∧ nfa1.start = nfa.start ∧
      nfa1.terminals = nfa.terminals ∧ ∀ e ∈ nfa1.edges.flatten, Q e := by
  have hparts : PartitionOk n (nfa.edges.flatten.foldl (classifyEdge curState)
      { loops := [], prevEdges := [], nextEdges := [] }) :=
    classify_ok curState _ (stored_flatten h) _
      ⟨fun _ he => absurd he (List.not_mem_nil _), fun _ hp => absurd hp (List.not_mem_nil _),
        fun _ hp => absurd hp (List.not_mem_nil _)⟩
  have hgr := classify_grouped curState nfa.edges.flatten nfa.edges.flatten (fun _ he => he)
      { loops := [], prevEdges := [], nextEdges := [] }
      ⟨fun _ he => absurd he (List.not_mem_nil _), fun _ hp => absurd hp (List.not_mem_nil _),
        fun _ hp => absurd hp (List.not_mem_nil _)⟩
  obtain ⟨nfa1, h1, hst1, hstart1, hterm1, hsub1⟩ := reduceEdgesToRegexp_spec _ hparts.1 nfa h
  obtain ⟨nfa2, h2, hst2, hstart2, hterm2, hsub2⟩ :=
    reduceManyEdgesToRegexp_spec _ hparts.2.1 nfa1 hst1
  obtain ⟨nfa3, h3, hst3, hstart3, hterm3, hsub3⟩ :=
    reduceManyEdgesToRegexp_spec _ hparts.2.2 nfa2 hst2
  have hall3 : ∀ e ∈ nfa3.edges.flatten, Q e := by
    intro e he
    obtain ⟨s, hs⟩ := (mem_flatten_iff nfa3 e).mp he
    exact hall e ((mem_flatten_iff nfa e).mpr ⟨s, hsub1 s e (hsub2 s e (hsub3 s e hs))⟩)
  obtain ⟨nfa4, h4, hst4, hstart4, hterm4, hall4⟩ := forEach_addEdge_inv Q
    (fragmentText (nfa.edges.flatten.foldl (classifyEdge curState)
      { loops := [], prevEdges := [], nextEdges := [] }).loops)
    (((nfa.edges.flatten.foldl (classifyEdge curState)
        { loops := [], prevEdges := [], nextEdges := [] }).prevEdges.map
          fun p => (p.1, fragmentText p.2)).flatMap fun p =>
      ((nfa.edges.flatten.foldl (classifyEdge curState)
        { loops := [], prevEdges := [], nextEdges := [] }).nextEdges.map
          fun p => (p.1, fragmentText p.2)).map fun q => (p, q))
    (by
      intro pn hpn
      obtain ⟨p, hp, hmap⟩ := List.mem_flatMap.mp hpn
      obtain ⟨q, hq, rfl⟩ := List.mem_map.mp hmap
      obtain ⟨p0, hp0, rfl⟩ := List.mem_map.mp hp
      obtain ⟨q0, hq0, rfl⟩ := List.mem_map.mp hq
      have hgp := hgr.2.1 p0 hp0
      have hgq := hgr.2.2 q0 hq0
      refine ⟨(hparts.2.1 p0 hp0).1, (hparts.2.2 q0 hq0).1, ?_⟩
      exact hQ p0.2 _ q0.2 p0.1 q0.1 hgp.1 hgq.1
        (fun e he => ⟨hall e (hgp.2 e he).1, (hgp.2 e he).2.1, (hgp.2 e he).2.2⟩)
        (fun e he => hall e (hgr.1 e he))
        (fun e he => ⟨hall e (hgq.2 e he).1, (hgq.2 e he).2.1, (hgq.2 e he).2.2⟩))
    nfa3 hst3 hall3
  refine ⟨nfa4, ?_, hst4, ?_, ?_, hall4⟩
  · simp only [eliminateState, h1, h2, h3]
    exact h4
  · rw [hstart4, hstart3, hstart2, hstart1]
  · rw [hterm4, hterm3, hterm2, hterm1]

theorem forEach_eliminateState_inv {n : Nat} (Q : Edge → Prop) (states : List State)
    (hQ : ∀ c ∈ states, SynthClosed c Q) (nfa : NondeterministicFiniteAutomaton)
    (h : Stored nfa n) (hall : ∀ e ∈ nfa.edges.flatten, Q e) :
    ∃ nfa1, forEach eliminateState states nfa = .ok nfa1 ∧ Stored nfa1 n ∧
      nfa1.start = nfa.start ∧ nfa1.terminals = nfa.terminals ∧
      ∀ e ∈ nfa1.edges.flatten, Q e := by
  induction states generalizing nfa with
  | nil => exact ⟨nfa, rfl, h, rfl, rfl, hall⟩
  | cons s states ih =>
    obtain ⟨nfa1, h1, hst1, hstart1, hterm1, hall1⟩ :=
      eliminateState_inv s Q (hQ s (List.mem_cons_self _ _)) nfa h hall
    obtain ⟨nfa2, h2, hst2, hstart2, hterm2, hall2⟩ :=
      ih (fun c hc => hQ c (List.mem_cons_of_mem _ hc)) nfa1 hst1 hall1
    exact ⟨nfa2, by simp only [forEach, h1, h2], hst2, hstart2.trans hstart1,
      hterm2.trans hterm1, hall2⟩

/-- An edge that leaves `T` leads to `T`: kept when a state other than `T`
is eliminated. -/
theorem synthClosed_sink (c T : State) (hc : c ≠ T) :
    SynthClosed c (fun e => e.From = T → e.To = T) := by
  intro ps loops ns p r hps _ hp _ _ hfrom
  simp only at hfrom
  cases ps with
  | nil => exact absurd rfl hps
  | cons e ps =>
    have he := hp e (List.mem_cons_self _ _)
    have : e.To = T := he.1 (he.2.1.trans hfrom)
    exact absurd (he.2.2.symm.trans this) hc

/-- Readable words are kept by every elimination. -/
theorem synthClosed_wordOk (c : State) : SynthClosed c (fun e => WordOk e.Word) := by
  intro ps loops ns p r _ _ hp hl hn
  obtain ⟨ra, ha⟩ := fragment_gram ps (fun e he => (hp e he).1)
  obtain ⟨rb, hb⟩ := fragment_gram loops hl
  obtain ⟨rc, hc⟩ := fragment_gram ns (fun e he => (hn e he).1)
  exact synth_gram _ _ _ ra rb rc ha hb hc

theorem synthClosed_and (c : State) (Q1 Q2 : Edge → Prop) (h1 : SynthClosed c Q1)
    (h2 : SynthClosed c Q2) : SynthClosed c (fun e => Q1 e ∧ Q2 e) := by
  intro ps loops ns p r hps hns hp hl hn
  exact ⟨h1 ps loops ns p r hps hns (fun e he => ⟨(hp e he).1.1, (hp e he).2⟩)
      (fun e he => (hl e he).1) (fun e he => ⟨(hn e he).1.1, (hn e he).2⟩),
    h2 ps loops ns p r hps hns (fun e he => ⟨(hp e he).1.2, (hp e he).2⟩)
      (fun e he => (hl e he).2) (fun e he => ⟨(hn e he).1.2, (hn e he).2⟩)⟩

end

section

open NondeterministicFiniteAutomaton

/-- The loop of `ConvertNfaToNfaWithSingleTerminal` after the states below
`k`: their flags are cleared, and those that were terminal have the epsilon
edge to `T` behind their other edges. -/
theorem singleTerminalStep_upto {m : Nat} (T : State) (hT : T < m)
    (nfa0 : NondeterministicFiniteAutomaton) (h0 : Stored nfa0 m) (k : Nat) (hk : k ≤ m) :
    ∃ nfaK, forEach (singleTerminalStep T) (List.range k) nfa0 = .ok nfaK ∧ Stored nfaK m ∧
      nfaK.start = nfa0.start ∧
      (∀ s, nfaK.terminals[s]? = if s < k then some false else nfa0.terminals[s]?) ∧
      ∀ s, nfaK.edgesOf s = nfa0.edgesOf s ++
        (if s < k ∧ nfa0.terminals[s]? = some true then [{ From := s, To := T, Word := [] }]
          else []) := by
  induction k with
  | zero => exact ⟨nfa0, rfl, h0, rfl, by simp, by simp⟩
  | succ k ih =>
    obtain ⟨nfaK, hrun, hst, hstart, hterm, hedges⟩ := ih (by omega)
    have hkm : k < m := by omega
    have hlt : k < nfaK.terminals.length := by rw [hst.1]; exact hkm
    have hlt0 : k < nfa0.terminals.length := by rw [h0.1]; exact hkm
    have hflag : nfaK.terminals[k]? = some nfa0.terminals[k] := by
      rw [hterm k]; simp [List.getElem?_eq_getElem hlt0]
    rw [List.range_succ, forEach_append, hrun]
    have hone : ∀ X, singleTerminalStep T k nfaK = .ok X →
        forEach (singleTerminalStep T) [k] nfaK = .ok X := by
      intro X hX
      simp only [forEach, hX]
    have hsucc : ∀ s : Nat, s ≠ k → ((s < k + 1) = (s < k)) := by
      intro s hs
      apply propext
      constructor <;> intro h <;> omega
    cases hb : nfa0.terminals[k] with
    | false =>
      refine ⟨nfaK, hone nfaK (by simp only [singleTerminalStep, IsTerminal, hflag, hb]), hst,
        hstart, ?_, ?_⟩
      · intro s
        rw [hterm s]
        by_cases hsk : s = k
        · subst hsk
          simp [List.getElem?_eq_getElem hlt0, hb]
        · simp only [hsucc s hsk]
      · intro s
        rw [hedges s]
        by_cases hsk : s = k
        · subst hsk
          simp [List.getElem?_eq_getElem hlt0, hb]
        · simp only [hsucc s hsk]
    | true =>
      obtain ⟨nfa1, hadd, hst1, hstart1, hterm1, hedges1⟩ := AddEdge_stored
        (Stored_terminals hst (nfaK.terminals.set k false) (by simp [hst.1]))
        { From := k, To := T, Word := [] } hkm hT
      refine ⟨nfa1, hone nfa1 (by
          simp only [singleTerminalStep, IsTerminal, hflag, hb, SetTerminal, hlt, if_true]
          exact hadd), hst1, hstart1.trans hstart, ?_, ?_⟩
      · intro s
        rw [hterm1]
        simp only [List.getElem?_set]
        by_cases hsk : k = s
        · subst hsk
          simp [hlt]
        · have hsk2 : s ≠ k := fun h => hsk h.symm
          simp only [hsk, if_false, hterm s, hsucc s hsk2]
      · intro s
        rw [hedges1 s]
        have hsame : ∀ x, edgesOf
            ({ start := nfaK.start, terminals := nfaK.terminals.set k false,
               edges := nfaK.edges } : NondeterministicFiniteAutomaton) x = nfaK.edgesOf x :=
          fun _ => rfl
        rw [hsame, hedges s]
        by_cases hsk : s = k
        · subst hsk
          simp [List.getElem?_eq_getElem hlt0, hb]
        · simp only [hsk, if_false, hsucc s hsk]

/-- What `ConvertNfaToNfaWithSingleTerminal` does on a well-formed NFA with
`n` states: it returns the fresh state `n`; the start state is kept; no state
is terminal afterwards, the fresh one neither; a state that was terminal has
the epsilon edge to the fresh state behind its other edges, the other old
states keep their edges, and the fresh state has the epsilon edge to itself. -/
theorem ConvertNfaToNfaWithSingleTerminal_spec (nfa : NondeterministicFiniteAutomaton)
    (h : nfa.WellFormed) :
    ∃ nfa1, ConvertNfaToNfaWithSingleTerminal nfa = .ok (nfa1, nfa.StateCount) ∧
      Stored nfa1 (nfa.StateCount + 1) ∧ nfa1.start = nfa.start ∧
      (∀ s, s < nfa.StateCount + 1 → nfa1.terminals[s]? = some false) ∧
      (∀ s, s < nfa.StateCount → nfa1.edgesOf s = nfa.edgesOf s ++
        (if nfa.terminals[s]? = some true then [{ From := s, To := nfa.StateCount, Word := [] }]
          else [])) ∧
      nfa1.edgesOf nfa.StateCount =
        [{ From := nfa.StateCount, To := nfa.StateCount, Word := [] }] := by
  obtain ⟨hst, hnew, hstart, hterm, hedgesA⟩ := AddState_stored (wellFormed_stored h)
  have hlenT : nfa.terminals.length = nfa.StateCount := h.1
  have hlen : nfa.StateCount < nfa.AddState.1.terminals.length := by
    rw [hst.1]; exact Nat.lt_succ_self _
  obtain ⟨nfa1, hrun, hst1, hstart1, hterm1, hedges1⟩ := singleTerminalStep_upto nfa.StateCount
    (Nat.lt_succ_self _)
    { start := nfa.AddState.1.start,
      terminals := nfa.AddState.1.terminals.set nfa.StateCount true,
      edges := nfa.AddState.1.edges }
    (Stored_terminals hst _ (by simp [hst.1])) (nfa.StateCount + 1) (Nat.le_refl _)
  have hsame : ∀ x, edgesOf
      ({ start := nfa.AddState.1.start,
         terminals := nfa.AddState.1.terminals.set nfa.StateCount true,
         edges := nfa.AddState.1.edges } : NondeterministicFiniteAutomaton) x = nfa.edgesOf x :=
    fun x => hedgesA x
  have hflags : ∀ s, (nfa.AddState.1.terminals.set nfa.StateCount true)[s]? =
      if s = nfa.StateCount then some true else nfa.terminals[s]? := by
    intro s
    rw [hterm, List.getElem?_set]
    by_cases hs : nfa.StateCount = s
    · subst hs
      simp [hlenT]
    · have hs2 : ¬ s = nfa.StateCount := fun h => hs h.symm
      simp only [hs, hs2, if_false]
      by_cases hlt : s < nfa.terminals.length
      · rw [List.getElem?_append_left hlt]
      · rw [List.getElem?_eq_none (by simp; omega), List.getElem?_eq_none (by omega)]
  refine ⟨nfa1, ?_, hst1, hstart1.trans hstart, ?_, ?_, ?_⟩
  · unfold ConvertNfaToNfaWithSingleTerminal
    have hcount : StateCount
        ({ start := nfa.AddState.1.start,
           terminals := nfa.AddState.1.terminals.set nfa.StateCount true,
           edges := nfa.AddState.1.edges } : NondeterministicFiniteAutomaton)
          = nfa.StateCount + 1 := by
      simp [StateCount, AddState]
    simp only [hnew, SetTerminal, hlen, if_true, hcount, hrun]
  · intro s hs
    rw [hterm1 s]
    simp [hs]
  · intro s hs
    rw [hedges1 s, hsame, hflags]
    simp [Nat.lt_succ_of_lt hs, Nat.ne_of_lt hs]
  · rw [hedges1, hsame, hflags]
    have : nfa.edgesOf nfa.StateCount = [] := edgesOf_eq_nil (Nat.le_refl _)
    simp [this]

end

section

open NondeterministicFiniteAutomaton

theorem synthClosed_imp (c : State) (P : Prop) (Q : Edge → Prop) (h : SynthClosed c Q) :
    SynthClosed c (fun e => P → Q e) := by
  intro ps loops ns p r hps hns hp hl hn hP
  exact h ps loops ns p r hps hns (fun e he => ⟨(hp e he).1 hP, (hp e he).2⟩)
    (fun e he => hl e he hP) (fun e he => ⟨(hn e he).1 hP, (hn e he).2⟩)

/-- After the single-terminal step on a well-formed NFA with `n` states
every edge that leaves the fresh state `n` leads to it, and the edge words
are readable if the words of the NFA are plain. -/
theorem singleTerminal_edges (nfa nfaT : NondeterministicFiniteAutomaton)
    (hstT : Stored nfaT (nfa.StateCount + 1))
    (hedgesT : ∀ s, s < nfa.StateCount → nfaT.edgesOf s = nfa.edgesOf s ++
      (if nfa.terminals[s]? = some true then [{ From := s, To := nfa.StateCount, Word := [] }]
        else []))
    (hedgesTT : nfaT.edgesOf nfa.StateCount =
      [{ From := nfa.StateCount, To := nfa.StateCount, Word := [] }]) :
    ∀ e ∈ nfaT.edges.flatten,
      (e.From = nfa.StateCount → e.To = nfa.StateCount) ∧ (PlainWords nfa → WordOk e.Word) := by
  intro e he
  obtain ⟨s, hs⟩ := (mem_flatten_iff nfaT e).mp he
  have hfrom := (hstT.2.2 s e hs).1
  have hlt : s < nfa.StateCount + 1 := by
    have := mem_edgesOf_lt hs
    rw [hstT.2.1] at this; exact this
  by_cases hsn : s = nfa.StateCount
  · subst hsn
    rw [hedgesTT] at hs
    simp only [List.mem_singleton] at hs
    subst hs
    exact ⟨fun _ => rfl, fun _ => Or.inl rfl⟩
  · have hlt2 : s < nfa.StateCount := Nat.lt_of_le_of_ne (Nat.le_of_lt_succ hlt) hsn
    refine ⟨fun h => absurd (hfrom.symm.trans h) hsn, fun hplain => ?_⟩
    rw [hedgesT s hlt2] at hs
    rcases List.mem_append.mp hs with hs | hs
    · by_cases hw : e.Word = []
      · exact Or.inl hw
      · exact Or.inr (plain_gram e.Word hw (hplain s e hs))
    · split at hs
      · simp only [List.mem_singleton] at hs
        subst hs
        exact Or.inl rfl
      · exact absurd hs (List.not_mem_nil _)

theorem nfaAB_plain : PlainWords nfaAB := by
  intro s e he
  match s with
  | 0 => simp [nfaAB, edgesOf] at he; subst he; simp [isSymbol]
  | 1 => simp [nfaAB, edgesOf] at he; subst he; simp [isSymbol]
  | s + 2 => simp [nfaAB, edgesOf] at he

end

section

open DeterministicFiniteAutomaton

/-- `Edges` on a state of a DFA all of whose transitions are on symbols below
0x80: it returns, for the symbols with a transition and no others, one edge
each, with the state as source, the one-byte word of the symbol and the
destination the map holds, in strictly ascending order of the symbol. -/
theorem DFA_Edges_ascii (dfa : DeterministicFiniteAutomaton) (s : State)
    (m : Nat → Option State) (hm : dfa.edges[s]? = some m)
    (hascii : ∀ c, 128 ≤ c → m c = none) :
    ∃ es, dfa.Edges s = .ok es ∧
      (∀ e ∈ es, e.From = s ∧ ∃ c, e.Word = [c] ∧ m c = some e.To) ∧
      (∀ c t, m c = some t → { From := s, To := t, Word := [c] } ∈ es) ∧
      es.Pairwise (fun a b => a.Word.headD 0 < b.Word.headD 0) := by
  have hf : ∀ c, (m c).map (fun dest => ({ From := s, To := dest, Word := runeToString c } : Edge))
      = (m c).map (fun dest => ({ From := s, To := dest, Word := [c] } : Edge)) := by
    intro c
    by_cases hc : c < 128
    · simp [runeToString, hc]
    · rw [hascii c (Nat.le_of_not_lt hc)]; rfl
  have hpw : ((List.range 256).filterMap fun c =>
      (m c).map fun dest => ({ From := s, To := dest, Word := [c] } : Edge)).Pairwise
      (fun a b => a.Word.headD 0 < b.Word.headD 0) := by
    refine List.Pairwise.filterMap _ ?_ (List.pairwise_lt_range 256)
    intro a b hab x hx y hy
    simp only [Option.mem_def, Option.map_eq_some'] at hx hy
    obtain ⟨_, _, rfl⟩ := hx
    obtain ⟨_, _, rfl⟩ := hy
    exact hab
  have hsorted : ((List.range 256).filterMap fun c =>
      (m c).map fun dest => ({ From := s, To := dest, Word := [c] } : Edge)).Sorted
      (fun a b => lessByFirstByte b a = false) := by
    refine List.Pairwise.imp ?_ hpw
    intro a b hab
    simp only [lessByFirstByte, decide_eq_false_iff_not]
    exact Nat.lt_asymm hab
  refine ⟨_, ?_, ?_, ?_, hpw⟩
  · simp only [Edges, hm, hf]
    rw [List.Sorted.insertionSort_eq hsorted]
  · intro e he
    obtain ⟨c, _, hc⟩ := List.mem_filterMap.mp he
    simp only [Option.map_eq_some'] at hc
    obtain ⟨t, ht, rfl⟩ := hc
    exact ⟨rfl, c, rfl, ht⟩
  · intro c t hct
    have hc : c < 128 := by
      by_contra h
      rw [hascii c (Nat.le_of_not_lt h)] at hct
      cases hct
    refine List.mem_filterMap.mpr ⟨c, List.mem_range.mpr (by omega), ?_⟩
    simp [hct]

theorem DFA_Edges_ascii_witness :
    ∃ es, dfaOneEdge.Edges 0 = .ok es ∧
      (∀ e ∈ es, e.From = 0 ∧ ∃ c, e.Word = [c] ∧ mapSet emptyMap 97 1 c = some e.To) ∧
      (∀ c t, mapSet emptyMap 97 1 c = some t → { From := 0, To := t, Word := [c] } ∈ es) ∧
      es.Pairwise (fun a b => a.Word.headD 0 < b.Word.headD 0) :=
  DFA_Edges_ascii dfaOneEdge 0 (mapSet emptyMap 97 1) rfl
    (by
      intro c hc
      have : c ≠ 97 := by omega
      simp [mapSet, emptyMap, this])

end

section

open NondeterministicFiniteAutomaton

/-- `ConvertNfaToNfaWithSingleTerminal` on a well-formed NFA with `n` states:
it returns the fresh state `n` and keeps the start state; afterwards no state
is terminal, the fresh state neither; every state that was terminal has the
epsilon edge to the fresh state behind its other edges, every other old state
has the edges it had, and the fresh state has one edge, the epsilon edge to
itself. -/
theorem ConvertNfaToNfaWithSingleTerminal_clears (nfa : NondeterministicFiniteAutomaton)
    (h : nfa.WellFormed) :
    ∃ nfa1, ConvertNfaToNfaWithSingleTerminal nfa = .ok (nfa1, nfa.StateCount) ∧
      nfa1.StateCount = nfa.StateCount + 1 ∧ nfa1.start = nfa.start ∧
      (∀ s, s < nfa.StateCount + 1 → nfa1.IsTerminal s = .ok false) ∧
      (∀ s, s < nfa.StateCount → nfa1.edgesOf s = nfa.edgesOf s ++
        (if nfa.terminals[s]? = some true then [{ From := s, To := nfa.StateCount, Word := [] }]
          else [])) ∧
      nfa1.edgesOf nfa.StateCount =
        [{ From := nfa.StateCount, To := nfa.StateCount, Word := [] }] := by
  obtain ⟨nfa1, hrun, hst, hstart, hterm, hedges, hT⟩ :=
    ConvertNfaToNfaWithSingleTerminal_spec nfa h
  refine ⟨nfa1, hrun, hst.2.1, hstart, ?_, hedges, hT⟩
  intro s hs
  simp only [IsTerminal, hterm s hs]

theorem ConvertNfaToNfaWithSingleTerminal_clears_witness :
    ∃ nfa1, ConvertNfaToNfaWithSingleTerminal nfaAB = .ok (nfa1, nfaAB.StateCount) ∧
      nfa1.StateCount = nfaAB.StateCount + 1 ∧ nfa1.start = nfaAB.start ∧
      (∀ s, s < nfaAB.StateCount + 1 → nfa1.IsTerminal s = .ok false) ∧
      (∀ s, s < nfaAB.StateCount → nfa1.edgesOf s = nfaAB.edgesOf s ++
        (if nfaAB.terminals[s]? = some true then
          [{ From := s, To := nfaAB.StateCount, Word := [] }]
          else [])) ∧
      nfa1.edgesOf nfaAB.StateCount =
        [{ From := nfaAB.StateCount, To := nfaAB.StateCount, Word := [] }] :=
  ConvertNfaToNfaWithSingleTerminal_clears nfaAB nfaAB_wellFormed

end

section

open NondeterministicFiniteAutomaton

/-- `AddEdge` puts the edge behind the edges of its source: as a whole the
edges are the old ones and the new one. -/
theorem AddEdge_perm {nfa : NondeterministicFiniteAutomaton} {n : Nat} (h : Stored nfa n)
    (edge : Edge) (hf : edge.From < n) (ht : edge.To < n) :
    ∃ nfa1, nfa.AddEdge edge = .ok nfa1 ∧ Stored nfa1 n ∧ nfa1.start = nfa.start ∧
      nfa1.terminals = nfa.terminals ∧ nfa1.edges.flatten.Perm (nfa.edges.flatten ++ [edge]) := by
  obtain ⟨nfa1, hadd, hst, hstart, hterm, -⟩ := AddEdge_stored h edge hf ht
  refine ⟨nfa1, hadd, hst, hstart, hterm, ?_⟩
  have hlt : edge.From < nfa.edges.length := by rw [h.2.1]; exact hf
  have hget : nfa.edges[edge.From]? = some nfa.edges[edge.From] := List.getElem?_eq_getElem hlt
  simp only [AddEdge, hget, Except.ok.injEq] at hadd
  subst hadd
  simp only
  have hsplit : nfa.edges = nfa.edges.take edge.From ++
      nfa.edges[edge.From] :: nfa.edges.drop (edge.From + 1) := by
    rw [← List.drop_eq_getElem_cons hlt, List.take_append_drop]
  have hset : nfa.edges.set edge.From (nfa.edges[edge.From] ++ [edge]) =
      nfa.edges.take edge.From ++
        (nfa.edges[edge.From] ++ [edge]) :: nfa.edges.drop (edge.From + 1) := by
    rw [List.set_eq_take_append_cons_drop]
    simp [hlt]
  rw [hset]
  conv => rhs; rw [hsplit]
  simp only [List.flatten_append, List.flatten_cons, List.append_assoc]
  refine List.Perm.append_left _ (List.Perm.append_left _ ?_)
  exact List.perm_append_comm

/-- `AddState` adds no edge. -/
theorem AddState_flatten_eq (nfa : NondeterministicFiniteAutomaton) :
    nfa.AddState.1.edges.flatten = nfa.edges.flatten := by
  simp [AddState]

/-- The loop over the bytes `u` of a word of bytes below 0x80 adds the chain
of spec section 4.2. -/
theorem splitChain_perm (dest L : Nat) (u : List Nat) (hu : u ≠ [])
    (hascii : ∀ b ∈ u, b < 128) (fuel i : Nat) (hfuel : u.length ≤ fuel)
    (hi : i + u.length = L) (prev : State) (M : NondeterministicFiniteAutomaton) (m : Nat)
    (hM : Stored M m) (hprev : prev < m) (hdest : dest < m) :
    ∃ M1, splitChain dest L (rangeStringFrom fuel i u) prev M = .ok M1 ∧
      Stored M1 (m + (u.length - 1)) ∧ M1.start = M.start ∧
      M1.terminals = M.terminals ++ List.replicate (u.length - 1) false ∧
      M1.edges.flatten.Perm (M.edges.flatten ++ chainEdges prev dest m u) := by
  induction u generalizing fuel i prev M m with
  | nil => exact absurd rfl hu
  | cons c u ih =>
    have hc : c < 128 := hascii c (List.mem_cons_self _ _)
    obtain ⟨fuel, rfl⟩ : ∃ f, fuel = f + 1 := ⟨fuel - 1, by simp at hfuel; omega⟩
    cases u with
    | nil =>
      have hlast : ¬ i + 1 < L := by simp at hi; omega
      obtain ⟨M1, hadd, hst, hstart, hterm, hperm⟩ := AddEdge_perm hM
        { From := prev, To := dest, Word := [c] } hprev hdest
      refine ⟨M1, ?_, by simpa using hst, hstart, by simpa using hterm, hperm⟩
      have hr : rangeStringFrom (fuel + 1) i [c] = [(i, c)] := by
        simp only [rangeStringFrom, decodeRune_ascii c [] hc, List.drop_succ_cons, List.drop_zero]
        cases fuel <;> simp [rangeStringFrom]
      rw [hr]
      simp only [splitChain, hlast, if_false, runeToString_ascii c hc, hadd]
    | cons c2 u2 =>
      have hnext : i + 1 < L := by simp at hi; omega
      have hstA := AddState_stored hM
      obtain ⟨M2, hadd, hst2, hstart2, hterm2, hperm2⟩ := AddEdge_perm hstA.1
        { From := prev, To := m, Word := [c] } (Nat.lt_succ_of_lt hprev) (Nat.lt_succ_self m)
      obtain ⟨M3, hrun, hst3, hstart3, hterm3, hperm3⟩ := ih (List.cons_ne_nil _ _)
        (fun b hb => hascii b (List.mem_cons_of_mem _ hb)) fuel (i + 1)
        (by simp at hfuel ⊢; omega) (by simp at hi ⊢; omega) m M2 (m + 1) hst2
        (Nat.lt_succ_self m) (Nat.lt_succ_of_lt hdest)
      refine ⟨M3, ?_, ?_, ?_, ?_, ?_⟩
      · have hr : rangeStringFrom (fuel + 1) i (c :: c2 :: u2) =
            (i, c) :: rangeStringFrom fuel (i + 1) (c2 :: u2) := by
          simp [rangeStringFrom, decodeRune_ascii c _ hc]
        rw [hr]
        simp only [splitChain, hnext, if_true, runeToString_ascii c hc]
        rw [hstA.2.1, hadd]
        exact hrun
      · have : m + 1 + ((c2 :: u2).length - 1) = m + ((c :: c2 :: u2).length - 1) := by
          simp; omega
        rw [← this]; exact hst3
      · rw [hstart3, hstart2, hstA.2.2.1]
      · rw [hterm3, hterm2, hstA.2.2.2.1]
        simp [List.replicate_succ]
      · refine hperm3.trans ?_
        rw [AddState_flatten_eq] at hperm2
        have := List.Perm.append_right (chainEdges m dest (m + 1) (c2 :: u2)) hperm2
        refine this.trans ?_
        simp [chainEdges]

/-- The loop of `splitEdge` over edges between states below `n` whose words
are made of bytes below 0x80 adds the edges of spec section 4.2. -/
theorem forEach_splitEdge_perm (n : Nat) (rest : List Edge)
    (hrest : ∀ e ∈ rest, e.From < n ∧ e.To < n ∧ ∀ b ∈ e.Word, b < 128)
    (M : NondeterministicFiniteAutomaton) (m : Nat) (hm : n ≤ m) (hM : Stored M m) :
    ∃ M1, forEach splitEdge rest M = .ok M1 ∧ Stored M1 (m + extraStates rest) ∧
      M1.start = M.start ∧
      M1.terminals = M.terminals ++ List.replicate (extraStates rest) false ∧
      M1.edges.flatten.Perm (M.edges.flatten ++ splitEdges m rest) := by
  induction rest generalizing M m with
  | nil => exact ⟨M, rfl, by simpa [extraStates] using hM, rfl, by simp [extraStates],
      by simp [splitEdges]⟩
  | cons e rest ih =>
    have he := hrest e (List.mem_cons_self _ _)
    have hf : e.From < m := Nat.lt_of_lt_of_le he.1 hm
    have ht : e.To < m := Nat.lt_of_lt_of_le he.2.1 hm
    have hone : ∃ M1, splitEdge e M = .ok M1 ∧ Stored M1 (m + (e.Word.length - 1)) ∧
        M1.start = M.start ∧
        M1.terminals = M.terminals ++ List.replicate (e.Word.length - 1) false ∧
        M1.edges.flatten.Perm (M.edges.flatten ++
          (if e.Word.length ≤ 1 then [e] else chainEdges e.From e.To m e.Word)) := by
      unfold splitEdge
      by_cases hlen : e.Word.length ≤ 1
      · obtain ⟨M1, hadd, hst, hstart, hterm, hperm⟩ := AddEdge_perm hM e hf ht
        have h0 : e.Word.length - 1 = 0 := by omega
        exact ⟨M1, by simp [hlen, hadd], by simpa [h0] using hst, hstart,
          by simpa [h0] using hterm, by simpa [hlen] using hperm⟩
      · have hne : e.Word ≠ [] := by
          intro h; rw [h] at hlen; simp at hlen
        obtain ⟨M1, hrun, hst, hstart, hterm, hperm⟩ := splitChain_perm e.To e.Word.length
          e.Word hne he.2.2 e.Word.length 0 (Nat.le_refl _) (by simp) e.From M m hM hf ht
        exact ⟨M1, by simp only [hlen, if_false, rangeString, hrun], hst, hstart, hterm,
          by simpa [hlen] using hperm⟩
    obtain ⟨M1, hrun1, hst1, hstart1, hterm1, hperm1⟩ := hone
    obtain ⟨M2, hrun2, hst2, hstart2, hterm2, hperm2⟩ :=
      ih (fun x hx => hrest x (List.mem_cons_of_mem _ hx)) M1 (m + (e.Word.length - 1))
        (by omega) hst1
    have hextra : extraStates (e :: rest) = (e.Word.length - 1) + extraStates rest := by
      simp [extraStates]
    refine ⟨M2, by simp only [forEach, hrun1, hrun2], ?_, hstart2.trans hstart1, ?_, ?_⟩
    · rw [hextra, ← Nat.add_assoc]; exact hst2
    · rw [hterm2, hterm1, hextra, List.append_assoc, List.append_replicate_replicate]
    · refine hperm2.trans ?_
      have := List.Perm.append_right
        (splitEdges (m + (e.Word.length - 1)) rest) hperm1
      refine this.trans ?_
      simp [splitEdges]

/-- The edges `chainEdges` gives have words of one byte. -/
theorem chainEdges_short (src dest fresh : State) (u : List Nat) :
    ∀ x ∈ chainEdges src dest fresh u, x.Word.length = 1 := by
  induction u generalizing src fresh with
  | nil => intro x hx; simp [chainEdges] at hx
  | cons c u ih =>
    cases u with
    | nil =>
      intro x hx
      simp only [chainEdges, List.mem_singleton] at hx
      subst hx; rfl
    | cons c2 u2 =>
      intro x hx
      simp only [chainEdges, List.mem_cons] at hx
      rcases hx with hx | hx
      · subst hx; rfl
      · exact ih fresh (fresh + 1) x (by simpa [chainEdges] using hx)

theorem splitEdges_short (fresh : State) (es : List Edge) :
    ∀ x ∈ splitEdges fresh es, x.Word.length ≤ 1 := by
  induction es generalizing fresh with
  | nil => intro x hx; simp [splitEdges] at hx
  | cons e es ih =>
    intro x hx
    simp only [splitEdges, List.mem_append] at hx
    rcases hx with hx | hx
    · by_cases hlen : e.Word.length ≤ 1
      · simp only [hlen, if_true, List.mem_singleton] at hx
        subst hx; exact hlen
      · simp only [hlen, if_false] at hx
        exact Nat.le_of_eq (chainEdges_short _ _ _ _ x hx)
    · exact ih _ x hx

/-- `SplitLongWordsInNfa` on a well-formed NFA with `n` states whose words are
made of bytes below 0x80 does what spec section 4.2 says: the start state and
the flags of the states are kept; the new states, as many as the sum of L - 1
over the words of L > 1 bytes, are not terminal; every edge is stored with its
source; the edges are, up to their order, the edges of at most one byte as
they were and for every longer edge its chain through fresh states; and no
word is longer than one byte. -/
theorem SplitLongWordsInNfa_chains (nfa : NondeterministicFiniteAutomaton)
    (hwf : nfa.WellFormed) (hascii : AsciiWords nfa) :
    ∃ nfa1, SplitLongWordsInNfa nfa = .ok nfa1 ∧
      nfa1.StateCount = nfa.StateCount + extraStates nfa.edges.flatten ∧
      nfa1.start = nfa.start ∧
      nfa1.terminals = nfa.terminals ++ List.replicate (extraStates nfa.edges.flatten) false ∧
      (∀ s, ∀ e ∈ nfa1.edgesOf s, e.From = s) ∧
      nfa1.edges.flatten.Perm (splitEdges nfa.StateCount nfa.edges.flatten) ∧
      ∀ e ∈ nfa1.edges.flatten, e.Word.length ≤ 1 := by
  have hst := wellFormed_stored hwf
  have hlen : nfa.terminals.length = nfa.StateCount := hwf.1
  have hM0 : Stored
      ({ start := nfa.start, terminals := nfa.terminals,
         edges := List.replicate nfa.StateCount [] } : NondeterministicFiniteAutomaton)
      nfa.StateCount := by
    refine ⟨hlen, by simp, ?_⟩
    intro s e he
    simp only [edgesOf, List.getD_eq_getElem?_getD, List.getElem?_replicate] at he
    split at he <;> simp at he
  have hall : ∀ e ∈ nfa.edges.flatten,
      e.From < nfa.StateCount ∧ e.To < nfa.StateCount ∧ ∀ b ∈ e.Word, b < 128 := by
    intro e he
    obtain ⟨s, hs⟩ := (mem_flatten_iff nfa e).mp he
    exact ⟨(stored_flatten hst e he).1, (stored_flatten hst e he).2, hascii s e hs⟩
  obtain ⟨M1, hrun, hst1, hstart1, hterm1, hperm⟩ := forEach_splitEdge_perm nfa.StateCount
    nfa.edges.flatten hall _ nfa.StateCount (Nat.le_refl _) hM0
  have hperm2 : M1.edges.flatten.Perm (splitEdges nfa.StateCount nfa.edges.flatten) := by
    have h0 : (List.replicate nfa.StateCount ([] : List Edge)).flatten = [] :=
      flatten_replicate_nil _
    simpa [h0] using hperm
  refine ⟨M1, ?_, hst1.2.1, hstart1, hterm1, fun s e he => (hst1.2.2 s e he).1, hperm2, ?_⟩
  · unfold SplitLongWordsInNfa
    rw [copyState_upto nfa nfa.StateCount (by rw [hlen])]
    simp only [SetStart, Start]
    rw [splitState_upto nfa nfa.StateCount (Nat.le_refl _)]
    have htake : List.take nfa.StateCount nfa.edges = nfa.edges := List.take_length _
    have htake2 : List.take nfa.StateCount nfa.terminals = nfa.terminals := by
      rw [← hlen]; exact List.take_length _
    rw [htake, htake2]
    exact hrun
  · intro e he
    exact splitEdges_short _ _ e (hperm2.subset he)

theorem SplitLongWordsInNfa_chains_witness :
    ∃ nfa1, SplitLongWordsInNfa nfaAB = .ok nfa1 ∧
      nfa1.StateCount = nfaAB.StateCount + extraStates nfaAB.edges.flatten ∧
      nfa1.start = nfaAB.start ∧
      nfa1.terminals =
        nfaAB.terminals ++ List.replicate (extraStates nfaAB.edges.flatten) false ∧
      (∀ s, ∀ e ∈ nfa1.edgesOf s, e.From = s) ∧
      nfa1.edges.flatten.Perm (splitEdges nfaAB.StateCount nfaAB.edges.flatten) ∧
      ∀ e ∈ nfa1.edges.flatten, e.Word.length ≤ 1 :=
  SplitLongWordsInNfa_chains nfaAB nfaAB_wellFormed nfaAB_ascii

end

section

open NondeterministicFiniteAutomaton

/-- There are at most 2^n different hashes of vectors of length `n`. -/
theorem keys_length_le (n : Nat) (keys : List Nat) (hnd : keys.Nodup)
    (h : ∀ k ∈ keys, ∃ V : List Bool, V.length = n ∧ k = hashOf V) : keys.length ≤ 2 ^ n := by
  have hex : ∃ L : List (List Bool), L.map hashOf = keys ∧ ∀ V ∈ L, V.length = n := by
    clear hnd
    induction keys with
    | nil => exact ⟨[], rfl, fun _ hV => absurd hV (List.not_mem_nil _)⟩
    | cons k keys ih =>
      obtain ⟨V, hV, hk⟩ := h k (List.mem_cons_self _ _)
      obtain ⟨L, hL, hlen⟩ := ih (fun x hx => h x (List.mem_cons_of_mem _ hx))
      refine ⟨V :: L, by simp [hL, hk], ?_⟩
      intro W hW
      rcases List.mem_cons.mp hW with hW | hW
      · rw [hW]; exact hV
      · exact hlen W hW
  obtain ⟨L, hL, hlen⟩ := hex
  have hLnd : L.Nodup := by
    rw [← hL] at hnd
    exact List.Nodup.of_map _ hnd
  have := vectors_length_le n L hLnd hlen
  rw [← hL, List.length_map]
  exact this

theorem totInv_length_le {n : Nat} {ex : Exploration} (h : TotInv n ex) :
    ex.metaStates.length ≤ 2 ^ n := by
  have := keys_length_le n (ex.metaStates.map Prod.fst) h.2.2.1
    (by
      intro k hk
      obtain ⟨p, hp, rfl⟩ := List.mem_map.mp hk
      exact (h.2.2.2 p hp).1)
  simpa using this

/-- The loop of `dfs` over the successor sets returns, given that `dfs`
returns with the fuel that is left. -/
theorem exploreEdge_total (nfa2 : NondeterministicFiniteAutomaton) (n : Nat) (fuel : Nat)
    (hdfs : ∀ M ex, M.length = n → TotInv n ex → 2 ^ n < fuel + ex.metaStates.length →
      ∃ ex1 id, dfsMeta nfa2 fuel M ex = .ok (ex1, id) ∧ TotInv n ex1 ∧
        ex.metaStates.length ≤ ex1.metaStates.length ∧ id < ex1.dfa.edges.length)
    (id : State) (rest : List (Nat × List Bool))
    (hrest : ∀ p ∈ rest, p.1 < 128 ∧ p.2.length = n)
    (ex : Exploration) (hinv : TotInv n ex) (hid : id < ex.dfa.edges.length)
    (hfuel : 2 ^ n < fuel + ex.metaStates.length) :
    ∃ ex2, forEach (exploreEdge (dfsMeta nfa2 fuel) id) rest ex = .ok ex2 ∧ TotInv n ex2 ∧
      ex.metaStates.length ≤ ex2.metaStates.length := by
  induction rest generalizing ex with
  | nil => exact ⟨ex, rfl, hinv, Nat.le_refl _⟩
  | cons p rest ih =>
    obtain ⟨c, v⟩ := p
    have hp := hrest (c, v) (List.mem_cons_self _ _)
    obtain ⟨ex1, idTo, hrun1, hinv1, hlen1, hidTo⟩ := hdfs v ex hp.2 hinv hfuel
    have hid1 : id < ex1.dfa.edges.length := by
      rw [hinv1.2.1]
      rw [hinv.2.1] at hid
      exact Nat.lt_of_lt_of_le hid hlen1
    have hadd : ex1.dfa.AddEdge { From := id, To := idTo, Word := runeToString c } =
        .ok { ex1.dfa with edges := ex1.dfa.edges.set id (mapSet ex1.dfa.edges[id] c idTo) } := by
      simp only [DeterministicFiniteAutomaton.AddEdge, runeToString_ascii c hp.1,
        List.getElem?_eq_getElem hid1]
    have hinv1a : TotInv n
        { ex1 with
          dfa := { ex1.dfa with
            edges := ex1.dfa.edges.set id (mapSet ex1.dfa.edges[id] c idTo) } } := by
      refine ⟨by simpa using hinv1.1, by simpa using hinv1.2.1, hinv1.2.2.1, ?_⟩
      intro q hq
      have := hinv1.2.2.2 q hq
      exact ⟨this.1, by simpa using this.2⟩
    obtain ⟨ex2, hrun2, hinv2, hlen2⟩ := ih (fun q hq => hrest q (List.mem_cons_of_mem _ hq))
      _ hinv1a (by simpa using hid1)
      (by
        show 2 ^ n < fuel + ex1.metaStates.length
        omega)
    refine ⟨ex2, ?_, hinv2, Nat.le_trans hlen1 hlen2⟩
    simp only [forEach, exploreEdge, hrun1, hadd]
    exact hrun2

/-- The closure `dfs` of `ConvertNfaToDfa` returns when the fuel outnumbers
the hashes not yet stored, whether hashes collide or not. -/
theorem dfsMeta_total (nfa2 : NondeterministicFiniteAutomaton) (n : Nat) (h2 : Stored nfa2 n)
    (h1 : OneByte nfa2) (fuel : Nat) :
    ∀ M ex, M.length = n → TotInv n ex → 2 ^ n < fuel + ex.metaStates.length →
      ∃ ex1 id, dfsMeta nfa2 fuel M ex = .ok (ex1, id) ∧ TotInv n ex1 ∧
        ex.metaStates.length ≤ ex1.metaStates.length ∧ id < ex1.dfa.edges.length := by
  induction fuel with
  | zero =>
    intro M ex _ hinv hfuel
    have := totInv_length_le hinv
    omega
  | succ fuel ih =>
    intro M ex hMlen hinv hfuel
    cases hget : mapGet ex.metaStates (hashOf M) with
    | some ms =>
      have hmem := mapGet_mem _ _ _ hget
      refine ⟨ex, ms.id, ?_, hinv, Nat.le_refl _, (hinv.2.2.2 _ hmem).2⟩
      simp only [dfsMeta]
      have : mapGet ex.metaStates (MetaState.calcHash { states := M, id := 0 }) = some ms := hget
      rw [this]
    | none =>
      have hN : ex.dfa.AddState.2 = ex.dfa.edges.length := by
        simp [DeterministicFiniteAutomaton.AddState, DeterministicFiniteAutomaton.StateCount]
      have hlenT : ex.dfa.edges.length < ex.dfa.AddState.1.terminals.length := by
        simp [DeterministicFiniteAutomaton.AddState, hinv.1]
      obtain ⟨dfa2, me, hcollect, hedges2, -, hlen2, -, -, hmarks⟩ :=
        forEach_metaStateStep nfa2 n h2 h1 ex.dfa.edges.length M.enum
          (by
            intro p hp
            have := (mem_enum_iff M p.1 p.2).mp hp
            have hlt : p.1 < M.length := by
              by_contra hn
              rw [List.getElem?_eq_none (Nat.le_of_not_lt hn)] at this
              simp at this
            rw [← hMlen]; exact hlt)
          ex.dfa.AddState.1 hlenT (fun _ _ => False) []
          ⟨by simp, by simp, by simp⟩
      have hme : ∀ p ∈ me, p.1 < 128 ∧ p.2.length = n := by
        intro p hp
        obtain ⟨hl, ⟨u, hu⟩, -⟩ := hmarks.2.1 p hp
        rcases hu with hu | ⟨q, -, -, e, he, hw, -⟩
        · exact absurd hu id
        · obtain ⟨c, hc, hwc⟩ := h1 q.1 e he
          rw [hw] at hwc
          simp only [List.cons.injEq, and_true] at hwc
          exact ⟨hwc ▸ hc, hl⟩
      have hinvF : TotInv n
          { dfa := dfa2,
            metaStates :=
              (hashOf M, { states := M, id := ex.dfa.edges.length }) :: ex.metaStates } := by
        refine ⟨?_, ?_, ?_, ?_⟩
        · simp [hlen2, hedges2, DeterministicFiniteAutomaton.AddState, hinv.1]
        · simp [hedges2, DeterministicFiniteAutomaton.AddState, hinv.2.1]
        · simp only [List.map_cons, List.nodup_cons]
          refine ⟨?_, hinv.2.2.1⟩
          intro hmem
          obtain ⟨p, hp, hps⟩ := List.mem_map.mp hmem
          exact mapGet_none _ _ hget p.2 (by rw [← hps]; exact hp)
        · intro p hp
          rcases List.mem_cons.mp hp with hp | hp
          · subst hp
            exact ⟨⟨M, hMlen, rfl⟩, by simp [hedges2, DeterministicFiniteAutomaton.AddState]⟩
          · have := hinv.2.2.2 p hp
            exact ⟨this.1, by
              simp only [hedges2, DeterministicFiniteAutomaton.AddState, List.length_append,
                List.length_singleton]
              exact Nat.lt_succ_of_lt this.2⟩
      have hidF : ex.dfa.edges.length < dfa2.edges.length := by
        simp [hedges2, DeterministicFiniteAutomaton.AddState]
      obtain ⟨ex3, hrun3, hinv3, hlen3⟩ := exploreEdge_total nfa2 n fuel ih
        ex.dfa.edges.length me hme
        { dfa := dfa2,
          metaStates := (hashOf M, { states := M, id := ex.dfa.edges.length }) :: ex.metaStates }
        hinvF hidF (by simp only [List.length_cons]; omega)
      have hlen3a : ex.metaStates.length + 1 ≤ ex3.metaStates.length := by
        simpa using hlen3
      refine ⟨ex3, ex.dfa.edges.length, ?_, hinv3, by omega, ?_⟩
      · simp only [dfsMeta]
        have hget2 : mapGet ex.metaStates (MetaState.calcHash { states := M, id := 0 }) = none :=
          hget
        rw [hget2]
        simp only [hN, hcollect]
        have hrun3a : forEach (exploreEdge (dfsMeta nfa2 fuel) ex.dfa.edges.length) me
            { dfa := dfa2,
              metaStates := (MetaState.calcHash { states := M, id := 0 },
                { states := M, id := ex.dfa.edges.length }) :: ex.metaStates } = .ok ex3 := hrun3
        rw [hrun3a]
      · rw [hinv3.2.1, hinv.2.1]
        exact Nat.lt_of_succ_le hlen3a

/-- `ConvertNfaToDfa` is total on the well-formed NFAs whose edge words are
made of bytes below 0x80, whether hashes collide or not: no index is out of
range, no word is empty or too long for `AddEdge`, the recursion ends, and the
DFA has at least one and at most 2^n states, `n` the number of states of the
automaton that `ConvertNfaToNfaWithWordsOfLen1` returns. -/
theorem ConvertNfaToDfa_total (nfa1 : NondeterministicFiniteAutomaton)
    (hwf : nfa1.WellFormed) (hascii : AsciiWords nfa1) :
    ∃ nfa2 dfa, ConvertNfaToNfaWithWordsOfLen1 nfa1 = .ok nfa2 ∧
      ConvertNfaToDfa nfa1 = .ok dfa ∧
      1 ≤ dfa.StateCount ∧ dfa.StateCount ≤ 2 ^ nfa2.StateCount ∧
      dfa.terminals.length = dfa.StateCount := by
  obtain ⟨nfa2, n, hrun, hst, hstart, hone, -⟩ :=
    ConvertNfaToNfaWithWordsOfLen1_spec nfa1 hwf hascii
  have hcount : nfa2.StateCount = n := hst.2.1
  obtain ⟨ex, id, hdfs, hinv, -, hid⟩ := dfsMeta_total nfa2 n hst hone (2 ^ n + 1)
    ((List.replicate n false).set nfa2.start true)
    { dfa := NewDeterministicFiniteAutomaton, metaStates := [] }
    (by simp)
    ⟨rfl, rfl, by simp, fun _ hp => absurd hp (List.not_mem_nil _)⟩
    (by simp)
  refine ⟨nfa2, ex.dfa, hrun, ?_, ?_, ?_, hinv.1⟩
  · simp only [ConvertNfaToDfa, hrun, Start, hcount, hstart, if_true, hdfs]
  · exact Nat.lt_of_le_of_lt (Nat.zero_le _) hid
  · rw [hcount]
    show ex.dfa.edges.length ≤ _
    rw [hinv.2.1]
    exact totInv_length_le hinv

theorem ConvertNfaToDfa_total_witness :
    ∃ nfa2 dfa, ConvertNfaToNfaWithWordsOfLen1 nfaAB = .ok nfa2 ∧
      ConvertNfaToDfa nfaAB = .ok dfa ∧
      1 ≤ dfa.StateCount ∧ dfa.StateCount ≤ 2 ^ nfa2.StateCount ∧
      dfa.terminals.length = dfa.StateCount :=
  ConvertNfaToDfa_total nfaAB nfaAB_wellFormed nfaAB_ascii

end

section

open DeterministicFiniteAutomaton

/-- C11, counterexample: on the DFA with the one state 0 the edge 1 -a-> 0
has a word of length 1, yet `AddEdge` and `DeleteEdge` stop with a panic, the
index-out-of-range error of Go, because 1 is no state. -/
theorem DFA_AddEdge_source_out_of_range :
    ({ From := 1, To := 0, Word := [97] } : Edge).Word.length = 1 ∧
    dfaOneState.AddEdge { From := 1, To := 0, Word := [97] } = .error .indexOutOfRange ∧
    dfaOneState.DeleteEdge { From := 1, To := 0, Word := [97] } = .error .indexOutOfRange ∧
    (dfaOneState.AddEdgeInPlace { From := 1, To := 0, Word := [97] }).2 =
      .error .indexOutOfRange ∧
    (dfaOneState.DeleteEdgeInPlace { From := 1, To := 0, Word := [97] }).2 =
      .error .indexOutOfRange :=
  ⟨rfl, rfl, rfl, rfl, rfl⟩

/-- C11, amended: for every DFA and every edge, `AddEdge` and `DeleteEdge`
stop with the panic "word length must be 1" exactly when the word of the edge
is not one byte long; they stop with a panic of any kind exactly when the word
is not one byte long or the source of the edge is no state of the DFA;
whenever a call stops with a panic the DFA is what it was before the call; and
a call that returns leaves the DFA and the value that `AddEdge` and
`DeleteEdge` give. -/
theorem DFA_word_length_contract (dfa : DeterministicFiniteAutomaton) (edge : Edge) :
    ((dfa.AddEdgeInPlace edge).2 = .error .wordLength ↔ edge.Word.length ≠ 1) ∧
    ((dfa.DeleteEdgeInPlace edge).2 = .error .wordLength ↔ edge.Word.length ≠ 1) ∧
    ((∃ p, (dfa.AddEdgeInPlace edge).2 = .error p) ↔
      edge.Word.length ≠ 1 ∨ dfa.StateCount ≤ edge.From) ∧
    ((∃ p, (dfa.DeleteEdgeInPlace edge).2 = .error p) ↔
      edge.Word.length ≠ 1 ∨ dfa.StateCount ≤ edge.From) ∧
    (∀ p, (dfa.AddEdgeInPlace edge).2 = .error p → (dfa.AddEdgeInPlace edge).1 = dfa) ∧
    (∀ p, (dfa.DeleteEdgeInPlace edge).2 = .error p → (dfa.DeleteEdgeInPlace edge).1 = dfa) ∧
    dfa.AddEdge edge = (dfa.AddEdgeInPlace edge).2.map (fun _ => (dfa.AddEdgeInPlace edge).1) ∧
    dfa.DeleteEdge edge =
      (dfa.DeleteEdgeInPlace edge).2.map (fun b => ((dfa.DeleteEdgeInPlace edge).1, b)) := by
  obtain ⟨From, To, Word⟩ := edge
  have hcount : dfa.StateCount = dfa.edges.length := rfl
  match Word with
  | [] =>
    simp [AddEdgeInPlace, DeleteEdgeInPlace, AddEdge, DeleteEdge, Except.map]
  | [c] =>
    by_cases hf : From < dfa.edges.length
    · have hget : dfa.edges[From]? = some dfa.edges[From] := List.getElem?_eq_getElem hf
      simp [AddEdgeInPlace, DeleteEdgeInPlace, AddEdge, DeleteEdge, Except.map, hget, hcount, hf]
    · have hget : dfa.edges[From]? = none := List.getElem?_eq_none (Nat.le_of_not_lt hf)
      simp [AddEdgeInPlace, DeleteEdgeInPlace, AddEdge, DeleteEdge, Except.map, hget, hcount,
        Nat.le_of_not_lt hf]
  | c :: d :: rest =>
    simp [AddEdgeInPlace, DeleteEdgeInPlace, AddEdge, DeleteEdge, Except.map]

end

section

open NondeterministicFiniteAutomaton

/-- The first loop of `SplitLongWordsInNfa` leaves the argument as it is. -/
theorem forEach_copyStateCall (nfa : NondeterministicFiniteAutomaton) (states : List State)
    (newNfa : NondeterministicFiniteAutomaton) :
    forEach copyStateCall states (nfa, newNfa) =
      (forEach (copyState nfa) states newNfa).map (fun r => (nfa, r)) := by
  induction states generalizing newNfa with
  | nil => rfl
  | cons s states ih =>
    simp only [forEach, copyStateCall, copyState, IsTerminalCall, IsTerminal]
    cases nfa.terminals[s]? with
    | none => rfl
    | some b =>
      simp only []
      cases h : (newNfa.AddState.1).SetTerminal newNfa.AddState.2 b with
      | error p => rfl
      | ok newNfa2 => exact ih newNfa2

/-- The second loop of `SplitLongWordsInNfa` leaves the argument as it is. -/
theorem forEach_splitStateCall (nfa : NondeterministicFiniteAutomaton) (states : List State)
    (newNfa : NondeterministicFiniteAutomaton) :
    forEach splitStateCall states (nfa, newNfa) =
      (forEach (splitState nfa) states newNfa).map (fun r => (nfa, r)) := by
  induction states generalizing newNfa with
  | nil => rfl
  | cons s states ih =>
    simp only [forEach, splitStateCall, splitState, EdgesCall, Edges]
    cases nfa.edges[s]? with
    | none => rfl
    | some es =>
      simp only []
      cases h : forEach splitEdge es newNfa with
      | error p => rfl
      | ok newNfa1 => exact ih newNfa1

/-- `SplitLongWordsInNfa` returns what the embedding without the argument in
view returns, and the argument is then what it was before the call. -/
theorem SplitLongWordsInNfaCall_eq (nfa : NondeterministicFiniteAutomaton) :
    SplitLongWordsInNfaCall nfa = (SplitLongWordsInNfa nfa).map (fun r => (nfa, r)) := by
  simp only [SplitLongWordsInNfaCall, SplitLongWordsInNfa, StateCountCall, StartCall,
    forEach_copyStateCall, StateCount, Start]
  cases h : forEach (copyState nfa) (List.range nfa.edges.length)
      NewNondeterministicFiniteAutomaton with
  | error p => rfl
  | ok newNfa => exact forEach_splitStateCall nfa _ _

theorem ConvertNfaToNfaWithWordsOfLen1Call_eq (nfa1 : NondeterministicFiniteAutomaton) :
    ConvertNfaToNfaWithWordsOfLen1Call nfa1 =
      (ConvertNfaToNfaWithWordsOfLen1 nfa1).map (fun r => (nfa1, r)) := by
  simp only [ConvertNfaToNfaWithWordsOfLen1Call, ConvertNfaToNfaWithWordsOfLen1,
    SplitLongWordsInNfaCall_eq]
  cases h : SplitLongWordsInNfa nfa1 with
  | error p => rfl
  | ok nfa2 =>
    simp only [Except.map]
    cases h3 : forEach
        (fun source nfa3 =>
          iterateOverReachableByEmptyWords nfa2 source (foldState nfa2 source) nfa3)
        (List.range nfa2.StateCount)
        (((List.range nfa2.StateCount).foldl (fun n _ => n.AddState.1)
          NewNondeterministicFiniteAutomaton).SetStart nfa2.Start) with
    | error p => rfl
    | ok nfa3 => rfl

theorem ConvertNfaToDfaCall_eq (nfa1 : NondeterministicFiniteAutomaton) :
    ConvertNfaToDfaCall nfa1 = (ConvertNfaToDfa nfa1).map (fun r => (nfa1, r)) := by
  simp only [ConvertNfaToDfaCall, ConvertNfaToDfa, ConvertNfaToNfaWithWordsOfLen1Call_eq]
  cases h : ConvertNfaToNfaWithWordsOfLen1 nfa1 with
  | error p => rfl
  | ok nfa2 =>
    simp only [Except.map]
    by_cases hs : nfa2.Start < nfa2.StateCount
    · simp only [hs, if_true]
      cases h3 : dfsMeta nfa2 (2 ^ nfa2.StateCount + 1)
          ((List.replicate nfa2.StateCount false).set nfa2.Start true)
          { dfa := NewDeterministicFiniteAutomaton, metaStates := [] } with
      | error p => rfl
      | ok r => rfl
    · simp only [hs, if_false]

end

section

open NondeterministicFiniteAutomaton

theorem count_edgesOf_le (nfa : NondeterministicFiniteAutomaton) (s : State) (x : Edge) :
    List.count x (nfa.edgesOf s) ≤ List.count x nfa.edges.flatten := by
  by_cases hs : s < nfa.edges.length
  · have hof : nfa.edgesOf s = nfa.edges[s] := by
      simp [edgesOf, List.getD_eq_getElem?_getD, List.getElem?_eq_getElem hs]
    rw [hof]
    exact (List.sublist_flatten_of_mem (List.getElem_mem hs)).count_le x
  · rw [edgesOf_eq_nil (Nat.le_of_not_lt hs)]
    simp

/-- `DeleteEdge` counted: of the edges of every state one occurrence of the
edge less, if there was one. -/
theorem DeleteEdge_count {nfa : NondeterministicFiniteAutomaton} {n : Nat} (h : Stored nfa n)
    (edge : Edge) (hf : edge.From < n) :
    ∃ nfa1 b, nfa.DeleteEdge edge = .ok (nfa1, b) ∧ Stored nfa1 n ∧ nfa1.start = nfa.start ∧
      nfa1.terminals = nfa.terminals ∧
      ∀ s x, List.count x (nfa1.edgesOf s) =
        List.count x (nfa.edgesOf s) - (if edge = x then 1 else 0) := by
  have hlt : edge.From < nfa.StateCount := by simpa [StateCount, h.2.1] using hf
  obtain ⟨nfa1, b, hrun, hiff, htrue, hfalse⟩ := DeleteEdge_result nfa edge hlt
  obtain ⟨nfa1a, ba, hruna, hst, hstart, hterm, -⟩ := DeleteEdge_stored h edge hf
  rw [hrun] at hruna
  cases hruna
  refine ⟨nfa1, b, hrun, hst, hstart, hterm, ?_⟩
  intro s x
  have hother : ∀ s, s ≠ edge.From → edge ∉ nfa.edgesOf s :=
    fun s hs he => hs (h.2.2 s edge he).1.symm
  cases b with
  | true =>
    obtain ⟨hperm, hsame, -⟩ := htrue rfl
    by_cases hs : s = edge.From
    · subst hs
      rw [hperm.count_eq, List.count_erase]
      simp only [beq_iff_eq]
    · rw [hsame s hs]
      by_cases hx : edge = x
      · subst hx
        simp [List.count_eq_zero.mpr (hother s hs)]
      · simp [hx]
  | false =>
    rw [hfalse rfl]
    by_cases hx : edge = x
    · subst hx
      have hnot : edge ∉ nfa.edgesOf s := by
        by_cases hs : s = edge.From
        · subst hs
          intro he
          have := hiff.mpr he
          cases this
        · exact hother s hs
      simp [List.count_eq_zero.mpr hnot]
    · simp [hx]

theorem reduceLoop_count {n : Nat} (edges : List Edge) (hedges : ∀ e ∈ edges, e.From < n)
    (i : Nat) (regexp : List Nat) (nfa : NondeterministicFiniteAutomaton) (h : Stored nfa n) :
    ∃ text nfa1, reduceLoop i edges (regexp, nfa) = .ok (text, nfa1) ∧ Stored nfa1 n ∧
      nfa1.start = nfa.start ∧ nfa1.terminals = nfa.terminals ∧
      ∀ s x, List.count x (nfa1.edgesOf s) = List.count x (nfa.edgesOf s) - List.count x edges := by
  induction edges generalizing i regexp nfa with
  | nil => exact ⟨regexp, nfa, rfl, h, rfl, rfl, by simp⟩
  | cons e edges ih =>
    obtain ⟨nfa1, b, hdel, hst, hstart, hterm, hcount⟩ :=
      DeleteEdge_count h e (hedges e (List.mem_cons_self _ _))
    obtain ⟨text, nfa2, hrun, hst2, hstart2, hterm2, hcount2⟩ :=
      ih (fun x hx => hedges x (List.mem_cons_of_mem _ hx)) (i + 1) (regexp ++ edgeText i e)
        nfa1 hst
    refine ⟨text, nfa2, by simp only [reduceLoop, hdel, hrun], hst2, hstart2.trans hstart,
      hterm2.trans hterm, ?_⟩
    intro s x
    rw [hcount2, hcount, List.count_cons, Nat.sub_sub]
    simp only [beq_iff_eq, Nat.add_comm]

/-- `reduceEdgesToRegexp` counted: it returns, and of the edges of every
state it leaves as many occurrences of an edge less as the list it is given
holds, none if there are fewer. -/
theorem reduceEdgesToRegexp_count {n : Nat} (edges : List Edge)
    (hedges : ∀ e ∈ edges, e.From < n) (nfa : NondeterministicFiniteAutomaton)
    (h : Stored nfa n) :
    ∃ text nfa1, reduceEdgesToRegexp nfa edges = .ok (text, nfa1) ∧ Stored nfa1 n ∧
      nfa1.start = nfa.start ∧ nfa1.terminals = nfa.terminals ∧
      ∀ s x, List.count x (nfa1.edgesOf s) = List.count x (nfa.edgesOf s) - List.count x edges := by
  cases edges with
  | nil => exact ⟨[49], nfa, by simp [reduceEdgesToRegexp], h, rfl, rfl, by simp⟩
  | cons e edges =>
    obtain ⟨text, nfa1, hrun, hst, hstart, hterm, hcount⟩ :=
      reduceLoop_count (e :: edges) hedges 0 [40] nfa h
    exact ⟨text ++ [41], nfa1, by simp [reduceEdgesToRegexp, hrun], hst, hstart, hterm, hcount⟩

theorem reduceManyEdgesToRegexp_count {n : Nat} (m : List (State × List Edge))
    (hm : EntriesOk n m) (nfa : NondeterministicFiniteAutomaton) (h : Stored nfa n) :
    ∃ texts nfa1, reduceManyEdgesToRegexp nfa m = .ok (texts, nfa1) ∧ Stored nfa1 n ∧
      nfa1.start = nfa.start ∧ nfa1.terminals = nfa.terminals ∧
      texts.map Prod.fst = m.map Prod.fst ∧
      ∀ s x, List.count x (nfa1.edgesOf s) =
        List.count x (nfa.edgesOf s) - List.count x (m.flatMap fun p => p.2) := by
  induction m generalizing nfa with
  | nil => exact ⟨[], nfa, rfl, h, rfl, rfl, rfl, by simp⟩
  | cons p m ih =>
    obtain ⟨state, edges⟩ := p
    have hp := hm (state, edges) (List.mem_cons_self _ _)
    obtain ⟨text, nfa1, hrun, hst, hstart, hterm, hcount⟩ :=
      reduceEdgesToRegexp_count edges hp.2 nfa h
    obtain ⟨texts, nfa2, hrun2, hst2, hstart2, hterm2, hkeys, hcount2⟩ :=
      ih (fun q hq => hm q (List.mem_cons_of_mem _ hq)) nfa1 hst
    refine ⟨(state, text) :: texts, nfa2, by simp [reduceManyEdgesToRegexp, hrun, hrun2], hst2,
      hstart2.trans hstart, hterm2.trans hterm, by simp [hkeys], ?_⟩
    intro s x
    rw [hcount2, hcount, List.flatMap_cons, List.count_append, Nat.sub_sub]

theorem mapAppend_count (m : List (State × List Edge)) (key : State) (edge x : Edge) :
    List.count x ((mapAppend m key edge).flatMap fun p => p.2) =
      List.count x (m.flatMap fun p => p.2) + (if edge = x then 1 else 0) := by
  induction m with
  | nil => simp [mapAppend, List.count_singleton]
  | cons q m ih =>
    obtain ⟨k, es⟩ := q
    by_cases hk : k = key
    · simp only [mapAppend, hk, if_true, List.flatMap_cons, List.count_append,
        List.count_singleton, beq_iff_eq]
      omega
    · simp only [mapAppend, hk, if_false, List.flatMap_cons, List.count_append, ih]
      omega

/-- The three groups together hold every edge that touches `curState` as
often as the list the loop runs over does. -/
theorem classify_count (curState : State) (x : Edge)
    (hx : x.From = curState ∨ x.To = curState) (l : List Edge) (parts : Partition) :
    List.count x (l.foldl (classifyEdge curState) parts).loops +
        List.count x ((l.foldl (classifyEdge curState) parts).prevEdges.flatMap fun p => p.2) +
        List.count x ((l.foldl (classifyEdge curState) parts).nextEdges.flatMap fun p => p.2) =
      List.count x parts.loops + List.count x (parts.prevEdges.flatMap fun p => p.2) +
        List.count x (parts.nextEdges.flatMap fun p => p.2) + List.count x l := by
  induction l generalizing parts with
  | nil => simp
  | cons e l ih =>
    rw [List.foldl_cons, ih, List.count_cons]
    have hstep : List.count x (classifyEdge curState parts e).loops +
        List.count x ((classifyEdge curState parts e).prevEdges.flatMap fun p => p.2) +
        List.count x ((classifyEdge curState parts e).nextEdges.flatMap fun p => p.2) =
        List.count x parts.loops + List.count x (parts.prevEdges.flatMap fun p => p.2) +
        List.count x (parts.nextEdges.flatMap fun p => p.2) + (if e = x then 1 else 0) := by
      unfold classifyEdge
      split
      · simp only [List.count_append, List.count_singleton, beq_iff_eq]
        omega
      · split
        · simp only [mapAppend_count]
          omega
        · split
          · simp only [mapAppend_count]
            omega
          · rename_i h1 h2 h3
            have hne : e ≠ x := by
              intro hex
              subst hex
              rcases hx with hx | hx
              · exact h3 hx
              · exact h2 hx
            simp [hne]
    rw [hstep]
    simp only [beq_iff_eq]
    omega

/-- The keys of the two edge maps are states other than `curState`. -/
theorem classify_keys_ne (curState : State) (l : List Edge) (parts : Partition)
    (hp : Grouped (fun p _ => p ≠ curState) parts.prevEdges ∧
      Grouped (fun r _ => r ≠ curState) parts.nextEdges) :
    Grouped (fun p _ => p ≠ curState) (l.foldl (classifyEdge curState) parts).prevEdges ∧
      Grouped (fun r _ => r ≠ curState) (l.foldl (classifyEdge curState) parts).nextEdges := by
  induction l generalizing parts with
  | nil => exact hp
  | cons e l ih =>
    refine ih _ ?_
    unfold classifyEdge
    split
    · exact hp
    · split
      · rename_i h1 h2
        refine ⟨mapAppend_grouped _ _ hp.1 _ _ ?_, hp.2⟩
        intro hfrom
        exact h1 ⟨hfrom, h2⟩
      · split
        · rename_i h1 h2 h3
          exact ⟨hp.1, mapAppend_grouped _ _ hp.2 _ _ h2⟩
        · exact hp

/-- The elimination of `curState` returns and leaves no edge that leaves
`curState` or leads to it. -/
theorem eliminateState_clears {n : Nat} (curState : State)
    (nfa : NondeterministicFiniteAutomaton) (h : Stored nfa n) :
    ∃ nfa1, eliminateState curState nfa = .ok nfa1 ∧ Stored nfa1 n ∧ nfa1.start = nfa.start ∧
      nfa1.terminals = nfa.terminals ∧
      ∀ e ∈ nfa1.edges.flatten, e.From ≠ curState ∧ e.To ≠ curState := by
  have hparts : PartitionOk n (nfa.edges.flatten.foldl (classifyEdge curState)
      { loops := [], prevEdges := [], nextEdges := [] }) :=
    classify_ok curState _ (stored_flatten h) _
      ⟨fun _ he => absurd he (List.not_mem_nil _), fun _ hp => absurd hp (List.not_mem_nil _),
        fun _ hp => absurd hp (List.not_mem_nil _)⟩
  have hkeys := classify_keys_ne curState nfa.edges.flatten
      { loops := [], prevEdges := [], nextEdges := [] }
      ⟨fun _ hp => absurd hp (List.not_mem_nil _), fun _ hp => absurd hp (List.not_mem_nil _)⟩
  have hcnt := fun (x : Edge) (hx : x.From = curState ∨ x.To = curState) =>
    classify_count curState x hx nfa.edges.flatten
      { loops := [], prevEdges := [], nextEdges := [] }
  obtain ⟨loop, nfa1, h1, hst1, hstart1, hterm1, hc1⟩ :=
    reduceEdgesToRegexp_count _ hparts.1 nfa h
  obtain ⟨prevR, nfa2, h2, hst2, hstart2, hterm2, hk2, hc2⟩ :=
    reduceManyEdgesToRegexp_count _ hparts.2.1 nfa1 hst1
  obtain ⟨nextR, nfa3, h3, hst3, hstart3, hterm3, hk3, hc3⟩ :=
    reduceManyEdgesToRegexp_count _ hparts.2.2 nfa2 hst2
  have hall3 : ∀ e ∈ nfa3.edges.flatten, e.From ≠ curState ∧ e.To ≠ curState := by
    intro e he
    obtain ⟨s, hs⟩ := (mem_flatten_iff nfa3 e).mp he
    by_contra hcon
    have htouch : e.From = curState ∨ e.To = curState := by
      by_cases hf : e.From = curState
      · exact Or.inl hf
      · by_cases ht : e.To = curState
        · exact Or.inr ht
        · exact absurd ⟨hf, ht⟩ hcon
    have hpos := List.count_pos_iff.mpr hs
    rw [hc3, hc2, hc1] at hpos
    have hall := hcnt e htouch
    have hle := count_edgesOf_le nfa s e
    simp only [List.count_nil, List.flatMap_nil, Nat.zero_add] at hall
    omega
  obtain ⟨nfa4, h4, hst4, hstart4, hterm4, hall4⟩ := forEach_addEdge_inv
    (fun e => e.From ≠ curState ∧ e.To ≠ curState) loop
    (prevR.flatMap fun p => nextR.map fun q => (p, q))
    (by
      intro pn hpn
      obtain ⟨p, hp, hmap⟩ := List.mem_flatMap.mp hpn
      obtain ⟨q, hq, rfl⟩ := List.mem_map.mp hmap
      have hp1 : p.1 ∈ prevR.map Prod.fst := List.mem_map.mpr ⟨p, hp, rfl⟩
      have hq1 : q.1 ∈ nextR.map Prod.fst := List.mem_map.mpr ⟨q, hq, rfl⟩
      rw [hk2] at hp1
      rw [hk3] at hq1
      obtain ⟨p0, hp0, hp0e⟩ := List.mem_map.mp hp1
      obtain ⟨q0, hq0, hq0e⟩ := List.mem_map.mp hq1
      have hpk := hkeys.1 p0 hp0
      have hqk := hkeys.2 q0 hq0
      obtain ⟨ep, es, hes⟩ := List.exists_cons_of_ne_nil hpk.1
      obtain ⟨eq, eqs, heqs⟩ := List.exists_cons_of_ne_nil hqk.1
      have hpne : p0.1 ≠ curState := hpk.2 ep (by rw [hes]; exact List.mem_cons_self _ _)
      have hqne : q0.1 ≠ curState := hqk.2 eq (by rw [heqs]; exact List.mem_cons_self _ _)
      refine ⟨?_, ?_, ?_, ?_⟩
      · show p.1 < n
        rw [← hp0e]; exact (hparts.2.1 p0 hp0).1
      · show q.1 < n
        rw [← hq0e]; exact (hparts.2.2 q0 hq0).1
      · show p.1 ≠ curState
        rw [← hp0e]; exact hpne
      · show q.1 ≠ curState
        rw [← hq0e]; exact hqne)
    nfa3 hst3 hall3
  refine ⟨nfa4, ?_, hst4, ?_, ?_, hall4⟩
  · simp only [eliminateState, h1, h2, h3]
    exact h4
  · rw [hstart4, hstart3, hstart2, hstart1]
  · rw [hterm4, hterm3, hterm2, hterm1]

/-- No edge touches `s`: kept by every elimination. -/
theorem synthClosed_avoid (c s : State) :
    SynthClosed c (fun e => e.From ≠ s ∧ e.To ≠ s) := by
  intro ps loops ns p r hps hns hp _ hn
  obtain ⟨e, es, hes⟩ := List.exists_cons_of_ne_nil hps
  obtain ⟨e2, es2, hes2⟩ := List.exists_cons_of_ne_nil hns
  have he := hp e (by rw [hes]; exact List.mem_cons_self _ _)
  have he2 := hn e2 (by rw [hes2]; exact List.mem_cons_self _ _)
  refine ⟨?_, ?_⟩
  · show p ≠ s
    rw [← he.2.1]; exact he.1.1
  · show r ≠ s
    rw [← he2.2.2]; exact he2.1.2

/-- The loop over the ordinary states returns and leaves no edge that
touches one of them. -/
theorem forEach_eliminateState_clears {n : Nat} (states : List State)
    (nfa : NondeterministicFiniteAutomaton) (h : Stored nfa n) :
    ∃ nfa1, forEach eliminateState states nfa = .ok nfa1 ∧ Stored nfa1 n ∧
      nfa1.start = nfa.start ∧ nfa1.terminals = nfa.terminals ∧
      ∀ e ∈ nfa1.edges.flatten, ∀ c ∈ states, e.From ≠ c ∧ e.To ≠ c := by
  induction states generalizing nfa with
  | nil => exact ⟨nfa, rfl, h, rfl, rfl, fun _ _ c hc => absurd hc (List.not_mem_nil _)⟩
  | cons s states ih =>
    obtain ⟨nfa1, h1, hst1, hstart1, hterm1, hall1⟩ := eliminateState_clears s nfa h
    obtain ⟨nfa2, h2, hst2, hstart2, hterm2, hall2⟩ := ih nfa1 hst1
    obtain ⟨nfa2a, h2a, -, -, -, hall2a⟩ := forEach_eliminateState_inv
      (fun e => e.From ≠ s ∧ e.To ≠ s) states (fun c _ => synthClosed_avoid c s) nfa1 hst1 hall1
    rw [h2] at h2a
    cases h2a
    refine ⟨nfa2, by simp only [forEach, h1, h2], hst2, hstart2.trans hstart1,
      hterm2.trans hterm1, ?_⟩
    intro e he c hc
    rcases List.mem_cons.mp hc with hc | hc
    · subst hc
      exact hall2a e he
    · exact hall2 e he c hc

/-- What `ConvertNfaToRegexp` leaves of a well-formed NFA with `n` states:
the start state, `n + 1` states, no terminal state and no edge. -/
theorem ConvertNfaToRegexp_leaves (nfa : NondeterministicFiniteAutomaton) (hwf : nfa.WellFormed) :
    ∃ text nfa1, ConvertNfaToRegexp nfa = .ok (text, nfa1) ∧ nfa1.start = nfa.start ∧
      nfa1.terminals = List.replicate (nfa.StateCount + 1) false ∧
      nfa1.edges = List.replicate (nfa.StateCount + 1) [] := by
  obtain ⟨nfaT, hT, hstT, hstartT, htermT, -, -⟩ :=
    ConvertNfaToNfaWithSingleTerminal_spec nfa hwf
  have hcountT : nfaT.StateCount = nfa.StateCount + 1 := hstT.2.1
  have hn : 0 < nfa.StateCount := Nat.lt_of_le_of_lt (Nat.zero_le _) hwf.2.1
  obtain ⟨nfa2, h2, hst2, hstart2, hterm2, hall2⟩ := forEach_eliminateState_clears
    ((List.range nfaT.StateCount).filter
      fun state => decide (state ≠ nfaT.Start) && decide (state ≠ nfa.StateCount)) nfaT hstT
  have hs2 : nfa2.Start < nfa.StateCount + 1 := by
    show nfa2.start < _
    rw [hstart2, hstartT]; exact Nat.lt_succ_of_lt hwf.2.1
  have hlen2 : nfa2.edges.length = nfa.StateCount + 1 := hst2.2.1
  have hlt1 : nfa2.Start < nfa2.edges.length := by rw [hlen2]; exact hs2
  have hlt2 : nfa.StateCount < nfa2.edges.length := by rw [hlen2]; exact Nat.lt_succ_self _
  have hE1 : nfa2.Edges nfa2.Start = .ok (nfa2.edgesOf nfa2.Start) := by
    simp [Edges, edgesOf_of_lt hlt1]
  have hE2 : nfa2.Edges nfa.StateCount = .ok (nfa2.edgesOf nfa.StateCount) := by
    simp [Edges, edgesOf_of_lt hlt2]
  obtain ⟨t3, nfa3, h3, hst3, hstart3, hterm3, hc3⟩ := reduceEdgesToRegexp_count _
    (filter_from_lt hst2 nfa2.Start hs2 fun e => decide (e.To = nfa2.Start)) nfa2 hst2
  obtain ⟨t4, nfa4, h4, hst4, hstart4, hterm4, hc4⟩ := reduceEdgesToRegexp_count _
    (filter_from_lt hst2 nfa.StateCount (Nat.lt_succ_self _)
      fun e => decide (e.To = nfa.StateCount)) nfa3 hst3
  obtain ⟨t5, nfa5, h5, hst5, hstart5, hterm5, hc5⟩ := reduceEdgesToRegexp_count _
    (filter_from_lt hst2 nfa2.Start hs2 fun e => !decide (e.To = nfa2.Start)) nfa4 hst4
  obtain ⟨t6, nfa6, h6, hst6, hstart6, hterm6, hc6⟩ := reduceEdgesToRegexp_count _
    (filter_from_lt hst2 nfa.StateCount (Nat.lt_succ_self _)
      fun e => !decide (e.To = nfa.StateCount)) nfa5 hst5
  refine ⟨[40] ++ t3 ++ [42] ++ t5 ++ t4 ++ [42] ++ t6 ++ [41, 42] ++ t3 ++ [42] ++ t5 ++ t4
    ++ [42], nfa6, ?_, ?_, ?_, ?_⟩
  · unfold ConvertNfaToRegexp
    simp only [hT, hcountT, show ¬ nfa.StateCount + 1 < 2 by omega, if_false]
    rw [hcountT] at h2
    simp only [h2, hE1, hE2, h3, h4, h5, h6]
  · rw [hstart6, hstart5, hstart4, hstart3, hstart2, hstartT]
  · rw [hterm6, hterm5, hterm4, hterm3, hterm2]
    refine List.eq_replicate_iff.mpr ⟨hstT.1, ?_⟩
    intro b hb
    obtain ⟨i, hi, rfl⟩ := List.mem_iff_getElem.mp hb
    have := htermT i (by rw [← hstT.1]; exact hi)
    rw [List.getElem?_eq_getElem hi] at this
    exact Option.some.inj this
  · refine List.eq_replicate_iff.mpr ⟨hst6.2.1, ?_⟩
    intro l hl
    obtain ⟨i, hi, rfl⟩ := List.mem_iff_getElem.mp hl
    have hof : nfa6.edgesOf i = nfa6.edges[i] := by
      simp [edgesOf, List.getD_eq_getElem?_getD, List.getElem?_eq_getElem hi]
    rw [← hof]
    refine List.eq_nil_iff_forall_not_mem.mpr ?_
    intro x hx
    have hpos := List.count_pos_iff.mpr hx
    rw [hc6, hc5, hc4, hc3] at hpos
    have hi2 : i < nfa.StateCount + 1 := by rw [← hst6.2.1]; exact hi
    by_cases his : i = nfa2.Start
    · subst his
      have hsplit := (List.filter_append_perm (fun e : Edge => decide (e.To = nfa2.Start))
        (nfa2.edgesOf nfa2.Start)).count_eq x
      simp only [List.count_append] at hsplit
      omega
    · by_cases hiT : i = nfa.StateCount
      · subst hiT
        have hsplit := (List.filter_append_perm (fun e : Edge => decide (e.To = nfa.StateCount))
          (nfa2.edgesOf nfa.StateCount)).count_eq x
        simp only [List.count_append] at hsplit
        omega
      · have hord : i ∈ (List.range nfaT.StateCount).filter
            (fun state => decide (state ≠ nfaT.Start) && decide (state ≠ nfa.StateCount)) := by
          refine List.mem_filter.mpr ⟨List.mem_range.mpr (by rw [hcountT]; exact hi2), ?_⟩
          have hstartEq : nfa2.Start = nfaT.Start := hstart2
          rw [hstartEq] at his
          simp [his, hiT]
        have hempty : nfa2.edgesOf i = [] := by
          refine List.eq_nil_iff_forall_not_mem.mpr ?_
          intro e he
          have hfrom := (hst2.2.2 i e he).1
          exact (hall2 e ((mem_flatten_iff _ e).mpr ⟨i, he⟩) i hord).1 hfrom
        rw [hempty] at hpos
        simp at hpos

end

section

open NondeterministicFiniteAutomaton

/-- C8, amended: on a well-formed NFA with `n` states `SplitLongWordsInNfa`
and `ConvertNfaToNfaWithWordsOfLen1` return and the automaton they were given
is then what it was before the call. `ConvertNfaToDfa` returns exactly when
the embedding without the argument in view returns, as it does if all edge
words are made of bytes below 0x80, and whenever it returns the automaton it
was given is what it was before the call. `ConvertNfaToRegexp` returns and the
automaton it was given has then the same start state, `n + 1` states, no
terminal state and no edge, so it is not what it was before the call. -/
theorem ConvertNfaToRegexp_in_place (nfa : NondeterministicFiniteAutomaton)
    (h : nfa.WellFormed) :
    (∃ newNfa, SplitLongWordsInNfaCall nfa = .ok (nfa, newNfa) ∧
      SplitLongWordsInNfa nfa = .ok newNfa) ∧
    (∃ nfa3, ConvertNfaToNfaWithWordsOfLen1Call nfa = .ok (nfa, nfa3) ∧
      ConvertNfaToNfaWithWordsOfLen1 nfa = .ok nfa3) ∧
    ConvertNfaToDfaCall nfa = (ConvertNfaToDfa nfa).map (fun dfa => (nfa, dfa)) ∧
    (∀ nfa1 dfa, ConvertNfaToDfaCall nfa = .ok (nfa1, dfa) → nfa1 = nfa) ∧
    (AsciiWords nfa → ∃ dfa, ConvertNfaToDfaCall nfa = .ok (nfa, dfa)) ∧
    ∃ text nfa1, ConvertNfaToRegexp nfa = .ok (text, nfa1) ∧ nfa1.start = nfa.start ∧
      nfa1.StateCount = nfa.StateCount + 1 ∧
      nfa1.terminals = List.replicate (nfa.StateCount + 1) false ∧
      nfa1.edges = List.replicate (nfa.StateCount + 1) [] ∧ nfa1 ≠ nfa := by
  obtain ⟨nfa2, k, hsplit, hst2, hstart2, -⟩ := SplitLongWordsInNfa_stored nfa h
  have hs2 : nfa2.start < nfa.StateCount + k := by
    rw [hstart2]; exact Nat.lt_of_lt_of_le h.2.1 (Nat.le_add_right _ _)
  obtain ⟨nfa3, hfold, -, -⟩ := fold_spec nfa2 hst2 hs2
  have hwords : ConvertNfaToNfaWithWordsOfLen1 nfa = .ok nfa3 := by
    simp only [ConvertNfaToNfaWithWordsOfLen1, hsplit]
    exact hfold
  refine ⟨⟨nfa2, ?_, hsplit⟩, ⟨nfa3, ?_, hwords⟩, ConvertNfaToDfaCall_eq nfa, ?_, ?_, ?_⟩
  · rw [SplitLongWordsInNfaCall_eq, hsplit]; rfl
  · rw [ConvertNfaToNfaWithWordsOfLen1Call_eq, hwords]; rfl
  · intro nfa1 dfa hrun
    rw [ConvertNfaToDfaCall_eq] at hrun
    cases hd : ConvertNfaToDfa nfa with
    | error p => rw [hd] at hrun; cases hrun
    | ok d =>
      rw [hd] at hrun
      simp only [Except.map, Except.ok.injEq, Prod.mk.injEq] at hrun
      exact hrun.1.symm
  · intro hascii
    obtain ⟨nfa4, n, hrun, hst, hstart, hone, -⟩ :=
      ConvertNfaToNfaWithWordsOfLen1_spec nfa h hascii
    have hcount : nfa4.StateCount = n := hst.2.1
    obtain ⟨ex, id, hdfs, -, -, -⟩ := dfsMeta_total nfa4 n hst hone (2 ^ n + 1)
      ((List.replicate n false).set nfa4.start true)
      { dfa := NewDeterministicFiniteAutomaton, metaStates := [] }
      (by simp)
      ⟨rfl, rfl, by simp, fun _ hp => absurd hp (List.not_mem_nil _)⟩
      (by simp)
    refine ⟨ex.dfa, ?_⟩
    rw [ConvertNfaToDfaCall_eq]
    simp only [ConvertNfaToDfa, hrun, Start, hcount, hstart, if_true, hdfs]
    rfl
  · obtain ⟨text, nfa1, hrun, hstart, hterm, hedges⟩ := ConvertNfaToRegexp_leaves nfa h
    have hcount : nfa1.StateCount = nfa.StateCount + 1 := by
      simp [StateCount, hedges]
    refine ⟨text, nfa1, hrun, hstart, hcount, hterm, hedges, ?_⟩
    intro heq
    rw [heq] at hcount
    omega

theorem ConvertNfaToRegexp_in_place_witness :
    (nfaAB.WellFormed ∧ AsciiWords nfaAB) ∧
    (∃ newNfa, SplitLongWordsInNfaCall nfaAB = .ok (nfaAB, newNfa) ∧
      SplitLongWordsInNfa nfaAB = .ok newNfa) ∧
    (∃ nfa3, ConvertNfaToNfaWithWordsOfLen1Call nfaAB = .ok (nfaAB, nfa3) ∧
      ConvertNfaToNfaWithWordsOfLen1 nfaAB = .ok nfa3) ∧
    ConvertNfaToDfaCall nfaAB = (ConvertNfaToDfa nfaAB).map (fun dfa => (nfaAB, dfa)) ∧
    (∀ nfa1 dfa, ConvertNfaToDfaCall nfaAB = .ok (nfa1, dfa) → nfa1 = nfaAB) ∧
    (AsciiWords nfaAB → ∃ dfa, ConvertNfaToDfaCall nfaAB = .ok (nfaAB, dfa)) ∧
    ∃ text nfa1, ConvertNfaToRegexp nfaAB = .ok (text, nfa1) ∧ nfa1.start = nfaAB.start ∧
      nfa1.StateCount = nfaAB.StateCount + 1 ∧
      nfa1.terminals = List.replicate (nfaAB.StateCount + 1) false ∧
      nfa1.edges = List.replicate (nfaAB.StateCount + 1) [] ∧ nfa1 ≠ nfaAB :=
  ⟨⟨nfaAB_wellFormed, nfaAB_ascii⟩, ConvertNfaToRegexp_in_place nfaAB nfaAB_wellFormed⟩

end

section

open NondeterministicFiniteAutomaton

/-- C20: on every well-formed NFA with `n` states `ConvertNfaToRegexp` runs
as follows. `ConvertNfaToNfaWithSingleTerminal` returns the fresh state
`T = n`. The loop over the ordinary states returns, and before its first and
after each of its rounds every edge that leaves `T` leads to `T`. So in the
automaton `nfa2` the loop ends with, no edge leaves `T` for another state, and
`reduceEdgesToRegexp` returns `1` for the edges from `T` to the start state.
The text returned is `(` X `1)*` X with X = loopStart `*` startToT loopT `*`,
where loopStart, loopT and startToT are what `reduceEdgesToRegexp` returns for
the loops at the start state of `nfa2`, the loops at `T` and the other edges
that leave the start state: for each the words of the edges, `1` for an empty
word, separated by `+` in parentheses, and `1` for no edge. If no word of the
NFA uses one of the characters `1 ( ) * +`, the text recognizes exactly the
strings that are one or more strings of X side by side, so with two strings
also their concatenation. -/
theorem ConvertNfaToRegexp_round (nfa : NondeterministicFiniteAutomaton) (hwf : nfa.WellFormed) :
    ∃ nfaT nfa2 nfa3 nfa4 nfa5 nfa6 loopStart loopT startToT,
      ConvertNfaToNfaWithSingleTerminal nfa = .ok (nfaT, nfa.StateCount) ∧
      (∀ k, ∃ nfaK,
        forEach eliminateState
          (((List.range nfaT.StateCount).filter
            fun state => decide (state ≠ nfaT.Start) && decide (state ≠ nfa.StateCount)).take k)
          nfaT = .ok nfaK ∧
        ∀ e ∈ nfaK.edgesOf nfa.StateCount, e.To = nfa.StateCount) ∧
      forEach eliminateState
        ((List.range nfaT.StateCount).filter
          fun state => decide (state ≠ nfaT.Start) && decide (state ≠ nfa.StateCount))
        nfaT = .ok nfa2 ∧
      leavingAt nfa2 nfa.StateCount = [] ∧
      reduceEdgesToRegexp nfa2 (loopsAt nfa2 nfa2.Start) = .ok (loopStart, nfa3) ∧
      reduceEdgesToRegexp nfa3 (loopsAt nfa2 nfa.StateCount) = .ok (loopT, nfa4) ∧
      reduceEdgesToRegexp nfa4 (leavingAt nfa2 nfa2.Start) = .ok (startToT, nfa5) ∧
      reduceEdgesToRegexp nfa5 (leavingAt nfa2 nfa.StateCount) = .ok ([49], nfa6) ∧
      loopStart = fragmentText (loopsAt nfa2 nfa2.Start) ∧
      loopT = fragmentText (loopsAt nfa2 nfa.StateCount) ∧
      startToT = fragmentText (leavingAt nfa2 nfa2.Start) ∧
      ConvertNfaToRegexp nfa = .ok (closureText (roundText loopStart startToT loopT), nfa6) ∧
      (PlainWords nfa →
        (∀ w, recognizes (closureText (roundText loopStart startToT loopT)) w ↔
          ∃ ws : List (List Nat), ws ≠ [] ∧ w = ws.flatten ∧
            ∀ v ∈ ws, recognizes (roundText loopStart startToT loopT) v) ∧
        ∀ w1 w2, recognizes (closureText (roundText loopStart startToT loopT)) w1 →
          recognizes (closureText (roundText loopStart startToT loopT)) w2 →
          recognizes (closureText (roundText loopStart startToT loopT)) (w1 ++ w2)) := by
  obtain ⟨nfaT, hT, hstT, hstartT, -, hedgesT, hedgesTT⟩ :=
    ConvertNfaToNfaWithSingleTerminal_spec nfa hwf
  have hQT := singleTerminal_edges nfa nfaT hstT hedgesT hedgesTT
  have hcountT : nfaT.StateCount = nfa.StateCount + 1 := hstT.2.1
  have hn : 0 < nfa.StateCount := Nat.lt_of_le_of_lt (Nat.zero_le _) hwf.2.1
  have hord : ∀ c ∈ (List.range nfaT.StateCount).filter
      (fun state => decide (state ≠ nfaT.Start) && decide (state ≠ nfa.StateCount)),
      c ≠ nfa.StateCount := by
    intro c hc
    have := (List.mem_filter.mp hc).2
    simp only [Bool.and_eq_true, decide_eq_true_eq] at this
    exact this.2
  have hprefix : ∀ k, ∃ nfaK,
      forEach eliminateState
        (((List.range nfaT.StateCount).filter
          fun state => decide (state ≠ nfaT.Start) && decide (state ≠ nfa.StateCount)).take k)
        nfaT = .ok nfaK ∧
      ∀ e ∈ nfaK.edgesOf nfa.StateCount, e.To = nfa.StateCount := by
    intro k
    obtain ⟨nfa1, h1, hst1, -, -, hall1⟩ := forEach_eliminateState_inv
      (fun e => e.From = nfa.StateCount → e.To = nfa.StateCount)
      (((List.range nfaT.StateCount).filter
        fun state => decide (state ≠ nfaT.Start) && decide (state ≠ nfa.StateCount)).take k)
      (fun c hc => synthClosed_sink c nfa.StateCount (hord c (List.mem_of_mem_take hc)))
      nfaT hstT (fun e he => (hQT e he).1)
    refine ⟨nfa1, h1, ?_⟩
    intro e he
    exact hall1 e ((mem_flatten_iff _ e).mpr ⟨_, he⟩) (hst1.2.2 _ e he).1
  obtain ⟨nfa2, h2, hst2, hstart2, -, hall2⟩ := forEach_eliminateState_inv
    (fun e => (e.From = nfa.StateCount → e.To = nfa.StateCount) ∧
      (PlainWords nfa → WordOk e.Word))
    ((List.range nfaT.StateCount).filter
      fun state => decide (state ≠ nfaT.Start) && decide (state ≠ nfa.StateCount))
    (fun c hc => synthClosed_and c _ _ (synthClosed_sink c nfa.StateCount (hord c hc))
      (synthClosed_imp c _ _ (synthClosed_wordOk c)))
    nfaT hstT hQT
  have hs2 : nfa2.Start < nfa.StateCount + 1 := by
    show nfa2.start < _
    rw [hstart2, hstartT]; exact Nat.lt_succ_of_lt hwf.2.1
  have hlen2 : nfa2.edges.length = nfa.StateCount + 1 := hst2.2.1
  have hlt1 : nfa2.Start < nfa2.edges.length := by rw [hlen2]; exact hs2
  have hlt2 : nfa.StateCount < nfa2.edges.length := by rw [hlen2]; exact Nat.lt_succ_self _
  have hE1 : nfa2.Edges nfa2.Start = .ok (nfa2.edgesOf nfa2.Start) := by
    simp [Edges, edgesOf_of_lt hlt1]
  have hE2 : nfa2.Edges nfa.StateCount = .ok (nfa2.edgesOf nfa.StateCount) := by
    simp [Edges, edgesOf_of_lt hlt2]
  have hnone : leavingAt nfa2 nfa.StateCount = [] := by
    unfold leavingAt
    rw [List.filter_eq_nil_iff]
    intro e he
    have hto := (hall2 e ((mem_flatten_iff _ e).mpr ⟨_, he⟩)).1 (hst2.2.2 _ e he).1
    simp [hto]
  obtain ⟨nfa3, h3, hst3, -, -, -⟩ := reduceEdgesToRegexp_spec (loopsAt nfa2 nfa2.Start)
    (filter_from_lt hst2 nfa2.Start hs2 fun e => decide (e.To = nfa2.Start)) nfa2 hst2
  obtain ⟨nfa4, h4, hst4, -, -, -⟩ := reduceEdgesToRegexp_spec (loopsAt nfa2 nfa.StateCount)
    (filter_from_lt hst2 nfa.StateCount (Nat.lt_succ_self _)
      fun e => decide (e.To = nfa.StateCount)) nfa3 hst3
  obtain ⟨nfa5, h5, hst5, -, -, -⟩ := reduceEdgesToRegexp_spec (leavingAt nfa2 nfa2.Start)
    (filter_from_lt hst2 nfa2.Start hs2 fun e => !decide (e.To = nfa2.Start)) nfa4 hst4
  obtain ⟨nfa6, h6, -, -, -, -⟩ := reduceEdgesToRegexp_spec (leavingAt nfa2 nfa.StateCount)
    (filter_from_lt hst2 nfa.StateCount (Nat.lt_succ_self _)
      fun e => !decide (e.To = nfa.StateCount)) nfa5 hst5
  have hnil : fragmentText [] = [49] := rfl
  have h6a : reduceEdgesToRegexp nfa5 (leavingAt nfa2 nfa.StateCount) = .ok ([49], nfa6) := by
    rw [h6, hnone, hnil]
  have hfrag : ∀ (s : State) (p : Edge → Bool), PlainWords nfa →
      ∃ r, Gram .base (fragmentText ((nfa2.edgesOf s).filter p)) r := by
    intro s p hplain
    refine fragment_gram _ (fun e he => ?_)
    exact (hall2 e ((mem_flatten_iff _ e).mpr ⟨s, List.mem_of_mem_filter he⟩)).2 hplain
  have hlang : PlainWords nfa → ∀ w,
      recognizes
        (closureText (roundText (fragmentText (loopsAt nfa2 nfa2.Start))
          (fragmentText (leavingAt nfa2 nfa2.Start))
          (fragmentText (loopsAt nfa2 nfa.StateCount)))) w ↔
      ∃ ws : List (List Nat), ws ≠ [] ∧ w = ws.flatten ∧
        ∀ v ∈ ws, recognizes
          (roundText (fragmentText (loopsAt nfa2 nfa2.Start))
            (fragmentText (leavingAt nfa2 nfa2.Start))
            (fragmentText (loopsAt nfa2 nfa.StateCount))) v := by
    intro hplain w
    obtain ⟨r1, hr1⟩ := hfrag nfa2.Start (fun e => decide (e.To = nfa2.Start)) hplain
    obtain ⟨r2, hr2⟩ := hfrag nfa2.Start (fun e => !decide (e.To = nfa2.Start)) hplain
    obtain ⟨r3, hr3⟩ := hfrag nfa.StateCount (fun e => decide (e.To = nfa.StateCount)) hplain
    exact round_language _ _ _ r1 r2 r3 hr1 hr2 hr3 w
  refine ⟨nfaT, nfa2, nfa3, nfa4, nfa5, nfa6, _, _, _, hT, hprefix, h2, hnone, h3, h4, h5, h6a,
    rfl, rfl, rfl, ?_, fun hplain => ⟨hlang hplain, ?_⟩⟩
  · unfold ConvertNfaToRegexp
    simp only [hT, hcountT, show ¬ nfa.StateCount + 1 < 2 by omega, if_false]
    rw [hcountT] at h2
    simp only [loopsAt, leavingAt] at h3 h4 h5 h6a ⊢
    simp only [h2, hE1, hE2, h3, h4, h5, h6a]
    simp [roundText, closureText]
  · intro w1 w2 h1 h2
    obtain ⟨ws1, hne1, rfl, hws1⟩ := (hlang hplain w1).mp h1
    obtain ⟨ws2, -, rfl, hws2⟩ := (hlang hplain w2).mp h2
    refine (hlang hplain _).mpr ⟨ws1 ++ ws2, by simp [hne1], by simp, ?_⟩
    intro v hv
    rcases List.mem_append.mp hv with hv | hv
    · exact hws1 v hv
    · exact hws2 v hv

theorem ConvertNfaToRegexp_round_witness :
    (nfaAB.WellFormed ∧ PlainWords nfaAB) ∧
    ∃ nfaT nfa2 nfa3 nfa4 nfa5 nfa6 loopStart loopT startToT,
      ConvertNfaToNfaWithSingleTerminal nfaAB = .ok (nfaT, nfaAB.StateCount) ∧
      (∀ k, ∃ nfaK,
        forEach eliminateState
          (((List.range nfaT.StateCount).filter
            fun state => decide (state ≠ nfaT.Start) && decide (state ≠ nfaAB.StateCount)).take k)
          nfaT = .ok nfaK ∧
        ∀ e ∈ nfaK.edgesOf nfaAB.StateCount, e.To = nfaAB.StateCount) ∧
      forEach eliminateState
        ((List.range nfaT.StateCount).filter
          fun state => decide (state ≠ nfaT.Start) && decide (state ≠ nfaAB.StateCount))
        nfaT = .ok nfa2 ∧
      leavingAt nfa2 nfaAB.StateCount = [] ∧
      reduceEdgesToRegexp nfa2 (loopsAt nfa2 nfa2.Start) = .ok (loopStart, nfa3) ∧
      reduceEdgesToRegexp nfa3 (loopsAt nfa2 nfaAB.StateCount) = .ok (loopT, nfa4) ∧
      reduceEdgesToRegexp nfa4 (leavingAt nfa2 nfa2.Start) = .ok (startToT, nfa5) ∧
      reduceEdgesToRegexp nfa5 (leavingAt nfa2 nfaAB.StateCount) = .ok ([49], nfa6) ∧
      loopStart = fragmentText (loopsAt nfa2 nfa2.Start) ∧
      loopT = fragmentText (loopsAt nfa2 nfaAB.StateCount) ∧
      startToT = fragmentText (leavingAt nfa2 nfa2.Start) ∧
      ConvertNfaToRegexp nfaAB = .ok (closureText (roundText loopStart startToT loopT), nfa6) ∧
      (PlainWords nfaAB →
        (∀ w, recognizes (closureText (roundText loopStart startToT loopT)) w ↔
          ∃ ws : List (List Nat), ws ≠ [] ∧ w = ws.flatten ∧
            ∀ v ∈ ws, recognizes (roundText loopStart startToT loopT) v) ∧
        ∀ w1 w2, recognizes (closureText (roundText loopStart startToT loopT)) w1 →
          recognizes (closureText (roundText loopStart startToT loopT)) w2 →
          recognizes (closureText (roundText loopStart startToT loopT)) (w1 ++ w2)) :=
  ⟨⟨nfaAB_wellFormed, nfaAB_plain⟩, ConvertNfaToRegexp_round nfaAB nfaAB_wellFormed⟩

end

end Automata
